import Mathlib

/-!
# VoiceRecorder (src/mumble/VoiceRecorder.cpp): a shallow embedding

The recorder keeps a queue of pending audio chunks, a table of per-track
records and a shared 64-bit sample counter.  Producers call `addBuffer` and
`addSilence`; the worker thread (`run`) wakes, drains the queue and writes
each chunk to its track's file after padding the file with silence up to the
shared counter.

Conventions of the embedding

* `quint64` values are natural numbers kept below `2 ^ 64`; every C++
  addition or subtraction on them is followed by `toQuint64`.
* `int` arguments are integers; the conversion to `quint64` that C++ performs
  in `uiRecordedSamples += samples` is `toQuint64`.
* `Q_ASSERT` is active in a debug build and expands to nothing in a release
  build; the flag `dbg` selects the build.
* A null pointer dereference and a failed assertion end the operation with a
  `Fault`.
* libsndfile is taken to succeed: `sf_open` returns a handle, and the handle
  records every `sf_write_float` call made through it.
* Producer calls and worker iterations are interleaved as atomic steps.
-/

namespace VoiceRecorder

/-! ## Data model -/

/-- One audio sample.  The recorder only copies samples and produces the
silent sample `0`; it never computes with them, so a sample is modelled by an
integer code and `0` stands for `0.0f`. -/
abbrev Sample := Int

/-- Modelled from the spec: ClientUser is declared in ClientUser.h, which is
not part of the sources at hand.  The recorder reads two members of it: the
session id `uiSession`, which it stores in an `int` and uses as track key,
and the display name `qsName`. -/
structure ClientUser where
  uiSession : Int
  qsName : String
  deriving DecidableEq, Repr

/-- The chunk `RecordBuffer(cu, buffer, samples)`: `cuUser` is a pointer that
may be null, `fBuffer` the float array, `iSamples` the `int` sample count. -/
structure RecordBuffer where
  cuUser : Option ClientUser
  fBuffer : List Sample
  iSamples : Int
  deriving DecidableEq, Repr

/-- What has happened through one `SNDFILE*` opened for writing: the path it
was opened with, the title string set on it, and the data of every
`sf_write_float` call in call order. -/
structure SndFile where
  path : String
  title : Option String
  writes : List (List Sample)
  deriving DecidableEq, Repr

/-- The samples stored in the file: the written blocks one after another. -/
def SndFile.frames (f : SndFile) : List Sample :=
  f.writes.flatten

/-- The per-track record `RecordInfo`; the constructor sets `sf(NULL)` and
`uiLastPosition(0)`.  The position is compared with and assigned from the
`quint64` counter `uiRecordedSamples`, and is a `quint64` as well. -/
structure RecordInfo where
  sf : Option SndFile := none
  uiLastPosition : Nat := 0
  deriving DecidableEq, Repr

/-- The output formats of `VoiceRecorder::Format`. -/
inductive Format where
  | WAV
  | VORBIS
  | AU
  | FLAC
  deriving DecidableEq, Repr

/-- The members of `VoiceRecorder` that `VoiceRecorder.cpp` reads and writes,
as its constructor initialises them.  `uiRecordedSamples` is the `quint64`
that `getRecordedSamples` returns; `qhRecordInfo` is the hash from track key
(an `int`) to record, kept as an association list; `qlRecordBuffer` is the
pending queue, oldest chunk first. -/
structure Recorder where
  iSampleRate : Int
  bRecording : Bool
  bMixDown : Bool
  uiRecordedSamples : Nat
  fmFormat : Format
  qsFileName : String
  qlRecordBuffer : List RecordBuffer
  qhRecordInfo : List (Int × RecordInfo)
  deriving DecidableEq, Repr

/-- How an operation can end without a result. -/
inductive Fault where
  | assertion
  | nullPointer
  deriving DecidableEq, Repr

/-- The state the constructor builds: sample rate 0, not recording, no
mixdown, counter 0, WAV, empty file name, empty queue and table. -/
def fresh : Recorder :=
  { iSampleRate := 0, bRecording := false, bMixDown := false,
    uiRecordedSamples := 0, fmFormat := Format.WAV, qsFileName := "",
    qlRecordBuffer := [], qhRecordInfo := [] }

/-! ## Machine arithmetic -/

/-- Two to the power 64, the modulus of `quint64`. -/
def two64 : Nat := 18446744073709551616

/-- Conversion of an integer result to `quint64`: reduction modulo `2 ^ 64`. -/
def toQuint64 (x : Int) : Nat :=
  (x % (two64 : Int)).toNat

/-- The range of the C++ type `int` (32 bits). -/
def isInt (x : Int) : Prop :=
  -2147483648 ≤ x ∧ x ≤ 2147483647

instance (x : Int) : Decidable (isInt x) := by
  unfold isInt; infer_instance

/-! ## Qt and libsndfile primitives -/

/-- The macro `Q_ASSERT(cond)`: fails in a debug build when `cond` is false,
does nothing in a release build. -/
def Q_ASSERT (dbg cond : Bool) : Except Fault Unit :=
  if dbg && !cond then Except.error Fault.assertion else Except.ok ()

/-- `QHash::value`: the record stored under a key, if any. -/
def QHash.value (h : List (Int × RecordInfo)) (k : Int) : Option RecordInfo :=
  h.lookup k

/-- `QHash::contains`. -/
def QHash.contains (h : List (Int × RecordInfo)) (k : Int) : Bool :=
  (QHash.value h k).isSome

/-- `QHash::insert`: replaces the value of a key already present, adds the
key otherwise. -/
def QHash.insert : List (Int × RecordInfo) → Int → RecordInfo → List (Int × RecordInfo)
  | [], k, v => [(k, v)]
  | (k', v') :: t, k, v =>
    if k' = k then (k, v) :: t else (k', v') :: QHash.insert t k v

/-- `QHash::keys`: the keys of the table, in table order. -/
def QHash.keys (h : List (Int × RecordInfo)) : List Int :=
  h.map Prod.fst

/-- The digit value of a character, for the digits `0` to `9`. -/
def digitValue (c : Char) : Option Nat :=
  if c.isDigit then some (c.toNat - 48) else none

/-- The place marker that starts right after a percent sign, if there is one,
as `QString::arg` reads it: an optional `L`, one digit, and a second digit
when one follows.  The result is the marker's number and the count of
characters after the percent sign that belong to it. -/
def escapeAfterPercent (cs : List Char) : Option (Nat × Nat) :=
  let body := if cs.head? = some 'L' then cs.drop 1 else cs
  let skipped := if cs.head? = some 'L' then 1 else 0
  match body with
  | [] => none
  | d :: rest =>
    match digitValue d with
    | none => none
    | some v =>
      match rest.head?.bind digitValue with
      | some w => some (10 * v + w, skipped + 2)
      | none => some (v, skipped + 1)

/-- The numbers of all place markers of a pattern, left to right. -/
def argEscapes : List Char → List Nat
  | [] => []
  | c :: cs =>
    if c = '%' then
      match escapeAfterPercent cs with
      | some (n, _) => n :: argEscapes cs
      | none => argEscapes cs
    else argEscapes cs

/-- Replaces every marker numbered `n` by `a`; `skip` counts the characters
of a marker just replaced that are still to be dropped. -/
def replaceEscapes (n : Nat) (a : List Char) : Nat → List Char → List Char
  | _, [] => []
  | skip + 1, _ :: cs => replaceEscapes n a skip cs
  | 0, c :: cs =>
    if c = '%' then
      match escapeAfterPercent cs with
      | some (m, len) =>
        if m = n then a ++ replaceEscapes n a len cs
        else c :: replaceEscapes n a 0 cs
      | none => c :: replaceEscapes n a 0 cs
    else c :: replaceEscapes n a 0 cs

/-- The decimal text of an `int`. -/
def intText (i : Int) : List Char :=
  match i with
  | Int.ofNat n => (Nat.repr n).toList
  | Int.negSucc n => '-' :: (Nat.repr (n + 1)).toList

/-- `QString::arg(int)`: replaces every occurrence of the lowest numbered
place marker by the decimal text of the argument; a pattern without a marker
is returned as it is.  A marker written with `L` gets the same text, which
is what the locale form is when the locale groups no digits. -/
def arg (pattern : String) (index : Int) : String :=
  match (argEscapes pattern.toList).min? with
  | none => pattern
  | some n => String.mk (replaceEscapes n (intText index) 0 pattern.toList)

/-- `sf_open(path, SFM_WRITE, &sfinfo)`: a new handle with nothing written. -/
def sf_open (path : String) : SndFile :=
  { path := path, title := none, writes := [] }

/-- `sf_set_string(sf, SF_STR_TITLE, str)`. -/
def sf_set_string (f : SndFile) (str : String) : SndFile :=
  { f with title := some str }

/-- `sf_write_float(sf, ptr, items)`: appends the first `items` samples of
the array; a count that is not positive writes nothing. -/
def sf_write_float (f : SndFile) (ptr : List Sample) (items : Int) : SndFile :=
  { f with writes := f.writes ++ [ptr.take items.toNat] }

/-! ## Producer operations -/

/-- The track key `bMixDown ? 0 : cu->uiSession`; without mixdown a null
`cu` is dereferenced. -/
def trackIndex (bMixDown : Bool) (cu : Option ClientUser) : Except Fault Int :=
  if bMixDown then Except.ok 0
  else
    match cu with
    | some u => Except.ok u.uiSession
    | none => Except.error Fault.nullPointer

/-- `VoiceRecorder::addBuffer(cu, buffer, samples)`. -/
def addBuffer (dbg : Bool) (s : Recorder) (cu : Option ClientUser)
    (buffer : List Sample) (samples : Int) : Except Fault Recorder := do
  Q_ASSERT dbg (!s.bMixDown || cu.isNone)
  let s1 := { s with qlRecordBuffer := s.qlRecordBuffer ++ [RecordBuffer.mk cu buffer samples] }
  let index ← trackIndex s1.bMixDown cu
  if QHash.contains s1.qhRecordInfo index then
    pure s1
  else
    pure { s1 with qhRecordInfo := QHash.insert s1.qhRecordInfo index {} }

/-- `VoiceRecorder::addSilence(samples)`: `uiRecordedSamples += samples`. -/
def addSilence (s : Recorder) (samples : Int) : Recorder :=
  { s with uiRecordedSamples := toQuint64 (s.uiRecordedSamples + samples) }

/-- `VoiceRecorder::stop()`: clears `bRecording` (and wakes the worker). -/
def stop (s : Recorder) : Recorder :=
  { s with bRecording := false }

/-- `VoiceRecorder::getRecordedSamples()`. -/
def getRecordedSamples (s : Recorder) : Nat :=
  s.uiRecordedSamples

/-! ## Configuration -/

/-- Whether the text `%1` occurs in a list of characters, the test
`fn.indexOf(QLatin1String("%1")) != -1`. -/
def hasPlaceholder : List Char → Bool
  | [] => false
  | c :: cs => (c == '%' && cs.head? == some '1') || hasPlaceholder cs

/-- `VoiceRecorder::setSampleRate(sampleRate)`. -/
def setSampleRate (dbg : Bool) (s : Recorder) (sampleRate : Int) : Except Fault Recorder := do
  Q_ASSERT dbg (!s.bRecording)
  pure { s with iSampleRate := sampleRate }

/-- `VoiceRecorder::getSampleRate()`. -/
def getSampleRate (s : Recorder) : Int :=
  s.iSampleRate

/-- `VoiceRecorder::setFileName(fn)`. -/
def setFileName (dbg : Bool) (s : Recorder) (fn : String) : Except Fault Recorder := do
  Q_ASSERT dbg (!s.bRecording)
  Q_ASSERT dbg (hasPlaceholder fn.toList)
  pure { s with qsFileName := fn }

/-- `VoiceRecorder::setMixDown(mixDown)`. -/
def setMixDown (dbg : Bool) (s : Recorder) (mixDown : Bool) : Except Fault Recorder := do
  Q_ASSERT dbg (!s.bRecording)
  pure { s with bMixDown := mixDown }

/-- `VoiceRecorder::getMixDown()`. -/
def getMixDown (s : Recorder) : Bool :=
  s.bMixDown

/-- `VoiceRecorder::setFormat(fm)`. -/
def setFormat (dbg : Bool) (s : Recorder) (fm : Format) : Except Fault Recorder := do
  Q_ASSERT dbg (!s.bRecording)
  pure { s with fmFormat := fm }

/-- `VoiceRecorder::getFormat()`. -/
def getFormat (s : Recorder) : Format :=
  s.fmFormat

/-- `VoiceRecorder::getFormatDescription(fm)`, with `tr` taken as the
identity. -/
def getFormatDescription : Format → String
  | Format.WAV => ".wav - Uncompressed"
  | Format.VORBIS => ".ogg (Vorbis) - Compressed"
  | Format.AU => ".au - Uncompressed"
  | Format.FLAC => ".flac - Lossless compressed"

/-- `VoiceRecorder::getFormatDefaultExtension(fm)`. -/
def getFormatDefaultExtension : Format → String
  | Format.WAV => "wav"
  | Format.VORBIS => "ogg"
  | Format.AU => "au"
  | Format.FLAC => "flac"

/-! ## The worker -/

/-- An array of `n` silent samples, as `memset(buffer, 0, sizeof(float) * n)`
leaves it. -/
def zeros (n : Nat) : List Sample :=
  List.replicate n 0

/-- The loop `for (quint64 i = 0; i < steps; ++i) sf_write_float(sf, buffer, 1024)`. -/
def writeSilenceBlocks (buffer : List Sample) : Nat → SndFile → SndFile
  | 0, f => f
  | steps + 1, f => writeSilenceBlocks buffer steps (sf_write_float f buffer 1024)

/-- The body of `if (ri->uiLastPosition != uiRecordedSamples)`: a zeroed
array of 1024 floats is written `steps` times, then its first `rest` entries
when `rest > 0`.  The difference is taken in `quint64`. -/
def writeSilence (f : SndFile) (uiRecordedSamples uiLastPosition : Nat) : SndFile :=
  let buffer : List Sample := zeros 1024
  let rest : Int := ((toQuint64 ((uiRecordedSamples : Int) - uiLastPosition) % 1024 : Nat) : Int)
  let steps : Nat := toQuint64 ((uiRecordedSamples : Int) - uiLastPosition) / 1024
  let f1 := writeSilenceBlocks buffer steps f
  if rest > 0 then sf_write_float f1 buffer rest else f1

/-- The file handle after `if (!ri->sf) ...`: an existing handle is kept,
otherwise the file named by the pattern is opened and, when the chunk has a
user, tagged with the user name. -/
def openTrack (qsFileName : String) (index : Int) (rb : RecordBuffer)
    (ri : RecordInfo) : SndFile :=
  match ri.sf with
  | some f => f
  | none =>
    let f := sf_open (arg qsFileName index)
    match rb.cuUser with
    | some u => sf_set_string f u.qsName
    | none => f

/-- One pass through the body of `while (!qlRecordBuffer.isEmpty())` for the
chunk `rb` that `takeFirst` has just removed from the queue. -/
def writeChunk (dbg : Bool) (s : Recorder) (rb : RecordBuffer) : Except Fault Recorder := do
  let index ← trackIndex s.bMixDown rb.cuUser
  Q_ASSERT dbg (QHash.contains s.qhRecordInfo index)
  match QHash.value s.qhRecordInfo index with
  | none => Except.error Fault.nullPointer
  | some ri =>
    let sf0 := openTrack s.qsFileName index rb ri
    let sf1 :=
      if ri.uiLastPosition != s.uiRecordedSamples then
        writeSilence sf0 s.uiRecordedSamples ri.uiLastPosition
      else sf0
    let sf2 := sf_write_float sf1 rb.fBuffer rb.iSamples
    let recorded := toQuint64 (s.uiRecordedSamples + rb.iSamples)
    pure { s with
      uiRecordedSamples := recorded
      qhRecordInfo := QHash.insert s.qhRecordInfo index
        { sf := some sf2, uiLastPosition := recorded } }

/-- One test of the loop condition `!qlRecordBuffer.isEmpty()` followed, when
it holds, by `takeFirst` and the loop body. -/
def drainStep (dbg : Bool) (s : Recorder) : Except Fault Recorder :=
  match s.qlRecordBuffer with
  | [] => Except.ok s
  | rb :: rest => writeChunk dbg { s with qlRecordBuffer := rest } rb

/-- The loop `while (!qlRecordBuffer.isEmpty())` run for at most `fuel`
iterations. -/
def drainLoop (dbg : Bool) : Nat → Recorder → Except Fault Recorder
  | 0, s => Except.ok s
  | fuel + 1, s =>
    match s.qlRecordBuffer with
    | [] => Except.ok s
    | rb :: rest =>
      match writeChunk dbg { s with qlRecordBuffer := rest } rb with
      | Except.ok s1 => drainLoop dbg fuel s1
      | Except.error e => Except.error e

/-- The loop `while (!qlRecordBuffer.isEmpty())` with no producer running in
between: one iteration for each queued chunk. -/
def drain (dbg : Bool) (s : Recorder) : Except Fault Recorder :=
  drainLoop dbg s.qlRecordBuffer.length s

/-- Where the worker thread stands. -/
inductive WorkerState where
  | NotStarted
  | Idle
  | Stopped
  deriving DecidableEq, Repr

/-- The part of `run()` before the `forever` loop.  `formatOk` is the result
of `sf_format_check(&sfinfo)`. -/
def runEnter (dbg : Bool) (formatOk : Bool) (s : Recorder) :
    Except Fault (Recorder × WorkerState) := do
  Q_ASSERT dbg (s.iSampleRate != 0)
  if s.iSampleRate == 0 then
    pure (s, WorkerState.Stopped)
  else
    Q_ASSERT dbg formatOk
    pure ({ s with bRecording := true }, WorkerState.Idle)

/-- One pass of the `forever` loop, from the return of `qwcSleep.wait` to the
next wait: leave the loop when `bRecording` is false, drain the queue
otherwise. -/
def wake (dbg : Bool) (s : Recorder) : Except Fault (Recorder × WorkerState) :=
  if !s.bRecording then
    Except.ok (s, WorkerState.Stopped)
  else
    match drain dbg s with
    | Except.ok s1 => Except.ok (s1, WorkerState.Idle)
    | Except.error e => Except.error e

/-! ## Interleavings of producer calls and worker iterations -/

/-- The atomic steps of a session: the three producer calls and one
iteration of the worker's drain loop. -/
inductive Op where
  | addBuffer (cu : Option ClientUser) (buffer : List Sample) (samples : Int)
  | addSilence (samples : Int)
  | drainStep
  | stop
  deriving DecidableEq, Repr

/-- The effect of one step. -/
def step (dbg : Bool) (s : Recorder) : Op → Except Fault Recorder
  | Op.addBuffer cu buffer samples => addBuffer dbg s cu buffer samples
  | Op.addSilence samples => Except.ok (addSilence s samples)
  | Op.drainStep => drainStep dbg s
  | Op.stop => Except.ok (stop s)

/-- A chunk the worker has taken from the queue: its track key, the value of
`uiRecordedSamples` at that moment, and the chunk. -/
structure Processed where
  index : Int
  cursor : Nat
  rb : RecordBuffer
  deriving DecidableEq, Repr

/-- The chunk a step takes from the queue in state `s`, if it takes one. -/
def processedBy (s : Recorder) : Op → List Processed
  | Op.drainStep =>
    match s.qlRecordBuffer with
    | [] => []
    | rb :: _ =>
      match trackIndex s.bMixDown rb.cuUser with
      | Except.ok k => [Processed.mk k s.uiRecordedSamples rb]
      | Except.error _ => []
  | _ => []

/-- The effect of a sequence of steps, together with the chunks the worker
took from the queue, in the order it took them. -/
def runOps (dbg : Bool) : Recorder → List Op → Except Fault (Recorder × List Processed)
  | s, [] => Except.ok (s, [])
  | s, op :: ops =>
    match step dbg s op with
    | Except.ok s1 =>
      match runOps dbg s1 ops with
      | Except.ok (s2, log) => Except.ok (s2, processedBy s op ++ log)
      | Except.error e => Except.error e
    | Except.error e => Except.error e

/-! ## Observations used in the statements -/

/-- A recorder at the start of a session: counter 0, no track, empty queue. -/
def IsFresh (s : Recorder) : Prop :=
  s.uiRecordedSamples = 0 ∧ s.qhRecordInfo = [] ∧ s.qlRecordBuffer = []

/-- The blocks written so far to a track's file; none before it is opened. -/
def RecordInfo.writes (ri : RecordInfo) : List (List Sample) :=
  match ri.sf with
  | some f => f.writes
  | none => []

/-- The samples stored so far in a track's file; none before it is opened. -/
def RecordInfo.frames (ri : RecordInfo) : List Sample :=
  (RecordInfo.writes ri).flatten

/-- The samples a chunk contributes: the first `iSamples` entries of its
array. -/
def RecordBuffer.samples (rb : RecordBuffer) : List Sample :=
  rb.fBuffer.take rb.iSamples.toNat

/-- A chunk whose count is non-negative and does not exceed its array. -/
def RecordBuffer.WellFormed (rb : RecordBuffer) : Prop :=
  0 ≤ rb.iSamples ∧ rb.iSamples.toNat ≤ rb.fBuffer.length

/-- The sample count passed by a producer call; 0 for the other steps. -/
def Op.samples : Op → Int
  | Op.addBuffer _ _ n => n
  | Op.addSilence n => n
  | _ => 0

/-- The count passed to `addSilence`; 0 for the other steps. -/
def Op.silence : Op → Int
  | Op.addSilence n => n
  | _ => 0

/-- A producer call whose count is non-negative and, for `addBuffer`, does
not exceed the array passed. -/
def Op.WellFormed : Op → Prop
  | Op.addBuffer cu buffer n => RecordBuffer.WellFormed (RecordBuffer.mk cu buffer n)
  | Op.addSilence n => 0 ≤ n
  | _ => True

/-- The silence blocks the padding rule asks for to close a gap: full blocks
of 1024 zeros, then one block for a non-zero remainder. -/
def silenceBlocks (gap : Nat) : List (List Sample) :=
  List.replicate (gap / 1024) (zeros 1024) ++
    (if gap % 1024 = 0 then [] else [zeros (gap % 1024)])

/-- Writes the chunks of a list one after the other, first to last. -/
def writeAll (dbg : Bool) : Recorder → List RecordBuffer → Except Fault Recorder
  | s, [] => Except.ok s
  | s, rb :: rest =>
    match writeChunk dbg s rb with
    | Except.ok s1 => writeAll dbg s1 rest
    | Except.error e => Except.error e

/-- Every queued chunk has a track key, and the key is in the table. -/
def Registered (s : Recorder) : Prop :=
  ∀ rb ∈ s.qlRecordBuffer, ∃ k, trackIndex s.bMixDown rb.cuUser = Except.ok k ∧
    QHash.contains s.qhRecordInfo k = true

/-- The record of track `k` after the worker has written chunk `rb` to it. -/
def trackAfter (s : Recorder) (k : Int) (rb : RecordBuffer) (ri : RecordInfo) : RecordInfo :=
  { sf := some
      { openTrack s.qsFileName k rb ri with
        writes := RecordInfo.writes ri ++
          silenceBlocks (toQuint64 ((s.uiRecordedSamples : Int) - ri.uiLastPosition)) ++
          [RecordBuffer.samples rb] }
    uiLastPosition := toQuint64 (s.uiRecordedSamples + rb.iSamples) }

/-- The state after `addBuffer(cu, buffer, samples)` has registered key `k`. -/
def afterAddBuffer (s : Recorder) (cu : Option ClientUser) (buffer : List Sample)
    (samples : Int) (k : Int) : Recorder :=
  { s with
    qlRecordBuffer := s.qlRecordBuffer ++ [RecordBuffer.mk cu buffer samples]
    qhRecordInfo :=
      if QHash.contains s.qhRecordInfo k then s.qhRecordInfo
      else QHash.insert s.qhRecordInfo k {} }

/-- The state after the worker has taken `rb` from the queue, leaving `rest`,
and written it to track `k`, whose record was `ri`. -/
def afterChunk (s : Recorder) (rb : RecordBuffer) (rest : List RecordBuffer) (k : Int)
    (ri : RecordInfo) : Recorder :=
  { s with
    qlRecordBuffer := rest
    uiRecordedSamples := toQuint64 (s.uiRecordedSamples + rb.iSamples)
    qhRecordInfo := QHash.insert s.qhRecordInfo k (trackAfter s k rb ri) }

/-- The precondition of a producer call: `addBuffer` is called without a user
when mixdown is on and with a user when it is off. -/
def Op.Admissible (bMixDown : Bool) : Op → Prop
  | Op.addBuffer cu _ _ => (bMixDown = true → cu = none) ∧ (bMixDown = false → cu ≠ none)
  | _ => True

/-- The sample counts of the chunks of a log, summed. -/
def processedTotal (log : List Processed) : Int :=
  (log.map fun e => e.rb.iSamples).sum

/-- The counts of the `addSilence` calls of a run, summed. -/
def silenceTotal (ops : List Op) : Int :=
  (ops.map Op.silence).sum

/-- The sample counts of the chunks still queued, summed. -/
def queuedTotal (s : Recorder) : Int :=
  (s.qlRecordBuffer.map fun rb => rb.iSamples).sum

/-- The sample counts passed by the producer calls of a run, summed. -/
def opsTotal (ops : List Op) : Int :=
  (ops.map Op.samples).sum

/-- The entry `e` of the worker's log lies over the file position `p`. -/
def Processed.covers (e : Processed) (p : Nat) : Prop :=
  e.cursor ≤ p ∧ p < e.cursor + e.rb.iSamples.toNat

/-- The state of the track files agrees with the worker's log: no track is
ahead of the counter, each record's position is the length of its file, each
logged chunk lies in its track's file at the counter value it was taken at,
and a file position under no logged chunk of the track is silent. -/
structure Sound (s : Recorder) (log : List Processed) : Prop where
  last_le : ∀ k ri, QHash.value s.qhRecordInfo k = some ri →
    ri.uiLastPosition ≤ s.uiRecordedSamples
  frames_length : ∀ k ri, QHash.value s.qhRecordInfo k = some ri →
    (RecordInfo.frames ri).length = ri.uiLastPosition
  stored : ∀ e ∈ log, ∃ ri, QHash.value s.qhRecordInfo e.index = some ri ∧
    ri.sf.isSome = true ∧
    e.cursor + e.rb.iSamples.toNat ≤ (RecordInfo.frames ri).length ∧
    ((RecordInfo.frames ri).drop e.cursor).take e.rb.iSamples.toNat = RecordBuffer.samples e.rb
  silent : ∀ k ri, QHash.value s.qhRecordInfo k = some ri →
    ∀ p, p < (RecordInfo.frames ri).length →
      (∀ e ∈ log, e.index = k → ¬ Processed.covers e p) →
      (RecordInfo.frames ri)[p]? = some 0

/-- The timeline property of a state and the log of the chunks taken so far:
each logged chunk lies in its track's file at the offsets from `G` to
`G + n`, where `G` is the counter value logged with it and `n` its sample
count, and every file position under no logged chunk of the track holds the
silent sample. -/
def Aligned (s : Recorder) (log : List Processed) : Prop :=
  (∀ e ∈ log, ∃ ri f, QHash.value s.qhRecordInfo e.index = some ri ∧ ri.sf = some f ∧
    e.cursor + e.rb.iSamples.toNat ≤ f.frames.length ∧
    (f.frames.drop e.cursor).take e.rb.iSamples.toNat = RecordBuffer.samples e.rb ∧
    (RecordBuffer.samples e.rb).length = e.rb.iSamples.toNat) ∧
  (∀ k ri f, QHash.value s.qhRecordInfo k = some ri → ri.sf = some f →
    ∀ p, p < f.frames.length →
      (∀ e ∈ log, e.index = k → ¬ Processed.covers e p) → f.frames[p]? = some 0)

/-- No track is ahead of the shared counter. -/
def LastLe (s : Recorder) : Prop :=
  ∀ k ri, QHash.value s.qhRecordInfo k = some ri → ri.uiLastPosition ≤ s.uiRecordedSamples

/-- The count a step adds to `uiRecordedSamples`: the argument of
`addSilence`, the sample count of the chunk a worker iteration takes, and 0
for `addBuffer`, `stop` and an iteration that finds the queue empty. -/
def advance (s : Recorder) : Op → Int
  | Op.addSilence n => n
  | Op.drainStep =>
    match s.qlRecordBuffer with
    | [] => 0
    | rb :: _ => rb.iSamples
  | _ => 0

/-- The file of track `k` has been opened. -/
def Opened (s : Recorder) (k : Int) : Prop :=
  ∃ ri f, QHash.value s.qhRecordInfo k = some ri ∧ ri.sf = some f

/-- The chunk an `addBuffer` call puts in the queue. -/
def Op.chunk : Op → List RecordBuffer
  | Op.addBuffer cu buffer n => [RecordBuffer.mk cu buffer n]
  | _ => []

/-- The chunks submitted by the `addBuffer` calls of a run, in call order. -/
def submittedChunks (ops : List Op) : List RecordBuffer :=
  (ops.map Op.chunk).flatten

/-- The track keys of the `addBuffer` calls of a run, in call order. -/
def submittedKeys (bMixDown : Bool) (ops : List Op) : List Int :=
  (submittedChunks ops).filterMap fun rb =>
    match trackIndex bMixDown rb.cuUser with
    | Except.ok k => some k
    | Except.error _ => none

/-- The session ids of the users passed to the `addBuffer` calls of a run. -/
def identities (ops : List Op) : List Int :=
  (submittedChunks ops).filterMap fun rb => rb.cuUser.map ClientUser.uiSession

/-- The track table agrees with the queue and the worker's log: no key occurs
twice, a track whose file is not yet open has a chunk waiting in the queue,
and the samples of each logged chunk are one of the blocks written to the
file of its track. -/
structure Tracked (s : Recorder) (log : List Processed) : Prop where
  nodup : (QHash.keys s.qhRecordInfo).Nodup
  pending : ∀ k ∈ QHash.keys s.qhRecordInfo, Opened s k ∨
    ∃ rb ∈ s.qlRecordBuffer, trackIndex s.bMixDown rb.cuUser = Except.ok k
  written : ∀ e ∈ log, ∃ ri f, QHash.value s.qhRecordInfo e.index = some ri ∧
    ri.sf = some f ∧ RecordBuffer.samples e.rb ∈ f.writes

/-! ## Scenarios -/

/-- A state for the padding rule: one chunk of bob queued, his track not yet
opened, 2053 samples elapsed. -/
def c2State : Recorder :=
  { fresh with
    uiRecordedSamples := 2053
    qlRecordBuffer := [RecordBuffer.mk (some (ClientUser.mk 2 "bob")) [4, 5] 2]
    qhRecordInfo := [(2, { sf := none, uiLastPosition := 0 })] }

/-- The speaker of session 1. -/
def alice : ClientUser := ClientUser.mk 1 "alice"

/-- The speaker of session 2. -/
def bob : ClientUser := ClientUser.mk 2 "bob"

/-- A recorder that has been configured and whose worker has entered its
loop: sample rate 48000, the given mixdown mode, file name pattern
`rec-%1.wav`, recording. -/
def session (bMixDown : Bool) : Recorder :=
  { fresh with
    iSampleRate := 48000
    bRecording := true
    bMixDown := bMixDown
    qsFileName := "rec-%1.wav" }

/-- The result of a run that ended without a fault. -/
def outcome (r : Except Fault (Recorder × List Processed)) : Recorder × List Processed :=
  match r with
  | Except.ok x => x
  | Except.error _ => (fresh, [])

/-- A short run: alice submits three samples, five samples of silence pass,
bob submits two samples, the worker takes both chunks. -/
def shortRun : List Op :=
  [Op.addBuffer (some alice) [1, 2, 3] 3, Op.addSilence 5,
   Op.addBuffer (some bob) [4, 5] 2, Op.drainStep, Op.drainStep]

/-- What alice says in scenario A: 960 samples, none of them silent. -/
def aliceSamples : List Sample :=
  (List.range 960).map fun (i : Nat) => Int.ofNat i + 1

/-- What bob says in scenario A: 480 samples, none of them silent. -/
def bobSamples : List Sample :=
  (List.range 480).map fun (i : Nat) => -(Int.ofNat i + 1)

/-- Scenario A: alice submits 960 samples, then bob submits 480, and the
worker takes both chunks in queue order. -/
def scenarioA : List Op :=
  [Op.addBuffer (some alice) aliceSamples 960, Op.addBuffer (some bob) bobSamples 480,
   Op.drainStep, Op.drainStep]

/-- The track table at the end of scenario A. -/
def scenarioATable : List (Int × RecordInfo) :=
  [(1, { sf := some { path := "rec-1.wav", title := some "alice", writes := [aliceSamples] },
         uiLastPosition := 960 }),
   (2, { sf := some { path := "rec-2.wav", title := some "bob",
                      writes := [zeros 960, bobSamples] },
         uiLastPosition := 1440 })]

/-- A long silence: 4294967300 calls `addSilence(2147483647)`, the largest
count an `int` holds. -/
def longSilence : List Op :=
  List.replicate 4294967300 (Op.addSilence 2147483647)

/-- A run that wraps the 64-bit counter: a long silence, one sample of alice
taken by the worker, a second long silence that carries the counter past
`2 ^ 64`, and a second sample of alice taken by the worker. -/
def wrapRun : List Op :=
  longSilence ++ [Op.addBuffer (some alice) [7] 1, Op.drainStep] ++ longSilence ++
    [Op.addBuffer (some alice) [9] 1, Op.drainStep]

/-- The counter after the first long silence of `wrapRun`. -/
def wrapCursor1 : Nat := 9223372041149743100

/-- The counter after the second long silence of `wrapRun`, wrapped past
`2 ^ 64`. -/
def wrapCursor2 : Nat := 8589934585

/-- The state of `wrapRun` after the first long silence. -/
def wrapState1 : Recorder :=
  { session false with uiRecordedSamples := wrapCursor1 }

/-- The state of `wrapRun` after the worker has taken alice's first sample. -/
def wrapState2 : Recorder :=
  afterChunk (afterAddBuffer wrapState1 (some alice) [7] 1 1)
    (RecordBuffer.mk (some alice) [7] 1) [] 1 {}

/-- The state of `wrapRun` after the second long silence. -/
def wrapState3 : Recorder :=
  { wrapState2 with uiRecordedSamples := wrapCursor2 }

/-- The record of alice's track in `wrapState3`. -/
def wrapTrack3 : RecordInfo :=
  trackAfter (afterAddBuffer wrapState1 (some alice) [7] 1 1) 1
    (RecordBuffer.mk (some alice) [7] 1) {}

/-- The state at the end of `wrapRun`. -/
def wrapState4 : Recorder :=
  afterChunk (afterAddBuffer wrapState3 (some alice) [9] 1 1)
    (RecordBuffer.mk (some alice) [9] 1) [] 1 wrapTrack3

/-- The log of `wrapRun`. -/
def wrapLog : List Processed :=
  [Processed.mk 1 wrapCursor1 (RecordBuffer.mk (some alice) [7] 1),
   Processed.mk 1 wrapCursor2 (RecordBuffer.mk (some alice) [9] 1)]

/-- The record of alice's track at the end of `wrapRun`. -/
def wrapTrack4 : RecordInfo :=
  trackAfter (afterAddBuffer wrapState3 (some alice) [9] 1 1) 1
    (RecordBuffer.mk (some alice) [9] 1) wrapTrack3

/-- A run in which a negative count is passed to `addSilence`: alice submits
three samples, the worker takes them, and the counter is moved back by one. -/
def negativeRun : List Op :=
  [Op.addBuffer (some alice) [1, 2, 3] 3, Op.drainStep, Op.addSilence (-1)]

/-- A run in mixdown mode: two chunks without a user are submitted and the
worker takes both. -/
def mixRun : List Op :=
  [Op.addBuffer none [1, 2, 3] 3, Op.addBuffer none [4, 5] 2, Op.drainStep, Op.drainStep]

/-- Scenario C up to the call of `stop`: alice and bob each submit a chunk
and the worker has not yet woken. -/
def scenarioC : List Op :=
  [Op.addBuffer (some alice) [1, 2, 3] 3, Op.addBuffer (some bob) [4, 5] 2]

/-- A recorder with alice's and bob's chunks of `shortRun` queued. -/
def shortQueued : Recorder :=
  (outcome (runOps true (session false)
    [Op.addBuffer (some alice) [1, 2, 3] 3, Op.addSilence 5,
     Op.addBuffer (some bob) [4, 5] 2])).1

/-- The keys for which a step calls `sf_open`: the key of the chunk a worker
iteration takes, when the record of that key has no file handle yet. -/
def opensBy (s : Recorder) : Op → List Int
  | Op.drainStep =>
    match s.qlRecordBuffer with
    | [] => []
    | rb :: _ =>
      match trackIndex s.bMixDown rb.cuUser with
      | Except.error _ => []
      | Except.ok k =>
        match QHash.value s.qhRecordInfo k with
        | none => []
        | some ri => if ri.sf.isNone then [k] else []
  | _ => []

/-- The keys for which `sf_open` is called during a run, in call order. -/
def runOpens (dbg : Bool) : Recorder → List Op → List Int
  | _, [] => []
  | s, op :: ops =>
    match step dbg s op with
    | Except.ok s1 => opensBy s op ++ runOpens dbg s1 ops
    | Except.error _ => []

/-- The loop body as the padding rule is worded: the same as `writeChunk`,
but silence is written when `uiLastPosition` is less than
`uiRecordedSamples`, where `writeChunk` tests that the two differ. -/
def writeChunkLt (dbg : Bool) (s : Recorder) (rb : RecordBuffer) : Except Fault Recorder := do
  let index ← trackIndex s.bMixDown rb.cuUser
  Q_ASSERT dbg (QHash.contains s.qhRecordInfo index)
  match QHash.value s.qhRecordInfo index with
  | none => Except.error Fault.nullPointer
  | some ri =>
    let sf0 := openTrack s.qsFileName index rb ri
    let sf1 :=
      if ri.uiLastPosition < s.uiRecordedSamples then
        writeSilence sf0 s.uiRecordedSamples ri.uiLastPosition
      else sf0
    let sf2 := sf_write_float sf1 rb.fBuffer rb.iSamples
    let recorded := toQuint64 (s.uiRecordedSamples + rb.iSamples)
    pure { s with
      uiRecordedSamples := recorded
      qhRecordInfo := QHash.insert s.qhRecordInfo index
        { sf := some sf2, uiLastPosition := recorded } }

/-- One iteration of the drain loop with `writeChunkLt` as its body. -/
def drainStepLt (dbg : Bool) (s : Recorder) : Except Fault Recorder :=
  match s.qlRecordBuffer with
  | [] => Except.ok s
  | rb :: rest => writeChunkLt dbg { s with qlRecordBuffer := rest } rb

/-- The effect of one step when the worker uses `writeChunkLt`. -/
def stepLt (dbg : Bool) (s : Recorder) : Op → Except Fault Recorder
  | Op.addBuffer cu buffer samples => addBuffer dbg s cu buffer samples
  | Op.addSilence samples => Except.ok (addSilence s samples)
  | Op.drainStep => drainStepLt dbg s
  | Op.stop => Except.ok (stop s)

/-- The effect of a sequence of steps when the worker uses `writeChunkLt`,
together with the chunks the worker took. -/
def runOpsLt (dbg : Bool) : Recorder → List Op → Except Fault (Recorder × List Processed)
  | s, [] => Except.ok (s, [])
  | s, op :: ops =>
    match stepLt dbg s op with
    | Except.ok s1 =>
      match runOpsLt dbg s1 ops with
      | Except.ok (s2, log) => Except.ok (s2, processedBy s op ++ log)
      | Except.error e => Except.error e
    | Except.error e => Except.error e

/-- The latest chunk of track `k` in the worker's log, if there is one. -/
def latestChunk (k : Int) (log : List Processed) : Option Processed :=
  (log.filter fun e => e.index == k).getLast?

/-- Every logged chunk has its track in the table, and each record's position
is the counter value right after the latest chunk of its track, or 0 when
the track has no chunk in the log yet. -/
def AtLatest (s : Recorder) (log : List Processed) : Prop :=
  (∀ e ∈ log, QHash.contains s.qhRecordInfo e.index = true) ∧
  ∀ k ri, QHash.value s.qhRecordInfo k = some ri →
    match latestChunk k log with
    | none => ri.uiLastPosition = 0
    | some e => ri.uiLastPosition = toQuint64 (e.cursor + e.rb.iSamples)

/-- The number a list of decimal digits stands for, read after the digits
that gave `acc`. -/
def digitsValue (acc : Nat) (cs : List Char) : Nat :=
  cs.foldl (fun a c => a * 10 + (c.toNat - 48)) acc

/-- The number of markers that `replaceEscapes` replaces. -/
def markerCount (n : Nat) : Nat → List Char → Nat
  | _, [] => 0
  | skip + 1, _ :: cs => markerCount n skip cs
  | 0, c :: cs =>
    if c = '%' then
      match escapeAfterPercent cs with
      | some (m, len) =>
        if m = n then 1 + markerCount n len cs
        else markerCount n 0 cs
      | none => markerCount n 0 cs
    else markerCount n 0 cs

/-- The number of characters that `replaceEscapes` copies. -/
def keptCount (n : Nat) : Nat → List Char → Nat
  | _, [] => 0
  | skip + 1, _ :: cs => keptCount n skip cs
  | 0, c :: cs =>
    if c = '%' then
      match escapeAfterPercent cs with
      | some (m, len) =>
        if m = n then keptCount n len cs
        else 1 + keptCount n 0 cs
      | none => 1 + keptCount n 0 cs
    else 1 + keptCount n 0 cs

/-- Every open file of the table has the name the pattern gives for its
key. -/
def PathOk (s : Recorder) : Prop :=
  ∀ k ri f, QHash.value s.qhRecordInfo k = some ri → ri.sf = some f →
    f.path = arg s.qsFileName k

/-! ## Basic lemmas -/

/-! ### The track table -/

theorem QHash.value_insert_self (h : List (Int × RecordInfo)) (k : Int) (v : RecordInfo) :
    QHash.value (QHash.insert h k v) k = some v := by
  induction h with
  | nil => simp [QHash.insert, QHash.value, List.lookup]
  | cons p t ih =>
    obtain ⟨k', v'⟩ := p
    by_cases hk : k' = k
    · simp [QHash.insert, hk, QHash.value, List.lookup]
    · have hb : (k == k') = false := by simpa using fun h => hk h.symm
      simp only [QHash.insert, hk, if_false, QHash.value, List.lookup, hb]
      simpa [QHash.value] using ih

theorem QHash.value_insert_ne (h : List (Int × RecordInfo)) (k j : Int) (v : RecordInfo)
    (hj : j ≠ k) : QHash.value (QHash.insert h k v) j = QHash.value h j := by
  induction h with
  | nil =>
    have hb : (j == k) = false := by simpa using hj
    simp [QHash.insert, QHash.value, List.lookup, hb]
  | cons p t ih =>
    obtain ⟨k', v'⟩ := p
    by_cases hk : k' = k
    · subst hk
      have hb : (j == k') = false := by simpa using hj
      simp [QHash.insert, QHash.value, List.lookup, hb]
    · simp only [QHash.insert, hk, if_false, QHash.value, List.lookup]
      cases hjk : (j == k') with
      | true => rfl
      | false => simpa [QHash.value] using ih

theorem QHash.contains_iff_mem_keys (h : List (Int × RecordInfo)) (k : Int) :
    QHash.contains h k = true ↔ k ∈ QHash.keys h := by
  induction h with
  | nil => simp [QHash.contains, QHash.value, QHash.keys, List.lookup]
  | cons p t ih =>
    obtain ⟨k', v'⟩ := p
    by_cases hk : k = k'
    · subst hk
      simp [QHash.contains, QHash.value, QHash.keys, List.lookup]
    · have hb : (k == k') = false := by simpa using hk
      simp only [QHash.contains, QHash.value, List.lookup, hb, QHash.keys, List.map_cons,
        List.mem_cons, hk, false_or]
      exact ih

theorem QHash.keys_insert_of_mem (h : List (Int × RecordInfo)) (k : Int) (v : RecordInfo)
    (hk : k ∈ QHash.keys h) : QHash.keys (QHash.insert h k v) = QHash.keys h := by
  induction h with
  | nil => simp [QHash.keys] at hk
  | cons p t ih =>
    obtain ⟨k', v'⟩ := p
    by_cases hkk : k' = k
    · simp [QHash.insert, hkk, QHash.keys]
    · have hk' : k ∈ QHash.keys t := by
        simp only [QHash.keys, List.map_cons, List.mem_cons] at hk
        rcases hk with h1 | h1
        · exact absurd h1.symm hkk
        · exact h1
      simp only [QHash.insert, hkk, if_false, QHash.keys, List.map_cons]
      have := ih hk'
      simp only [QHash.keys] at this
      rw [this]

theorem QHash.keys_insert_of_not_mem (h : List (Int × RecordInfo)) (k : Int) (v : RecordInfo)
    (hk : k ∉ QHash.keys h) : QHash.keys (QHash.insert h k v) = QHash.keys h ++ [k] := by
  induction h with
  | nil => simp [QHash.keys, QHash.insert]
  | cons p t ih =>
    obtain ⟨k', v'⟩ := p
    simp only [QHash.keys, List.map_cons, List.mem_cons, not_or] at hk
    have hkk : ¬ k' = k := fun h => hk.1 h.symm
    simp only [QHash.insert, hkk, if_false, QHash.keys, List.map_cons, List.cons_append]
    have := ih hk.2
    simp only [QHash.keys] at this
    rw [this]

theorem QHash.value_isSome_iff (h : List (Int × RecordInfo)) (k : Int) :
    (∃ ri, QHash.value h k = some ri) ↔ k ∈ QHash.keys h := by
  rw [← QHash.contains_iff_mem_keys]
  simp [QHash.contains, Option.isSome_iff_exists]

/-! ### Machine arithmetic and silence blocks -/

theorem toQuint64_lt (x : Int) : toQuint64 x < two64 := by
  unfold toQuint64 two64
  omega

theorem toQuint64_of_lt (n : Nat) (h : n < two64) : toQuint64 (n : Int) = n := by
  unfold toQuint64 two64 at *
  omega

theorem toQuint64_sub (G S : Nat) (hS : S ≤ G) (hG : G < two64) :
    toQuint64 ((G : Int) - S) = G - S := by
  unfold toQuint64 two64 at *
  omega

theorem toQuint64_add (c : Nat) (n : Int) (hn : 0 ≤ n) (h : c + n < two64) :
    (toQuint64 (c + n) : Int) = c + n := by
  unfold toQuint64 two64 at *
  omega

theorem writeSilenceBlocks_eq (buffer : List Sample) (steps : Nat) (f : SndFile) :
    writeSilenceBlocks buffer steps f =
      { f with writes := f.writes ++ List.replicate steps (buffer.take 1024) } := by
  induction steps generalizing f with
  | zero => simp [writeSilenceBlocks]
  | succ n ih =>
    simp only [writeSilenceBlocks, ih, sf_write_float]
    congr 1
    simp [List.replicate_succ]

theorem zeros_length (n : Nat) : (zeros n).length = n := by
  simp [zeros]

theorem take_zeros (m n : Nat) (h : m ≤ n) : (zeros n).take m = zeros m := by
  simp [zeros, List.take_replicate, h]

theorem zeros_append (m n : Nat) : zeros m ++ zeros n = zeros (m + n) := by
  unfold zeros
  rw [List.replicate_add]

theorem writeSilence_eq (f : SndFile) (G S : Nat) :
    writeSilence f G S =
      { f with writes := f.writes ++ silenceBlocks (toQuint64 ((G : Int) - S)) } := by
  unfold writeSilence silenceBlocks
  simp only [writeSilenceBlocks_eq]
  rw [take_zeros 1024 1024 (le_refl _)]
  by_cases h : toQuint64 ((G : Int) - S) % 1024 = 0
  · simp [h]
  · have hpos : (0 : Int) < ((toQuint64 ((G : Int) - S) % 1024 : Nat) : Int) := by omega
    simp only [gt_iff_lt, hpos, if_true, h, if_false, sf_write_float]
    congr 1
    have hlt : toQuint64 ((G : Int) - S) % 1024 ≤ 1024 := by omega
    simp only [Int.toNat_ofNat, take_zeros _ _ hlt, List.append_assoc]

theorem replicate_zeros_flatten (n m : Nat) :
    (List.replicate n (zeros m)).flatten = zeros (n * m) := by
  induction n with
  | zero => simp [zeros]
  | succ k ih =>
    rw [List.replicate_succ, List.flatten_cons, ih, zeros_append]
    congr 1
    rw [Nat.succ_mul, Nat.add_comm]

theorem silenceBlocks_flatten (gap : Nat) :
    (silenceBlocks gap).flatten = zeros gap := by
  unfold silenceBlocks
  rw [List.flatten_append, replicate_zeros_flatten]
  by_cases h : gap % 1024 = 0
  · simp only [h, if_true, List.flatten_nil, List.append_nil]
    congr 1
    omega
  · simp only [h, if_false, List.flatten_cons, List.flatten_nil, List.append_nil,
      zeros_append]
    congr 1
    omega

theorem silenceBlocks_zero : silenceBlocks 0 = [] := by
  simp [silenceBlocks]

theorem openTrack_writes (p : String) (k : Int) (rb : RecordBuffer) (ri : RecordInfo) :
    (openTrack p k rb ri).writes = RecordInfo.writes ri := by
  unfold openTrack RecordInfo.writes
  cases ri.sf with
  | some f => rfl
  | none => cases rb.cuUser <;> rfl

theorem writeChunk_eq (dbg : Bool) (s : Recorder) (rb : RecordBuffer) (k : Int)
    (ri : RecordInfo) (hk : trackIndex s.bMixDown rb.cuUser = Except.ok k)
    (hv : QHash.value s.qhRecordInfo k = some ri) :
    writeChunk dbg s rb = Except.ok
      { s with
        uiRecordedSamples := toQuint64 (s.uiRecordedSamples + rb.iSamples)
        qhRecordInfo := QHash.insert s.qhRecordInfo k (trackAfter s k rb ri) } := by
  have hc : QHash.contains s.qhRecordInfo k = true := by simp [QHash.contains, hv]
  simp only [writeChunk, hk, bind, Except.bind, Q_ASSERT, hc, Bool.not_true, Bool.and_false,
    Bool.false_eq_true, if_false, hv, pure, Except.pure, trackAfter]
  congr 3
  by_cases he : ri.uiLastPosition = s.uiRecordedSamples
  · simp [he, sf_write_float, silenceBlocks_zero, toQuint64, openTrack_writes,
      RecordBuffer.samples]
  · simp [he, sf_write_float, writeSilence_eq, openTrack_writes, RecordBuffer.samples]

/-! ### One chunk -/

theorem RecordInfo.writes_trackAfter (s : Recorder) (k : Int) (rb : RecordBuffer)
    (ri : RecordInfo) :
    RecordInfo.writes (trackAfter s k rb ri) = RecordInfo.writes ri ++
      silenceBlocks (toQuint64 ((s.uiRecordedSamples : Int) - ri.uiLastPosition)) ++
      [RecordBuffer.samples rb] := rfl

theorem RecordInfo.frames_trackAfter (s : Recorder) (k : Int) (rb : RecordBuffer)
    (ri : RecordInfo) :
    RecordInfo.frames (trackAfter s k rb ri) = RecordInfo.frames ri ++
      zeros (toQuint64 ((s.uiRecordedSamples : Int) - ri.uiLastPosition)) ++
      RecordBuffer.samples rb := by
  unfold RecordInfo.frames
  rw [RecordInfo.writes_trackAfter]
  simp [List.flatten_append, silenceBlocks_flatten]

theorem drainStep_cons (dbg : Bool) (s : Recorder) (rb : RecordBuffer)
    (rest : List RecordBuffer) (hq : s.qlRecordBuffer = rb :: rest) :
    drainStep dbg s = writeChunk dbg { s with qlRecordBuffer := rest } rb := by
  simp [drainStep, hq]

theorem addBuffer_ok_iff (dbg : Bool) (s s1 : Recorder) (cu : Option ClientUser)
    (buffer : List Sample) (samples : Int) :
    addBuffer dbg s cu buffer samples = Except.ok s1 ↔
      (dbg = true → s.bMixDown = true → cu = none) ∧
      ∃ k, trackIndex s.bMixDown cu = Except.ok k ∧ s1 = afterAddBuffer s cu buffer samples k := by
  unfold addBuffer Q_ASSERT afterAddBuffer
  cases dbg <;> cases hm : s.bMixDown <;> cases cu <;>
    simp [trackIndex, bind, Except.bind, pure, Except.pure, hm] <;>
    split <;> simp [eq_comm]

theorem writeChunk_ok_iff (dbg : Bool) (s s1 : Recorder) (rb : RecordBuffer) :
    writeChunk dbg s rb = Except.ok s1 ↔
      ∃ k ri, trackIndex s.bMixDown rb.cuUser = Except.ok k ∧
        QHash.value s.qhRecordInfo k = some ri ∧
        s1 = afterChunk s rb s.qlRecordBuffer k ri := by
  constructor
  · intro h
    cases hk : trackIndex s.bMixDown rb.cuUser with
    | error e => simp [writeChunk, hk, bind, Except.bind] at h
    | ok k =>
      cases hv : QHash.value s.qhRecordInfo k with
      | none =>
        cases dbg <;>
          simp [writeChunk, hk, bind, Except.bind, Q_ASSERT, QHash.contains, hv] at h
      | some ri =>
        rw [writeChunk_eq dbg s rb k ri hk hv] at h
        refine ⟨k, ri, rfl, hv, ?_⟩
        simp only [Except.ok.injEq] at h
        rw [← h]
        rfl
  · rintro ⟨k, ri, hk, hv, rfl⟩
    rw [writeChunk_eq dbg s rb k ri hk hv]
    rfl

theorem drainStep_ok_iff (dbg : Bool) (s s1 : Recorder) :
    drainStep dbg s = Except.ok s1 ↔
      (s.qlRecordBuffer = [] ∧ s1 = s) ∨
      ∃ rb rest k ri, s.qlRecordBuffer = rb :: rest ∧
        trackIndex s.bMixDown rb.cuUser = Except.ok k ∧
        QHash.value s.qhRecordInfo k = some ri ∧
        s1 = afterChunk s rb rest k ri := by
  cases hq : s.qlRecordBuffer with
  | nil => simp [drainStep, hq, eq_comm]
  | cons rb rest =>
    rw [drainStep_cons dbg s rb rest hq, writeChunk_ok_iff]
    simp only [reduceCtorEq, false_and, false_or, List.cons.injEq]
    constructor
    · rintro ⟨k, ri, hk, hv, rfl⟩
      exact ⟨rb, rest, k, ri, ⟨rfl, rfl⟩, hk, hv, rfl⟩
    · rintro ⟨rb', rest', k, ri, ⟨rfl, rfl⟩, hk, hv, rfl⟩
      exact ⟨k, ri, hk, hv, rfl⟩

/-! ### Runs and drains -/

theorem runOps_cons_ok_iff (dbg : Bool) (s s2 : Recorder) (op : Op) (ops : List Op)
    (log : List Processed) :
    runOps dbg s (op :: ops) = Except.ok (s2, log) ↔
      ∃ s1 log1, step dbg s op = Except.ok s1 ∧ runOps dbg s1 ops = Except.ok (s2, log1) ∧
        log = processedBy s op ++ log1 := by
  cases h1 : step dbg s op with
  | error e => simp [runOps, h1]
  | ok s1 =>
    cases h2 : runOps dbg s1 ops with
    | error e => simp [runOps, h1, h2]
    | ok r =>
      obtain ⟨s3, log3⟩ := r
      simp only [runOps, h1, h2, Except.ok.injEq, Prod.mk.injEq]
      constructor
      · rintro ⟨rfl, rfl⟩
        exact ⟨s1, log3, rfl, h2, rfl⟩
      · rintro ⟨s1', log1, rfl, h3, rfl⟩
        rw [h2] at h3
        simp only [Except.ok.injEq, Prod.mk.injEq] at h3
        obtain ⟨rfl, rfl⟩ := h3
        exact ⟨rfl, rfl⟩

theorem writeChunk_queue (dbg : Bool) (s : Recorder) (q : List RecordBuffer)
    (rb : RecordBuffer) :
    writeChunk dbg { s with qlRecordBuffer := q } rb =
      match writeChunk dbg { s with qlRecordBuffer := [] } rb with
      | Except.ok s1 => Except.ok { s1 with qlRecordBuffer := q }
      | Except.error e => Except.error e := by
  cases hk : trackIndex s.bMixDown rb.cuUser with
  | error e => simp [writeChunk, hk, bind, Except.bind]
  | ok k =>
    cases hv : QHash.value s.qhRecordInfo k with
    | none =>
      cases dbg <;> simp [writeChunk, hk, bind, Except.bind, Q_ASSERT, QHash.contains, hv]
    | some ri =>
      rw [writeChunk_eq dbg { s with qlRecordBuffer := q } rb k ri hk hv,
        writeChunk_eq dbg { s with qlRecordBuffer := [] } rb k ri hk hv]
      rfl

theorem writeAll_queue (dbg : Bool) (chunks : List RecordBuffer) (s : Recorder)
    (q : List RecordBuffer) :
    writeAll dbg { s with qlRecordBuffer := q } chunks =
      match writeAll dbg { s with qlRecordBuffer := [] } chunks with
      | Except.ok s1 => Except.ok { s1 with qlRecordBuffer := q }
      | Except.error e => Except.error e := by
  induction chunks generalizing s with
  | nil => simp [writeAll]
  | cons rb rest ih =>
    simp only [writeAll]
    rw [writeChunk_queue dbg s q rb]
    cases h : writeChunk dbg { s with qlRecordBuffer := [] } rb with
    | error e => simp
    | ok s1 =>
      simp only
      have h1 := ih s1
      have hq : s1.qlRecordBuffer = [] := by
        rw [writeChunk_ok_iff] at h
        obtain ⟨k, ri, -, -, rfl⟩ := h
        rfl
      have e1 : ({ s1 with qlRecordBuffer := [] } : Recorder) = s1 := by
        cases s1; simp_all
      rw [e1] at h1
      exact h1

theorem drainLoop_eq_writeAll (dbg : Bool) (fuel : Nat) (s : Recorder)
    (hf : s.qlRecordBuffer.length ≤ fuel) :
    drainLoop dbg fuel s = writeAll dbg { s with qlRecordBuffer := [] } s.qlRecordBuffer := by
  induction fuel generalizing s with
  | zero =>
    have hq : s.qlRecordBuffer = [] := List.length_eq_zero.mp (Nat.le_zero.mp hf)
    cases s
    simp_all [drainLoop, writeAll]
  | succ n ih =>
    cases hq : s.qlRecordBuffer with
    | nil =>
      cases s
      simp_all [drainLoop, writeAll]
    | cons rb rest =>
      simp only [drainLoop, hq, writeAll]
      rw [writeChunk_queue dbg s rest rb]
      cases h : writeChunk dbg { s with qlRecordBuffer := [] } rb with
      | error e => simp
      | ok s1 =>
        simp only
        have hlen : rest.length ≤ n := by
          rw [hq] at hf
          simpa using hf
        have h1 := ih { s1 with qlRecordBuffer := rest } hlen
        rw [h1]
        have hq1 : s1.qlRecordBuffer = [] := by
          rw [writeChunk_ok_iff] at h
          obtain ⟨k, ri, -, -, rfl⟩ := h
          rfl
        have e1 : ({ s1 with qlRecordBuffer := [] } : Recorder) = s1 := by
          cases s1; simp_all
        simp only [e1]

theorem writeAll_ok_queue (dbg : Bool) (chunks : List RecordBuffer) (s s1 : Recorder)
    (h : writeAll dbg s chunks = Except.ok s1) : s1.qlRecordBuffer = s.qlRecordBuffer := by
  induction chunks generalizing s with
  | nil =>
    simp only [writeAll, Except.ok.injEq] at h
    rw [h]
  | cons rb rest ih =>
    simp only [writeAll] at h
    cases hw : writeChunk dbg s rb with
    | error e => simp [hw] at h
    | ok s2 =>
      simp only [hw] at h
      rw [ih s2 h]
      rw [writeChunk_ok_iff] at hw
      obtain ⟨k, ri, -, -, rfl⟩ := hw
      rfl

theorem QHash.contains_insert (h : List (Int × RecordInfo)) (k j : Int) (v : RecordInfo) :
    QHash.contains (QHash.insert h k v) j = true ↔ QHash.contains h j = true ∨ j = k := by
  by_cases hj : j = k
  · subst hj
    simp [QHash.contains, QHash.value_insert_self]
  · simp [QHash.contains, QHash.value_insert_ne h k j v hj, hj]

theorem QHash.contains_iff_value (h : List (Int × RecordInfo)) (k : Int) :
    QHash.contains h k = true ↔ ∃ ri, QHash.value h k = some ri := by
  simp [QHash.contains, Option.isSome_iff_exists]

theorem trackIndex_admissible (mix : Bool) (cu : Option ClientUser)
    (h1 : mix = true → cu = none) (h2 : mix = false → cu ≠ none) :
    ∃ k, trackIndex mix cu = Except.ok k := by
  cases mix with
  | true => exact ⟨0, rfl⟩
  | false =>
    cases cu with
    | none => exact absurd rfl (h2 rfl)
    | some u => exact ⟨u.uiSession, rfl⟩

theorem afterAddBuffer_contains (s : Recorder) (cu : Option ClientUser) (b : List Sample)
    (n : Int) (k j : Int) :
    QHash.contains (afterAddBuffer s cu b n k).qhRecordInfo j = true ↔
      QHash.contains s.qhRecordInfo j = true ∨ j = k := by
  unfold afterAddBuffer
  by_cases hc : QHash.contains s.qhRecordInfo k = true
  · simp only [hc, if_true]
    constructor
    · exact Or.inl
    · rintro (h | rfl)
      · exact h
      · exact hc
  · simp only [hc, Bool.false_eq_true, if_false]
    exact QHash.contains_insert _ _ _ _

theorem step_ok_of_admissible (dbg : Bool) (s : Recorder) (op : Op) (hr : Registered s)
    (ha : Op.Admissible s.bMixDown op) :
    ∃ s1, step dbg s op = Except.ok s1 ∧ Registered s1 ∧ s1.bMixDown = s.bMixDown := by
  cases op with
  | addBuffer cu b n =>
    obtain ⟨k, hk⟩ := trackIndex_admissible s.bMixDown cu ha.1 ha.2
    refine ⟨afterAddBuffer s cu b n k,
      (addBuffer_ok_iff dbg s _ cu b n).mpr ⟨fun _ hm => ha.1 hm, k, hk, rfl⟩, ?_, rfl⟩
    intro rb hrb
    have hrb' : rb ∈ s.qlRecordBuffer ++ [RecordBuffer.mk cu b n] := hrb
    rw [List.mem_append, List.mem_singleton] at hrb'
    rcases hrb' with h | rfl
    · obtain ⟨k', hk', hc'⟩ := hr rb h
      exact ⟨k', hk', (afterAddBuffer_contains s cu b n k k').mpr (Or.inl hc')⟩
    · exact ⟨k, hk, (afterAddBuffer_contains s cu b n k k).mpr (Or.inr rfl)⟩
  | addSilence n => exact ⟨addSilence s n, rfl, hr, rfl⟩
  | stop => exact ⟨stop s, rfl, hr, rfl⟩
  | drainStep =>
    cases hq : s.qlRecordBuffer with
    | nil => exact ⟨s, (drainStep_ok_iff dbg s s).mpr (Or.inl ⟨hq, rfl⟩), hr, rfl⟩
    | cons rb rest =>
      obtain ⟨k, hk, hc⟩ := hr rb (by rw [hq]; exact List.mem_cons_self _ _)
      obtain ⟨ri, hv⟩ := (QHash.contains_iff_value _ _).mp hc
      refine ⟨afterChunk s rb rest k ri,
        (drainStep_ok_iff dbg s _).mpr (Or.inr ⟨rb, rest, k, ri, hq, hk, hv, rfl⟩), ?_, rfl⟩
      intro rb' hrb'
      obtain ⟨k', hk', hc'⟩ := hr rb' (by rw [hq]; exact List.mem_cons_of_mem _ hrb')
      exact ⟨k', hk', (QHash.contains_insert _ _ _ _).mpr (Or.inl hc')⟩

theorem runOps_ok_of_admissible (dbg : Bool) (ops : List Op) (s : Recorder)
    (hr : Registered s) (ha : ∀ op ∈ ops, Op.Admissible s.bMixDown op) :
    ∃ s1 log, runOps dbg s ops = Except.ok (s1, log) ∧ Registered s1 ∧
      s1.bMixDown = s.bMixDown := by
  induction ops generalizing s with
  | nil => exact ⟨s, [], rfl, hr, rfl⟩
  | cons op ops ih =>
    obtain ⟨s1, h1, hr1, hm1⟩ :=
      step_ok_of_admissible dbg s op hr (ha op (List.mem_cons_self _ _))
    obtain ⟨s2, log, h2, hr2, hm2⟩ := ih s1 hr1 (by
      intro op' hop'
      rw [hm1]
      exact ha op' (List.mem_cons_of_mem _ hop'))
    exact ⟨s2, processedBy s op ++ log,
      (runOps_cons_ok_iff dbg s s2 op ops _).mpr ⟨s1, log, h1, h2, rfl⟩, hr2, hm2.trans hm1⟩

theorem registered_of_isFresh (s : Recorder) (h : IsFresh s) : Registered s := by
  intro rb hrb
  rw [h.2.2] at hrb
  exact absurd hrb (List.not_mem_nil _)

/-! ### Silence padding -/

/-- C2. Silence padding: when the worker processes a chunk for a track whose
`uiLastPosition` is `S` while `uiRecordedSamples` is `G` with `S ≤ G`, the
calls of `sf_write_float` it adds to the track's file are `(G - S) / 1024`
blocks of 1024 zeros, then one block of `(G - S) % 1024` zeros when that
remainder is not zero, then the chunk's samples; so the file gains exactly
`G - S` zeros right before the chunk's samples, and no zero when `G = S`. -/
theorem C2_silence_padding (dbg : Bool) (s : Recorder) (rb : RecordBuffer)
    (rest : List RecordBuffer) (k : Int) (ri : RecordInfo)
    (hq : s.qlRecordBuffer = rb :: rest)
    (hk : trackIndex s.bMixDown rb.cuUser = Except.ok k)
    (hv : QHash.value s.qhRecordInfo k = some ri)
    (hG : s.uiRecordedSamples < two64)
    (hS : ri.uiLastPosition ≤ s.uiRecordedSamples) :
    ∃ s1 ri1, drainStep dbg s = Except.ok s1 ∧
      QHash.value s1.qhRecordInfo k = some ri1 ∧
      RecordInfo.writes ri1 = RecordInfo.writes ri ++
        List.replicate ((s.uiRecordedSamples - ri.uiLastPosition) / 1024) (zeros 1024) ++
        (if (s.uiRecordedSamples - ri.uiLastPosition) % 1024 = 0 then []
          else [zeros ((s.uiRecordedSamples - ri.uiLastPosition) % 1024)]) ++
        [RecordBuffer.samples rb] ∧
      RecordInfo.frames ri1 = RecordInfo.frames ri ++
        zeros (s.uiRecordedSamples - ri.uiLastPosition) ++ RecordBuffer.samples rb ∧
      (s.uiRecordedSamples = ri.uiLastPosition →
        RecordInfo.writes ri1 = RecordInfo.writes ri ++ [RecordBuffer.samples rb]) := by
  have hgap := toQuint64_sub s.uiRecordedSamples ri.uiLastPosition hS hG
  have hw := writeChunk_eq dbg { s with qlRecordBuffer := rest } rb k ri hk hv
  refine ⟨_, trackAfter { s with qlRecordBuffer := rest } k rb ri,
    (drainStep_cons dbg s rb rest hq).trans hw, ?_, ?_, ?_, ?_⟩
  · exact QHash.value_insert_self _ _ _
  · rw [RecordInfo.writes_trackAfter]
    simp only [hgap, silenceBlocks, List.append_assoc]
  · rw [RecordInfo.frames_trackAfter]
    simp only [hgap]
  · intro he
    rw [RecordInfo.writes_trackAfter]
    simp [he, toQuint64, silenceBlocks_zero]

theorem C2_silence_padding_witness :
    ∃ s1 ri1, drainStep true c2State = Except.ok s1 ∧
      QHash.value s1.qhRecordInfo 2 = some ri1 ∧
      RecordInfo.writes ri1 = [] ++ List.replicate ((2053 - 0) / 1024) (zeros 1024) ++
        (if (2053 - 0) % 1024 = 0 then [] else [zeros ((2053 - 0) % 1024)]) ++ [[4, 5]] ∧
      RecordInfo.frames ri1 = [] ++ zeros (2053 - 0) ++ [4, 5] ∧
      (2053 = 0 → RecordInfo.writes ri1 = [] ++ [[4, 5]]) :=
  C2_silence_padding true c2State (RecordBuffer.mk (some (ClientUser.mk 2 "bob")) [4, 5] 2) []
    2 { sf := none, uiLastPosition := 0 } rfl rfl rfl (by decide) (by decide)

/-! ### Write order -/

theorem writeAll_ok_of_registered (dbg : Bool) (chunks : List RecordBuffer) (s : Recorder)
    (h : ∀ rb ∈ chunks, ∃ k, trackIndex s.bMixDown rb.cuUser = Except.ok k ∧
      QHash.contains s.qhRecordInfo k = true) :
    ∃ s1, writeAll dbg s chunks = Except.ok s1 := by
  induction chunks generalizing s with
  | nil => exact ⟨s, rfl⟩
  | cons rb rest ih =>
    obtain ⟨k, hk, hc⟩ := h rb (List.mem_cons_self _ _)
    obtain ⟨ri, hv⟩ : ∃ ri, QHash.value s.qhRecordInfo k = some ri := by
      simpa [QHash.contains, Option.isSome_iff_exists] using hc
    have hw : writeChunk dbg s rb = Except.ok (afterChunk s rb s.qlRecordBuffer k ri) :=
      (writeChunk_ok_iff dbg s _ rb).mpr ⟨k, ri, hk, hv, rfl⟩
    simp only [writeAll, hw]
    apply ih
    intro rb' hrb'
    obtain ⟨k', hk', hc'⟩ := h rb' (List.mem_cons_of_mem _ hrb')
    refine ⟨k', hk', ?_⟩
    exact (QHash.contains_insert _ _ _ _).mpr (Or.inl hc')

theorem drain_eq_writeAll (dbg : Bool) (s : Recorder) :
    drain dbg s = writeAll dbg { s with qlRecordBuffer := [] } s.qlRecordBuffer :=
  drainLoop_eq_writeAll dbg _ s (le_refl _)

theorem drain_ok_queue (dbg : Bool) (s s1 : Recorder) (h : drain dbg s = Except.ok s1) :
    s1.qlRecordBuffer = [] := by
  rw [drain_eq_writeAll] at h
  exact writeAll_ok_queue dbg _ _ _ h

theorem drain_ok_of_registered (dbg : Bool) (s : Recorder) (h : Registered s) :
    ∃ s1, drain dbg s = Except.ok s1 := by
  rw [drain_eq_writeAll]
  exact writeAll_ok_of_registered dbg _ _ h

theorem runOps_drainSteps (dbg : Bool) (q : List RecordBuffer) (s s1 : Recorder)
    (log : List Processed) (hq : s.qlRecordBuffer = q)
    (h : runOps dbg s (List.replicate q.length Op.drainStep) = Except.ok (s1, log)) :
    drain dbg s = Except.ok s1 ∧ log.map Processed.rb = q := by
  induction q generalizing s log with
  | nil =>
    simp only [List.length_nil, List.replicate_zero, runOps, Except.ok.injEq,
      Prod.mk.injEq] at h
    obtain ⟨rfl, rfl⟩ := h
    simp [drain, hq, drainLoop]
  | cons rb rest ih =>
    rw [List.length_cons, List.replicate_succ, runOps_cons_ok_iff] at h
    obtain ⟨s2, log1, hstep, hrun, rfl⟩ := h
    simp only [step] at hstep
    have hstep' := hstep
    rw [drainStep_ok_iff] at hstep
    rcases hstep with ⟨hnil, -⟩ | ⟨rb', rest', k, ri, hq', hk, hv, rfl⟩
    · rw [hq] at hnil
      exact absurd hnil (List.cons_ne_nil _ _)
    · rw [hq] at hq'
      simp only [List.cons.injEq] at hq'
      obtain ⟨rfl, rfl⟩ := hq'
      obtain ⟨hd, hl⟩ := ih (afterChunk s rb rest k ri) log1 rfl hrun
      constructor
      · rw [drainStep_cons dbg s rb rest hq] at hstep'
        simp only [drain, hq, List.length_cons, drainLoop, hstep']
        exact hd
      · simp [processedBy, hq, hk, hl]

theorem step_fifo (dbg : Bool) (s s1 : Recorder) (op : Op)
    (hstep : step dbg s op = Except.ok s1) :
    (processedBy s op).map Processed.rb ++ s1.qlRecordBuffer =
      s.qlRecordBuffer ++ Op.chunk op := by
  cases op with
  | addBuffer cu b n =>
    simp only [step] at hstep
    rw [addBuffer_ok_iff] at hstep
    obtain ⟨-, k, -, rfl⟩ := hstep
    simp [processedBy, afterAddBuffer, Op.chunk]
  | addSilence n =>
    simp only [step, Except.ok.injEq] at hstep
    subst hstep
    simp [processedBy, addSilence, Op.chunk]
  | stop =>
    simp only [step, Except.ok.injEq] at hstep
    subst hstep
    simp [processedBy, stop, Op.chunk]
  | drainStep =>
    simp only [step] at hstep
    rw [drainStep_ok_iff] at hstep
    rcases hstep with ⟨hq, rfl⟩ | ⟨rb, rest, k, ri, hq, hk, -, rfl⟩
    · simp [processedBy, hq, Op.chunk]
    · simp [processedBy, hq, hk, afterChunk, Op.chunk]

theorem runOps_fifo (dbg : Bool) (ops : List Op) (s s1 : Recorder) (log : List Processed)
    (hrun : runOps dbg s ops = Except.ok (s1, log)) :
    log.map Processed.rb ++ s1.qlRecordBuffer = s.qlRecordBuffer ++ submittedChunks ops := by
  induction ops generalizing s log with
  | nil =>
    simp only [runOps, Except.ok.injEq, Prod.mk.injEq] at hrun
    obtain ⟨rfl, rfl⟩ := hrun
    simp [submittedChunks]
  | cons op ops ih =>
    rw [runOps_cons_ok_iff] at hrun
    obtain ⟨s2, log1, hstep, hrun2, rfl⟩ := hrun
    have hf2 := step_fifo dbg s s2 op hstep
    have hf3 := ih s2 log1 hrun2
    have hc : submittedChunks (op :: ops) = Op.chunk op ++ submittedChunks ops := by
      simp [submittedChunks]
    rw [hc, List.map_append, List.append_assoc, hf3, ← List.append_assoc, hf2,
      List.append_assoc]

/-- C8. FIFO write order: `addBuffer` puts the new chunk at the tail of the
queue; an iteration of the worker's loop on a non-empty queue removes the
head; one drain of a queue `q` is the chunks of `q` written one after the
other from first to last, it ends with an empty queue, and the chunks the
worker takes during it are exactly `q` in order; the drain produces a result
whenever every queued chunk has a registered track.  In any interleaving of
producer calls and worker iterations, the chunks taken so far followed by
the chunks still queued are the chunks queued at the start followed by the
chunks submitted, in order. -/
theorem C8_fifo_write_order (dbg : Bool) (s : Recorder) :
    (∀ cu buffer samples s1, addBuffer dbg s cu buffer samples = Except.ok s1 →
      s1.qlRecordBuffer = s.qlRecordBuffer ++ [RecordBuffer.mk cu buffer samples]) ∧
    (∀ rb rest s1, s.qlRecordBuffer = rb :: rest → drainStep dbg s = Except.ok s1 →
      s1.qlRecordBuffer = rest) ∧
    drain dbg s = writeAll dbg { s with qlRecordBuffer := [] } s.qlRecordBuffer ∧
    (∀ s1, drain dbg s = Except.ok s1 → s1.qlRecordBuffer = []) ∧
    (∀ s1 log, runOps dbg s (List.replicate s.qlRecordBuffer.length Op.drainStep)
        = Except.ok (s1, log) →
      drain dbg s = Except.ok s1 ∧ log.map Processed.rb = s.qlRecordBuffer) ∧
    (Registered s → ∃ s1 log,
      runOps dbg s (List.replicate s.qlRecordBuffer.length Op.drainStep) = Except.ok (s1, log) ∧
      drain dbg s = Except.ok s1 ∧ log.map Processed.rb = s.qlRecordBuffer ∧
      s1.qlRecordBuffer = []) ∧
    (∀ ops s1 log, runOps dbg s ops = Except.ok (s1, log) →
      log.map Processed.rb ++ s1.qlRecordBuffer = s.qlRecordBuffer ++ submittedChunks ops) := by
  refine ⟨?_, ?_, drain_eq_writeAll dbg s, drain_ok_queue dbg s, ?_, ?_,
    fun ops s1 log h => runOps_fifo dbg ops s s1 log h⟩
  · intro cu buffer samples s1 h
    rw [addBuffer_ok_iff] at h
    obtain ⟨-, k, -, rfl⟩ := h
    rfl
  · intro rb rest s1 hq h
    rw [drainStep_ok_iff] at h
    rcases h with ⟨hnil, -⟩ | ⟨rb', rest', k, ri, hq', -, -, rfl⟩
    · rw [hq] at hnil
      exact absurd hnil (List.cons_ne_nil _ _)
    · rw [hq] at hq'
      simp only [List.cons.injEq] at hq'
      exact hq'.2.symm
  · intro s1 log h
    exact runOps_drainSteps dbg _ s s1 log rfl h
  · intro hreg
    obtain ⟨s1, log, hrun, -, -⟩ := runOps_ok_of_admissible dbg
      (List.replicate s.qlRecordBuffer.length Op.drainStep) s hreg (by
        intro op hop
        rw [List.eq_of_mem_replicate hop]
        exact True.intro)
    obtain ⟨hd, hl⟩ := runOps_drainSteps dbg _ s s1 log rfl hrun
    exact ⟨s1, log, hrun, hd, hl, drain_ok_queue dbg s s1 hd⟩

/-! ### The sample counter -/

theorem toQuint64_toQuint64_add (x y : Int) :
    toQuint64 ((toQuint64 x : Int) + y) = toQuint64 (x + y) := by
  unfold toQuint64 two64
  omega

theorem step_cursor (dbg : Bool) (s s1 : Recorder) (op : Op)
    (h : step dbg s op = Except.ok s1) (hc : s.uiRecordedSamples < two64) :
    s1.uiRecordedSamples =
      toQuint64 (s.uiRecordedSamples + (processedTotal (processedBy s op) + Op.silence op)) := by
  cases op with
  | addBuffer cu b n =>
    simp only [step] at h
    rw [addBuffer_ok_iff] at h
    obtain ⟨-, k, -, rfl⟩ := h
    simp [afterAddBuffer, processedBy, processedTotal, Op.silence, toQuint64_of_lt _ hc]
  | addSilence n =>
    simp only [step, Except.ok.injEq] at h
    subst h
    simp [addSilence, processedBy, processedTotal, Op.silence]
  | stop =>
    simp only [step, Except.ok.injEq] at h
    subst h
    simp [stop, processedBy, processedTotal, Op.silence, toQuint64_of_lt _ hc]
  | drainStep =>
    simp only [step] at h
    rw [drainStep_ok_iff] at h
    rcases h with ⟨hq, rfl⟩ | ⟨rb, rest, k, ri, hq, hk, hv, rfl⟩
    · simp [processedBy, hq, processedTotal, Op.silence, toQuint64_of_lt _ hc]
    · simp [afterChunk, processedBy, hq, hk, processedTotal, Op.silence]

theorem runOps_cursor (dbg : Bool) (ops : List Op) (s s1 : Recorder) (log : List Processed)
    (h : runOps dbg s ops = Except.ok (s1, log)) (hc : s.uiRecordedSamples < two64) :
    s1.uiRecordedSamples =
      toQuint64 (s.uiRecordedSamples + (processedTotal log + silenceTotal ops)) := by
  induction ops generalizing s log with
  | nil =>
    simp only [runOps, Except.ok.injEq, Prod.mk.injEq] at h
    obtain ⟨rfl, rfl⟩ := h
    simp [processedTotal, silenceTotal, toQuint64_of_lt _ hc]
  | cons op ops ih =>
    rw [runOps_cons_ok_iff] at h
    obtain ⟨s2, log1, hstep, hrun, rfl⟩ := h
    have h2 := step_cursor dbg s s2 op hstep hc
    have hc2 : s2.uiRecordedSamples < two64 := by
      rw [h2]
      exact toQuint64_lt _
    rw [ih s2 log1 hrun hc2, h2, toQuint64_toQuint64_add]
    congr 1
    simp only [processedTotal, silenceTotal, List.map_append, List.sum_append, List.map_cons,
      List.sum_cons]
    ring

/-- C9. Recorded-samples total: after any run that starts with the counter at
0, `getRecordedSamples` is the sum of the sample counts of the chunks the
worker has taken plus the sum of the `addSilence` counts, reduced modulo
`2 ^ 64`.  One worker iteration adds the chunk's own count and nothing for
the silence it pads with, and `addBuffer` leaves the counter alone, so queued
chunks do not count. -/
theorem C9_recorded_samples_total (dbg : Bool) (s0 s : Recorder) (ops : List Op)
    (log : List Processed) (h0 : IsFresh s0)
    (hrun : runOps dbg s0 ops = Except.ok (s, log)) :
    getRecordedSamples s = toQuint64 (processedTotal log + silenceTotal ops) ∧
    (∀ t t1 : Recorder, ∀ rb rest, t.qlRecordBuffer = rb :: rest →
      drainStep dbg t = Except.ok t1 →
      getRecordedSamples t1 = toQuint64 (getRecordedSamples t + rb.iSamples)) ∧
    (∀ t t1 : Recorder, ∀ cu buffer samples, addBuffer dbg t cu buffer samples = Except.ok t1 →
      getRecordedSamples t1 = getRecordedSamples t) := by
  refine ⟨?_, ?_, ?_⟩
  · have hc : s0.uiRecordedSamples < two64 := by
      rw [h0.1]
      decide
    have h := runOps_cursor dbg ops s0 s log hrun hc
    rw [h0.1] at h
    simpa [getRecordedSamples] using h
  · intro t t1 rb rest hq h
    rw [drainStep_ok_iff] at h
    rcases h with ⟨hnil, -⟩ | ⟨rb', rest', k, ri, hq', -, -, rfl⟩
    · rw [hq] at hnil
      exact absurd hnil (List.cons_ne_nil _ _)
    · rw [hq] at hq'
      simp only [List.cons.injEq] at hq'
      obtain ⟨rfl, rfl⟩ := hq'
      rfl
  · intro t t1 cu buffer samples h
    rw [addBuffer_ok_iff] at h
    obtain ⟨-, k, -, rfl⟩ := h
    rfl

theorem C9_recorded_samples_total_witness :
    getRecordedSamples (outcome (runOps true (session false) shortRun)).1 =
      toQuint64 (processedTotal (outcome (runOps true (session false) shortRun)).2 +
        silenceTotal shortRun) :=
  (C9_recorded_samples_total true (session false)
    (outcome (runOps true (session false) shortRun)).1 shortRun
    (outcome (runOps true (session false) shortRun)).2 ⟨rfl, rfl, rfl⟩ rfl).1

/-! ### Timeline alignment -/

theorem value_afterChunk (s : Recorder) (rb : RecordBuffer) (rest : List RecordBuffer)
    (k j : Int) (ri : RecordInfo) :
    QHash.value (afterChunk s rb rest k ri).qhRecordInfo j =
      if j = k then some (trackAfter s k rb ri) else QHash.value s.qhRecordInfo j := by
  by_cases hj : j = k
  · subst hj
    simp [afterChunk, QHash.value_insert_self]
  · simp [afterChunk, QHash.value_insert_ne _ _ _ _ hj, hj]

theorem value_afterAddBuffer (s : Recorder) (cu : Option ClientUser) (b : List Sample)
    (n : Int) (k j : Int) :
    QHash.value (afterAddBuffer s cu b n k).qhRecordInfo j =
      if QHash.contains s.qhRecordInfo k = false ∧ j = k then some {}
      else QHash.value s.qhRecordInfo j := by
  unfold afterAddBuffer
  by_cases hc : QHash.contains s.qhRecordInfo k = true
  · simp [hc]
  · simp only [hc, Bool.false_eq_true, if_false]
    have hc' : QHash.contains s.qhRecordInfo k = false := by simpa using hc
    by_cases hj : j = k
    · subst hj
      simp [hc', QHash.value_insert_self]
    · simp [hj, QHash.value_insert_ne _ _ _ _ hj]

theorem queuedTotal_nonneg (s : Recorder)
    (h : ∀ rb ∈ s.qlRecordBuffer, RecordBuffer.WellFormed rb) : 0 ≤ queuedTotal s := by
  unfold queuedTotal
  apply List.sum_nonneg
  intro x hx
  rw [List.mem_map] at hx
  obtain ⟨rb, hrb, rfl⟩ := hx
  exact (h rb hrb).1

theorem Op.samples_nonneg (op : Op) (h : Op.WellFormed op) : 0 ≤ Op.samples op := by
  cases op with
  | addBuffer cu b n => exact h.1
  | addSilence n => exact h
  | drainStep => exact le_refl _
  | stop => exact le_refl _

theorem opsTotal_nonneg (ops : List Op) (h : ∀ op ∈ ops, Op.WellFormed op) :
    0 ≤ opsTotal ops := by
  unfold opsTotal
  apply List.sum_nonneg
  intro x hx
  rw [List.mem_map] at hx
  obtain ⟨op, hop, rfl⟩ := hx
  exact Op.samples_nonneg op (h op hop)

theorem RecordBuffer.samples_length (rb : RecordBuffer) (h : RecordBuffer.WellFormed rb) :
    (RecordBuffer.samples rb).length = rb.iSamples.toNat := by
  unfold RecordBuffer.samples
  rw [List.length_take]
  exact Nat.min_eq_left h.2

theorem sound_fresh (s : Recorder) (h : IsFresh s) : Sound s [] := by
  obtain ⟨-, ht, -⟩ := h
  constructor
  · intro k ri hv
    simp [ht, QHash.value] at hv
  · intro k ri hv
    simp [ht, QHash.value] at hv
  · intro e he
    exact absurd he (List.not_mem_nil _)
  · intro k ri hv
    simp [ht, QHash.value] at hv

theorem sound_afterAddBuffer (s : Recorder) (log : List Processed) (cu : Option ClientUser)
    (b : List Sample) (n : Int) (k : Int) (h : Sound s log) :
    Sound (afterAddBuffer s cu b n k) log := by
  have hval : ∀ j ri, QHash.value (afterAddBuffer s cu b n k).qhRecordInfo j = some ri →
      QHash.value s.qhRecordInfo j = some ri ∨
        (QHash.contains s.qhRecordInfo k = false ∧ j = k ∧ ri = {}) := by
    intro j ri hv
    rw [value_afterAddBuffer] at hv
    by_cases hc : QHash.contains s.qhRecordInfo k = false ∧ j = k
    · simp only [hc, and_self, if_true, Option.some.injEq] at hv
      exact Or.inr ⟨hc.1, hc.2, hv.symm⟩
    · simp only [hc, if_false] at hv
      exact Or.inl hv
  constructor
  · intro j ri hv
    rcases hval j ri hv with h1 | ⟨-, -, rfl⟩
    · exact h.last_le j ri h1
    · exact Nat.zero_le _
  · intro j ri hv
    rcases hval j ri hv with h1 | ⟨-, -, rfl⟩
    · exact h.frames_length j ri h1
    · rfl
  · intro e he
    obtain ⟨ri, hv, hrest⟩ := h.stored e he
    refine ⟨ri, ?_, hrest⟩
    rw [value_afterAddBuffer]
    have hne : ¬ (QHash.contains s.qhRecordInfo k = false ∧ e.index = k) := by
      rintro ⟨hc, hk⟩
      rw [hk] at hv
      simp [QHash.contains, hv] at hc
    simp only [hne, if_false]
    exact hv
  · intro j ri hv p hp hcov
    rcases hval j ri hv with h1 | ⟨-, -, rfl⟩
    · exact h.silent j ri h1 p hp hcov
    · exact absurd hp (Nat.not_lt_zero _)

theorem sound_addSilence (s : Recorder) (log : List Processed) (n : Int) (h : Sound s log)
    (hn : 0 ≤ n) (hb : (s.uiRecordedSamples : Int) + n < two64) :
    Sound (addSilence s n) log := by
  have hc : (addSilence s n).uiRecordedSamples = s.uiRecordedSamples + n.toNat := by
    have := toQuint64_add s.uiRecordedSamples n hn hb
    simp only [addSilence]
    omega
  constructor
  · intro j ri hv
    have := h.last_le j ri hv
    rw [hc]
    omega
  · exact h.frames_length
  · exact h.stored
  · exact h.silent

theorem RecordInfo.frames_length_trackAfter (s : Recorder) (k : Int) (rb : RecordBuffer)
    (ri : RecordInfo) (hwf : RecordBuffer.WellFormed rb)
    (hlen : (RecordInfo.frames ri).length = ri.uiLastPosition)
    (hle : ri.uiLastPosition ≤ s.uiRecordedSamples) (hlt : s.uiRecordedSamples < two64) :
    (RecordInfo.frames (trackAfter s k rb ri)).length
      = s.uiRecordedSamples + rb.iSamples.toNat := by
  rw [RecordInfo.frames_trackAfter, toQuint64_sub _ _ hle hlt]
  simp only [List.length_append, zeros_length, RecordBuffer.samples_length rb hwf, hlen]
  omega

theorem sound_afterChunk (s : Recorder) (log : List Processed) (rb : RecordBuffer)
    (rest : List RecordBuffer) (k : Int) (ri : RecordInfo) (h : Sound s log)
    (hv : QHash.value s.qhRecordInfo k = some ri)
    (hwf : RecordBuffer.WellFormed rb)
    (hb : (s.uiRecordedSamples : Int) + rb.iSamples < two64) :
    Sound (afterChunk s rb rest k ri) (log ++ [Processed.mk k s.uiRecordedSamples rb]) := by
  have hn := hwf.1
  have hlt : s.uiRecordedSamples < two64 := by
    have : (s.uiRecordedSamples : Int) < two64 := by omega
    exact_mod_cast this
  have hle := h.last_le k ri hv
  have hlen := h.frames_length k ri hv
  have hc : (afterChunk s rb rest k ri).uiRecordedSamples
      = s.uiRecordedSamples + rb.iSamples.toNat := by
    have := toQuint64_add s.uiRecordedSamples rb.iSamples hn hb
    simp only [afterChunk]
    omega
  have hlast : (trackAfter s k rb ri).uiLastPosition
      = s.uiRecordedSamples + rb.iSamples.toNat := by
    have := toQuint64_add s.uiRecordedSamples rb.iSamples hn hb
    simp only [trackAfter]
    omega
  have hflen := RecordInfo.frames_length_trackAfter s k rb ri hwf hlen hle hlt
  have hfr : RecordInfo.frames (trackAfter s k rb ri) = RecordInfo.frames ri ++
      (zeros (s.uiRecordedSamples - ri.uiLastPosition) ++ RecordBuffer.samples rb) := by
    rw [RecordInfo.frames_trackAfter, toQuint64_sub _ _ hle hlt, List.append_assoc]
  constructor
  · intro j ri' hv'
    rw [value_afterChunk] at hv'
    by_cases hj : j = k
    · simp only [hj, if_true, Option.some.injEq] at hv'
      rw [← hv', hlast, hc]
    · simp only [hj, if_false] at hv'
      have := h.last_le j ri' hv'
      rw [hc]
      omega
  · intro j ri' hv'
    rw [value_afterChunk] at hv'
    by_cases hj : j = k
    · simp only [hj, if_true, Option.some.injEq] at hv'
      rw [← hv', hlast, hflen]
    · simp only [hj, if_false] at hv'
      exact h.frames_length j ri' hv'
  · intro e he
    rw [List.mem_append, List.mem_singleton] at he
    rcases he with he | rfl
    · obtain ⟨ri0, hv0, hsf0, hle0, hst0⟩ := h.stored e he
      by_cases hj : e.index = k
      · rw [hj] at hv0
        rw [hv] at hv0
        simp only [Option.some.injEq] at hv0
        subst hv0
        refine ⟨trackAfter s k rb ri, ?_, rfl, ?_, ?_⟩
        · rw [value_afterChunk]
          simp [hj]
        · rw [hflen]
          omega
        · rw [hfr, List.drop_append_of_le_length (by omega), List.take_append_of_le_length
            (by rw [List.length_drop]; omega)]
          exact hst0
      · refine ⟨ri0, ?_, hsf0, hle0, hst0⟩
        rw [value_afterChunk]
        simp only [hj, if_false]
        exact hv0
    · refine ⟨trackAfter s k rb ri, ?_, rfl, ?_, ?_⟩
      · rw [value_afterChunk]
        simp
      · simp only
        rw [hflen]
      · simp only
        have hpre : (RecordInfo.frames ri ++ zeros (s.uiRecordedSamples - ri.uiLastPosition)).length
            = s.uiRecordedSamples := by
          rw [List.length_append, zeros_length, hlen]
          omega
        rw [hfr, ← List.append_assoc, List.drop_append_of_le_length (by omega),
          List.drop_of_length_le (by omega), List.nil_append,
          List.take_of_length_le (by rw [RecordBuffer.samples_length rb hwf])]
  · intro j ri' hv' p hp hcov
    rw [value_afterChunk] at hv'
    by_cases hj : j = k
    · simp only [hj, if_true, Option.some.injEq] at hv'
      subst hv'
      rw [hflen] at hp
      rw [hfr]
      by_cases hp1 : p < (RecordInfo.frames ri).length
      · rw [List.getElem?_append_left hp1]
        apply h.silent k ri hv p hp1
        intro e he hek
        exact hcov e (List.mem_append_left _ he) (hek.trans hj.symm)
      · rw [List.getElem?_append_right (by omega)]
        by_cases hp2 : p < s.uiRecordedSamples
        · rw [List.getElem?_append_left (by rw [zeros_length]; omega)]
          unfold zeros
          rw [List.getElem?_replicate]
          have : p - (RecordInfo.frames ri).length
              < s.uiRecordedSamples - ri.uiLastPosition := by omega
          simp [this]
        · exfalso
          apply hcov (Processed.mk k s.uiRecordedSamples rb)
            (List.mem_append_right _ (List.mem_singleton.mpr rfl)) hj.symm
          constructor
          · simp only
            omega
          · exact hp
    · simp only [hj, if_false] at hv'
      apply h.silent j ri' hv' p hp
      intro e he hek
      exact hcov e (List.mem_append_left _ he) hek

theorem step_sound (dbg : Bool) (s s1 : Recorder) (log0 : List Processed) (op : Op)
    (ops : List Op) (h : Sound s log0)
    (hq : ∀ rb ∈ s.qlRecordBuffer, RecordBuffer.WellFormed rb)
    (hop : Op.WellFormed op) (hops : ∀ o ∈ ops, Op.WellFormed o)
    (hb : (s.uiRecordedSamples : Int) + queuedTotal s + opsTotal (op :: ops) < two64)
    (hstep : step dbg s op = Except.ok s1) :
    Sound s1 (log0 ++ processedBy s op) ∧
      (∀ rb ∈ s1.qlRecordBuffer, RecordBuffer.WellFormed rb) ∧
      (s1.uiRecordedSamples : Int) + queuedTotal s1 + opsTotal ops < two64 := by
  have hqn := queuedTotal_nonneg s hq
  have hon := opsTotal_nonneg ops hops
  have hcons : opsTotal (op :: ops) = Op.samples op + opsTotal ops := by
    simp [opsTotal]
  rw [hcons] at hb
  cases op with
  | addBuffer cu b n =>
    simp only [step] at hstep
    rw [addBuffer_ok_iff] at hstep
    obtain ⟨-, k, -, rfl⟩ := hstep
    refine ⟨?_, ?_, ?_⟩
    · simpa [processedBy] using sound_afterAddBuffer s log0 cu b n k h
    · intro rb hrb
      have hrb' : rb ∈ s.qlRecordBuffer ++ [RecordBuffer.mk cu b n] := hrb
      rw [List.mem_append, List.mem_singleton] at hrb'
      rcases hrb' with h1 | rfl
      · exact hq rb h1
      · exact hop
    · have : queuedTotal (afterAddBuffer s cu b n k) = queuedTotal s + n := by
        simp [queuedTotal, afterAddBuffer]
      rw [this]
      simp only [Op.samples] at hb
      simp only [afterAddBuffer]
      omega
  | addSilence n =>
    simp only [step, Except.ok.injEq] at hstep
    subst hstep
    have hn : 0 ≤ n := hop
    simp only [Op.samples] at hb
    have hb1 : (s.uiRecordedSamples : Int) + n < two64 := by omega
    refine ⟨?_, hq, ?_⟩
    · simpa [processedBy] using sound_addSilence s log0 n h hn hb1
    · have := toQuint64_add s.uiRecordedSamples n hn hb1
      have hq' : queuedTotal (addSilence s n) = queuedTotal s := rfl
      rw [hq']
      simp only [addSilence]
      omega
  | stop =>
    simp only [step, Except.ok.injEq] at hstep
    subst hstep
    simp only [Op.samples] at hb
    refine ⟨?_, hq, ?_⟩
    · simpa [processedBy] using (⟨h.last_le, h.frames_length, h.stored, h.silent⟩ :
        Sound (stop s) log0)
    · have hq' : queuedTotal (stop s) = queuedTotal s := rfl
      rw [hq']
      simp only [stop]
      omega
  | drainStep =>
    simp only [step] at hstep
    simp only [Op.samples] at hb
    rw [drainStep_ok_iff] at hstep
    rcases hstep with ⟨hnil, rfl⟩ | ⟨rb, rest, k, ri, hcons', hk, hv, rfl⟩
    · refine ⟨?_, hq, by omega⟩
      simpa [processedBy, hnil] using h
    · have hwf : RecordBuffer.WellFormed rb := hq rb (by rw [hcons']; exact List.mem_cons_self _ _)
      have hrest : ∀ r ∈ rest, RecordBuffer.WellFormed r := fun r hr =>
        hq r (by rw [hcons']; exact List.mem_cons_of_mem _ hr)
      have hqt : queuedTotal s = rb.iSamples + queuedTotal (afterChunk s rb rest k ri) := by
        simp [queuedTotal, hcons', afterChunk]
      have hqn' : 0 ≤ queuedTotal (afterChunk s rb rest k ri) :=
        queuedTotal_nonneg _ hrest
      have hb1 : (s.uiRecordedSamples : Int) + rb.iSamples < two64 := by omega
      refine ⟨?_, hrest, ?_⟩
      · simpa [processedBy, hcons', hk] using sound_afterChunk s log0 rb rest k ri h hv hwf hb1
      · have := toQuint64_add s.uiRecordedSamples rb.iSamples hwf.1 hb1
        have hc : (afterChunk s rb rest k ri).uiRecordedSamples
            = toQuint64 (s.uiRecordedSamples + rb.iSamples) := rfl
        rw [hc]
        omega

theorem runOps_sound (dbg : Bool) (ops : List Op) (s s1 : Recorder)
    (log0 log : List Processed) (h : Sound s log0)
    (hq : ∀ rb ∈ s.qlRecordBuffer, RecordBuffer.WellFormed rb)
    (hops : ∀ o ∈ ops, Op.WellFormed o)
    (hb : (s.uiRecordedSamples : Int) + queuedTotal s + opsTotal ops < two64)
    (hrun : runOps dbg s ops = Except.ok (s1, log)) :
    Sound s1 (log0 ++ log) := by
  induction ops generalizing s log0 log with
  | nil =>
    simp only [runOps, Except.ok.injEq, Prod.mk.injEq] at hrun
    obtain ⟨rfl, rfl⟩ := hrun
    simpa using h
  | cons op ops ih =>
    rw [runOps_cons_ok_iff] at hrun
    obtain ⟨s2, log1, hstep, hrun2, rfl⟩ := hrun
    obtain ⟨h2, hq2, hb2⟩ := step_sound dbg s s2 log0 op ops h hq
      (hops op (List.mem_cons_self _ _)) (fun o ho => hops o (List.mem_cons_of_mem _ ho))
      hb hstep
    have := ih s2 (log0 ++ processedBy s op) log1 h2 hq2
      (fun o ho => hops o (List.mem_cons_of_mem _ ho)) hb2 hrun2
    simpa [List.append_assoc] using this

theorem runOps_sound_of_isFresh (dbg : Bool) (ops : List Op) (s0 s : Recorder)
    (log : List Processed) (h0 : IsFresh s0) (hops : ∀ o ∈ ops, Op.WellFormed o)
    (hsum : opsTotal ops < two64) (hrun : runOps dbg s0 ops = Except.ok (s, log)) :
    Sound s log := by
  have h := runOps_sound dbg ops s0 s [] log (sound_fresh s0 h0)
    (by
      intro rb hrb
      rw [h0.2.2] at hrb
      exact absurd hrb (List.not_mem_nil _))
    hops
    (by
      have : queuedTotal s0 = 0 := by simp [queuedTotal, h0.2.2]
      rw [this, h0.1]
      simpa using hsum)
    hrun
  simpa using h

/-- C1, as amended. Timeline alignment: take a run of `addBuffer`,
`addSilence` and worker iterations that starts from a recorder with counter 0,
no track and an empty queue, in which every sample count is non-negative and
within its array and the counts add up to less than `2 ^ 64`.  Then each
chunk the worker has taken lies in its track's file at the offsets from `G`
to `G + n`, where `G` is the value `uiRecordedSamples` had when the chunk was
taken and `n` its sample count, and every file position under no chunk of
the track holds the silent sample.  The run ends without a fault whenever
each `addBuffer` call respects the mixdown mode. -/
theorem C1_timeline_alignment (dbg : Bool) (s0 : Recorder) (ops : List Op)
    (h0 : IsFresh s0) (hops : ∀ o ∈ ops, Op.WellFormed o) (hsum : opsTotal ops < two64) :
    ((∀ o ∈ ops, Op.Admissible s0.bMixDown o) →
      ∃ s log, runOps dbg s0 ops = Except.ok (s, log)) ∧
    ∀ s log, runOps dbg s0 ops = Except.ok (s, log) → Aligned s log := by
  have hfr : ∀ (ri : RecordInfo) (f : SndFile), ri.sf = some f →
      RecordInfo.frames ri = f.frames := by
    intro ri f hf
    simp [RecordInfo.frames, RecordInfo.writes, hf, SndFile.frames]
  refine ⟨?_, ?_⟩
  · intro hadm
    obtain ⟨s, log, h, -, -⟩ :=
      runOps_ok_of_admissible dbg ops s0 (registered_of_isFresh s0 h0) hadm
    exact ⟨s, log, h⟩
  · intro s log hrun
    have hs := runOps_sound_of_isFresh dbg ops s0 s log h0 hops hsum hrun
    refine ⟨?_, ?_⟩
    · intro e he
      obtain ⟨ri, hv, hsf, hle, hst⟩ := hs.stored e he
      obtain ⟨f, hf⟩ := Option.isSome_iff_exists.mp hsf
      refine ⟨ri, f, hv, hf, ?_, ?_, ?_⟩
      · rw [← hfr ri f hf]
        exact hle
      · rw [← hfr ri f hf]
        exact hst
      · have := congrArg List.length hst
        rw [← this, List.length_take, List.length_drop]
        omega
    · intro k ri f hv hf p hp hcov
      rw [← hfr ri f hf] at hp ⊢
      exact hs.silent k ri hv p hp hcov

theorem aliceSamples_length : aliceSamples.length = 960 := by
  unfold aliceSamples
  rw [List.length_map, List.length_range]

theorem bobSamples_length : bobSamples.length = 480 := by
  unfold bobSamples
  rw [List.length_map, List.length_range]

theorem wellFormed_mk (cu : Option ClientUser) (b : List Sample) (n : Int) (hn : 0 ≤ n)
    (hl : n.toNat ≤ b.length) : RecordBuffer.WellFormed (RecordBuffer.mk cu b n) :=
  ⟨hn, hl⟩

theorem scenarioA_wellFormed : ∀ o ∈ scenarioA, Op.WellFormed o := by
  intro o ho
  simp only [scenarioA, List.mem_cons, List.mem_singleton, List.not_mem_nil, or_false] at ho
  rcases ho with rfl | rfl | rfl | rfl
  · exact wellFormed_mk _ _ _ (by decide) (by rw [aliceSamples_length]; decide)
  · exact wellFormed_mk _ _ _ (by decide) (by rw [bobSamples_length]; decide)
  · exact True.intro
  · exact True.intro

set_option maxRecDepth 20000 in
theorem C1_timeline_alignment_witness :
    ∃ s log, runOps true (session false) scenarioA = Except.ok (s, log) ∧ Aligned s log ∧
      s.qhRecordInfo = scenarioATable ∧ s.uiRecordedSamples = 1440 ∧
      log = [Processed.mk 1 0 (RecordBuffer.mk (some alice) aliceSamples 960),
             Processed.mk 2 960 (RecordBuffer.mk (some bob) bobSamples 480)] :=
  ⟨(outcome (runOps true (session false) scenarioA)).1,
   (outcome (runOps true (session false) scenarioA)).2, rfl,
   (C1_timeline_alignment true (session false) scenarioA ⟨rfl, rfl, rfl⟩
      scenarioA_wellFormed (by decide)).2 _ _ rfl,
   rfl, rfl, rfl⟩

/-! ### A run that wraps the counter -/

theorem runOps_append (dbg : Bool) (a b : List Op) (s s1 s2 : Recorder)
    (l1 l2 : List Processed) (h1 : runOps dbg s a = Except.ok (s1, l1))
    (h2 : runOps dbg s1 b = Except.ok (s2, l2)) :
    runOps dbg s (a ++ b) = Except.ok (s2, l1 ++ l2) := by
  induction a generalizing s l1 with
  | nil =>
    simp only [runOps, Except.ok.injEq, Prod.mk.injEq] at h1
    obtain ⟨rfl, rfl⟩ := h1
    simpa using h2
  | cons op ops ih =>
    rw [runOps_cons_ok_iff] at h1
    obtain ⟨s', l', hstep, hrun, rfl⟩ := h1
    rw [List.cons_append, runOps_cons_ok_iff]
    exact ⟨s', l' ++ l2, hstep, ih s' l' hrun, by simp⟩

theorem runOps_replicate_addSilence (dbg : Bool) (n : Nat) (m : Int) (s : Recorder)
    (hc : s.uiRecordedSamples < two64) :
    runOps dbg s (List.replicate n (Op.addSilence m)) = Except.ok
      ({ s with uiRecordedSamples := toQuint64 (s.uiRecordedSamples + n * m) }, []) := by
  induction n generalizing s with
  | zero =>
    simp only [List.replicate_zero, runOps, Nat.cast_zero, zero_mul, add_zero,
      toQuint64_of_lt _ hc]
  | succ k ih =>
    rw [List.replicate_succ, runOps_cons_ok_iff]
    refine ⟨addSilence s m, [], rfl, ?_, rfl⟩
    rw [ih (addSilence s m) (toQuint64_lt _)]
    have e : (s.uiRecordedSamples : Int) + m + (k : Int) * m
        = (s.uiRecordedSamples : Int) + ((k + 1 : Nat) : Int) * m := by
      push_cast
      ring
    simp only [addSilence, toQuint64_toQuint64_add, e]

theorem runOps_submit_process (dbg : Bool) (s : Recorder) (cu : Option ClientUser)
    (b : List Sample) (n : Int) (k : Int) (ri : RecordInfo)
    (hq : s.qlRecordBuffer = [])
    (hk : trackIndex s.bMixDown cu = Except.ok k)
    (ha : dbg = true → s.bMixDown = true → cu = none)
    (hv : QHash.value (afterAddBuffer s cu b n k).qhRecordInfo k = some ri) :
    runOps dbg s [Op.addBuffer cu b n, Op.drainStep] = Except.ok
      (afterChunk (afterAddBuffer s cu b n k) (RecordBuffer.mk cu b n) [] k ri,
        [Processed.mk k s.uiRecordedSamples (RecordBuffer.mk cu b n)]) := by
  have hq1 : (afterAddBuffer s cu b n k).qlRecordBuffer = [RecordBuffer.mk cu b n] := by
    simp [afterAddBuffer, hq]
  rw [runOps_cons_ok_iff]
  refine ⟨afterAddBuffer s cu b n k,
    [Processed.mk k s.uiRecordedSamples (RecordBuffer.mk cu b n)],
    (addBuffer_ok_iff dbg s _ cu b n).mpr ⟨ha, k, hk, rfl⟩, ?_, rfl⟩
  rw [runOps_cons_ok_iff]
  refine ⟨afterChunk (afterAddBuffer s cu b n k) (RecordBuffer.mk cu b n) [] k ri, [],
    (drainStep_ok_iff dbg _ _).mpr (Or.inr ⟨_, _, k, ri, hq1, hk, hv, rfl⟩), rfl, ?_⟩
  have hk' : trackIndex (afterAddBuffer s cu b n k).bMixDown cu = Except.ok k := hk
  simp only [processedBy, hq1, hk', List.append_nil]
  rfl

theorem zeros_getElem? (n p : Nat) (h : p < n) : (zeros n)[p]? = some 0 := by
  unfold zeros
  rw [List.getElem?_replicate]
  simp [h]

theorem wrapRun_wellFormed : ∀ o ∈ wrapRun, Op.WellFormed o := by
  intro o ho
  simp only [wrapRun, longSilence, List.mem_append, List.mem_cons, List.mem_singleton,
    List.not_mem_nil, or_false] at ho
  rcases ho with ((h | h | h) | h) | h | h
  · rw [List.eq_of_mem_replicate h]
    show (0 : Int) ≤ 2147483647
    decide
  · rw [h]
    exact wellFormed_mk _ _ _ (by decide) (by decide)
  · rw [h]
    exact True.intro
  · rw [List.eq_of_mem_replicate h]
    show (0 : Int) ≤ 2147483647
    decide
  · rw [h]
    exact wellFormed_mk _ _ _ (by decide) (by decide)
  · rw [h]
    exact True.intro

theorem wrapRun_prefix_result :
    runOps true (session false)
        (longSilence ++ [Op.addBuffer (some alice) [7] 1, Op.drainStep] ++ longSilence)
      = Except.ok (wrapState3,
          [Processed.mk 1 wrapCursor1 (RecordBuffer.mk (some alice) [7] 1)]) := by
  have h1 : runOps true (session false) longSilence = Except.ok (wrapState1, []) := by
    have h := runOps_replicate_addSilence true 4294967300 2147483647 (session false)
      (by decide)
    have e : toQuint64 (((session false).uiRecordedSamples : Int)
        + ((4294967300 : Nat) : Int) * 2147483647) = wrapCursor1 := by decide
    rw [e] at h
    exact h
  have h2 : runOps true wrapState1 [Op.addBuffer (some alice) [7] 1, Op.drainStep]
      = Except.ok (wrapState2,
          [Processed.mk 1 wrapCursor1 (RecordBuffer.mk (some alice) [7] 1)]) :=
    runOps_submit_process true wrapState1 (some alice) [7] 1 1 {}
      rfl rfl (fun _ h => absurd h (by decide)) rfl
  have h3 : runOps true wrapState2 longSilence = Except.ok (wrapState3, []) := by
    have h := runOps_replicate_addSilence true 4294967300 2147483647 wrapState2 (by decide)
    have e : toQuint64 ((wrapState2.uiRecordedSamples : Int)
        + ((4294967300 : Nat) : Int) * 2147483647) = wrapCursor2 := by decide
    rw [e] at h
    exact h
  have h12 := runOps_append true _ _ _ _ _ _ _ h1 h2
  exact runOps_append true _ _ _ _ _ _ _ h12 h3

theorem wrapRun_result :
    runOps true (session false) wrapRun = Except.ok (wrapState4, wrapLog) := by
  have h4 : runOps true wrapState3 [Op.addBuffer (some alice) [9] 1, Op.drainStep]
      = Except.ok (wrapState4,
          [Processed.mk 1 wrapCursor2 (RecordBuffer.mk (some alice) [9] 1)]) :=
    runOps_submit_process true wrapState3 (some alice) [9] 1 1 wrapTrack3
      rfl rfl (fun _ h => absurd h (by decide)) rfl
  exact runOps_append true _ _ _ _ _ _ _ wrapRun_prefix_result h4

theorem wrapState4_value : QHash.value wrapState4.qhRecordInfo 1 = some wrapTrack4 :=
  QHash.value_insert_self _ _ _

theorem wrapTrack4_frames :
    RecordInfo.frames wrapTrack4 = zeros wrapCursor1 ++ ([7] ++ (zeros wrapCursor1 ++ [9])) := by
  unfold wrapTrack4
  rw [RecordInfo.frames_trackAfter]
  unfold wrapTrack3
  rw [RecordInfo.frames_trackAfter]
  have e5 : toQuint64 (((afterAddBuffer wrapState1 (some alice) [7] 1 1).uiRecordedSamples : Int)
      - (({} : RecordInfo).uiLastPosition : Int)) = wrapCursor1 := by decide
  have e6 : toQuint64 (((afterAddBuffer wrapState3 (some alice) [9] 1 1).uiRecordedSamples : Int)
      - ((trackAfter (afterAddBuffer wrapState1 (some alice) [7] 1 1) 1
        (RecordBuffer.mk (some alice) [7] 1) {}).uiLastPosition : Int)) = wrapCursor1 := by
    decide
  have e7 : RecordInfo.frames {} = [] := rfl
  have e8 : RecordBuffer.samples (RecordBuffer.mk (some alice) [7] 1) = [7] := rfl
  have e9 : RecordBuffer.samples (RecordBuffer.mk (some alice) [9] 1) = [9] := rfl
  rw [e5, e6, e7, e8, e9, List.nil_append, List.append_assoc, List.append_assoc]

/-- C1, counterexample. The run `wrapRun` starts from a recorder with counter
0, no track and an empty queue, every sample count in it is non-negative and
within its array, and it ends without a fault; but the second sample of
alice, taken when the counter was `wrapCursor2`, does not lie at that offset
of her file: the file holds silence there. -/
theorem C1_timeline_alignment_counterexample :
    IsFresh (session false) ∧ (∀ o ∈ wrapRun, Op.WellFormed o) ∧
    (∀ o ∈ wrapRun, Op.Admissible (session false).bMixDown o) ∧
    ∃ s log, runOps true (session false) wrapRun = Except.ok (s, log) ∧ ¬ Aligned s log := by
  refine ⟨⟨rfl, rfl, rfl⟩, wrapRun_wellFormed, ?_, wrapState4, wrapLog, wrapRun_result, ?_⟩
  · intro o ho
    simp only [wrapRun, longSilence, List.mem_append, List.mem_cons, List.mem_singleton,
      List.not_mem_nil, or_false] at ho
    rcases ho with ((h | h | h) | h) | h | h
    · rw [List.eq_of_mem_replicate h]
      exact True.intro
    · rw [h]
      exact ⟨fun hm => absurd hm (by decide), fun _ => by decide⟩
    · rw [h]
      exact True.intro
    · rw [List.eq_of_mem_replicate h]
      exact True.intro
    · rw [h]
      exact ⟨fun hm => absurd hm (by decide), fun _ => by decide⟩
    · rw [h]
      exact True.intro
  · intro hal
    obtain ⟨ri, f, hv, hf, -, hst, -⟩ := hal.1
      (Processed.mk 1 wrapCursor2 (RecordBuffer.mk (some alice) [9] 1))
      (by simp [wrapLog])
    simp only at hv hst
    rw [wrapState4_value] at hv
    simp only [Option.some.injEq] at hv
    subst hv
    have hfr : f.frames = zeros wrapCursor1 ++ ([7] ++ (zeros wrapCursor1 ++ [9])) := by
      rw [← wrapTrack4_frames]
      simp [RecordInfo.frames, RecordInfo.writes, hf, SndFile.frames]
    have h0 : f.frames[wrapCursor2]? = some 0 := by
      rw [hfr, List.getElem?_append_left (by rw [zeros_length]; decide)]
      exact zeros_getElem? _ _ (by decide)
    have h9 : ((f.frames.drop wrapCursor2).take (1 : Int).toNat)[0]? = some 9 := by
      rw [hst]
      rfl
    rw [List.getElem?_take_of_lt (by decide), List.getElem?_drop, Nat.add_zero, h0] at h9
    exact absurd h9 (by decide)

/-! ### No track ahead of the counter -/

theorem queuedTotal_nonneg_of_counts (s : Recorder)
    (h : ∀ rb ∈ s.qlRecordBuffer, 0 ≤ rb.iSamples) : 0 ≤ queuedTotal s := by
  unfold queuedTotal
  apply List.sum_nonneg
  intro x hx
  rw [List.mem_map] at hx
  obtain ⟨rb, hrb, rfl⟩ := hx
  exact h rb hrb

theorem opsTotal_nonneg_of_counts (ops : List Op) (h : ∀ o ∈ ops, 0 ≤ Op.samples o) :
    0 ≤ opsTotal ops := by
  unfold opsTotal
  apply List.sum_nonneg
  intro x hx
  rw [List.mem_map] at hx
  obtain ⟨op, hop, rfl⟩ := hx
  exact h op hop

theorem opsTotal_append (a b : List Op) : opsTotal (a ++ b) = opsTotal a + opsTotal b := by
  simp [opsTotal]

theorem step_lastLe (dbg : Bool) (s s1 : Recorder) (op : Op) (rem : Int) (h : LastLe s)
    (hq : ∀ rb ∈ s.qlRecordBuffer, 0 ≤ rb.iSamples)
    (hop : 0 ≤ Op.samples op) (hrem : 0 ≤ rem)
    (hb : (s.uiRecordedSamples : Int) + queuedTotal s + (Op.samples op + rem) < two64)
    (hstep : step dbg s op = Except.ok s1) :
    LastLe s1 ∧ (∀ rb ∈ s1.qlRecordBuffer, 0 ≤ rb.iSamples) ∧
      (s1.uiRecordedSamples : Int) + queuedTotal s1 + rem < two64 := by
  have hqn := queuedTotal_nonneg_of_counts s hq
  cases op with
  | addBuffer cu b n =>
    simp only [step] at hstep
    rw [addBuffer_ok_iff] at hstep
    obtain ⟨-, k, -, rfl⟩ := hstep
    refine ⟨?_, ?_, ?_⟩
    · intro j ri hv
      rw [value_afterAddBuffer] at hv
      by_cases hc : QHash.contains s.qhRecordInfo k = false ∧ j = k
      · simp only [hc, and_self, if_true, Option.some.injEq] at hv
        rw [← hv]
        exact Nat.zero_le _
      · simp only [hc, if_false] at hv
        exact h j ri hv
    · intro rb hrb
      have hrb' : rb ∈ s.qlRecordBuffer ++ [RecordBuffer.mk cu b n] := hrb
      rw [List.mem_append, List.mem_singleton] at hrb'
      rcases hrb' with h1 | rfl
      · exact hq rb h1
      · exact hop
    · have : queuedTotal (afterAddBuffer s cu b n k) = queuedTotal s + n := by
        simp [queuedTotal, afterAddBuffer]
      rw [this]
      simp only [Op.samples] at hb
      simp only [afterAddBuffer]
      omega
  | addSilence n =>
    simp only [step, Except.ok.injEq] at hstep
    subst hstep
    have hn : 0 ≤ n := hop
    simp only [Op.samples] at hb
    have hb1 : (s.uiRecordedSamples : Int) + n < two64 := by omega
    have hc := toQuint64_add s.uiRecordedSamples n hn hb1
    have hq' : queuedTotal (addSilence s n) = queuedTotal s := rfl
    refine ⟨?_, hq, ?_⟩
    · intro j ri hv
      have := h j ri hv
      simp only [addSilence]
      omega
    · rw [hq']
      simp only [addSilence]
      omega
  | stop =>
    simp only [step, Except.ok.injEq] at hstep
    subst hstep
    simp only [Op.samples] at hb
    have hq' : queuedTotal (stop s) = queuedTotal s := rfl
    refine ⟨h, hq, ?_⟩
    rw [hq']
    simp only [stop]
    omega
  | drainStep =>
    simp only [step] at hstep
    simp only [Op.samples] at hb
    rw [drainStep_ok_iff] at hstep
    rcases hstep with ⟨-, rfl⟩ | ⟨rb, rest, k, ri, hcons, hk, hv, rfl⟩
    · exact ⟨h, hq, by omega⟩
    · have hn : 0 ≤ rb.iSamples := hq rb (by rw [hcons]; exact List.mem_cons_self _ _)
      have hrest : ∀ r ∈ rest, 0 ≤ r.iSamples := fun r hr =>
        hq r (by rw [hcons]; exact List.mem_cons_of_mem _ hr)
      have hqt : queuedTotal s = rb.iSamples + queuedTotal (afterChunk s rb rest k ri) := by
        simp [queuedTotal, hcons, afterChunk]
      have hqn' : 0 ≤ queuedTotal (afterChunk s rb rest k ri) :=
        queuedTotal_nonneg_of_counts _ hrest
      have hb1 : (s.uiRecordedSamples : Int) + rb.iSamples < two64 := by omega
      have hc := toQuint64_add s.uiRecordedSamples rb.iSamples hn hb1
      have hc' : (afterChunk s rb rest k ri).uiRecordedSamples
          = toQuint64 (s.uiRecordedSamples + rb.iSamples) := rfl
      refine ⟨?_, hrest, ?_⟩
      · intro j ri' hv'
        rw [value_afterChunk] at hv'
        by_cases hj : j = k
        · simp only [hj, if_true, Option.some.injEq] at hv'
          rw [← hv', hc']
          exact le_refl _
        · simp only [hj, if_false] at hv'
          have := h j ri' hv'
          rw [hc']
          omega
      · rw [hc']
        omega

theorem runOps_lastLe (dbg : Bool) (ops : List Op) (s s1 : Recorder) (log : List Processed)
    (rem : Int) (h : LastLe s) (hq : ∀ rb ∈ s.qlRecordBuffer, 0 ≤ rb.iSamples)
    (hops : ∀ o ∈ ops, 0 ≤ Op.samples o) (hrem : 0 ≤ rem)
    (hb : (s.uiRecordedSamples : Int) + queuedTotal s + (opsTotal ops + rem) < two64)
    (hrun : runOps dbg s ops = Except.ok (s1, log)) : LastLe s1 := by
  induction ops generalizing s log with
  | nil =>
    simp only [runOps, Except.ok.injEq, Prod.mk.injEq] at hrun
    rw [← hrun.1]
    exact h
  | cons op ops ih =>
    rw [runOps_cons_ok_iff] at hrun
    obtain ⟨s2, log1, hstep, hrun2, -⟩ := hrun
    have hon := opsTotal_nonneg_of_counts ops (fun o ho => hops o (List.mem_cons_of_mem _ ho))
    have hcons : opsTotal (op :: ops) = Op.samples op + opsTotal ops := by
      simp [opsTotal]
    rw [hcons] at hb
    obtain ⟨h2, hq2, hb2⟩ := step_lastLe dbg s s2 op (opsTotal ops + rem) h hq
      (hops op (List.mem_cons_self _ _)) (by omega) (by omega) hstep
    exact ih s2 log1 h2 hq2 (fun o ho => hops o (List.mem_cons_of_mem _ ho)) hb2 hrun2

/-- C4, as amended. Take a run of `addBuffer`, `addSilence`, worker iterations
and `stop` that starts from a recorder with counter 0, no track and an empty
queue, in which every sample count is non-negative and the counts add up to
less than `2 ^ 64`.  In the state after any initial part of the run, so also
at the moment of every write, each track's `uiLastPosition` is at most
`uiRecordedSamples`. -/
theorem C4_written_le_cursor (dbg : Bool) (s0 s : Recorder) (pre suf : List Op)
    (log : List Processed) (h0 : IsFresh s0)
    (hops : ∀ o ∈ pre ++ suf, 0 ≤ Op.samples o)
    (hsum : opsTotal (pre ++ suf) < two64)
    (hrun : runOps dbg s0 pre = Except.ok (s, log)) :
    ∀ k ri, QHash.value s.qhRecordInfo k = some ri →
      ri.uiLastPosition ≤ s.uiRecordedSamples := by
  have hsuf : 0 ≤ opsTotal suf :=
    opsTotal_nonneg_of_counts suf (fun o ho => hops o (List.mem_append_right _ ho))
  apply runOps_lastLe dbg pre s0 s log (opsTotal suf) ?_ ?_
    (fun o ho => hops o (List.mem_append_left _ ho)) hsuf ?_ hrun
  · intro k ri hv
    simp [h0.2.1, QHash.value] at hv
  · intro rb hrb
    rw [h0.2.2] at hrb
    exact absurd hrb (List.not_mem_nil _)
  · have : queuedTotal s0 = 0 := by simp [queuedTotal, h0.2.2]
    rw [this, h0.1, ← opsTotal_append]
    simpa using hsum

theorem C4_written_le_cursor_witness :
    runOps true (session false) shortRun
      = Except.ok (outcome (runOps true (session false) shortRun)) ∧
    ∀ k ri, QHash.value (outcome (runOps true (session false) shortRun)).1.qhRecordInfo k
        = some ri →
      ri.uiLastPosition ≤ (outcome (runOps true (session false) shortRun)).1.uiRecordedSamples :=
  ⟨rfl, C4_written_le_cursor true (session false) _ shortRun [] _ ⟨rfl, rfl, rfl⟩
    (by decide) (by decide) rfl⟩

/-- C4, counterexample. After alice's three samples have been written and
`addSilence(-1)` has been called, her track's `uiLastPosition` is 3 and
`uiRecordedSamples` is 2.  With non-negative counts only, the run of a long
silence, one sample of alice and a second long silence wraps the counter:
her track's `uiLastPosition` is `wrapCursor1 + 1` and `uiRecordedSamples` is
`wrapCursor2`. -/
theorem C4_written_le_cursor_counterexample :
    IsFresh (session false) ∧
    (∃ s log ri, runOps true (session false) negativeRun = Except.ok (s, log) ∧
      QHash.value s.qhRecordInfo 1 = some ri ∧
      ri.uiLastPosition = 3 ∧ s.uiRecordedSamples = 2 ∧
      ¬ ri.uiLastPosition ≤ s.uiRecordedSamples) ∧
    (∃ s log ri,
      runOps true (session false)
        (longSilence ++ [Op.addBuffer (some alice) [7] 1, Op.drainStep] ++ longSilence)
        = Except.ok (s, log) ∧
      QHash.value s.qhRecordInfo 1 = some ri ∧
      ri.uiLastPosition = wrapCursor1 + 1 ∧ s.uiRecordedSamples = wrapCursor2 ∧
      ¬ ri.uiLastPosition ≤ s.uiRecordedSamples) :=
  ⟨⟨rfl, rfl, rfl⟩,
   ⟨(outcome (runOps true (session false) negativeRun)).1,
    (outcome (runOps true (session false) negativeRun)).2, _, rfl, rfl, rfl, rfl, by decide⟩,
   ⟨wrapState3, _, wrapTrack3, wrapRun_prefix_result, rfl, by decide, rfl, by decide⟩⟩

/-! ### Monotonicity of the counter -/

/-- C10, as amended. Monotonic counter: `addBuffer` and `stop` leave
`uiRecordedSamples` as it is; `addSilence` with a non-negative count and a
worker iteration on a chunk with a non-negative sample count add that count,
and so do not decrease the value `getRecordedSamples` returns, as long as
the sum stays below `2 ^ 64`. -/
theorem C10_monotonic_counter (dbg : Bool) (s s1 : Recorder) (op : Op)
    (hn : 0 ≤ advance s op)
    (hb : (getRecordedSamples s : Int) + advance s op < two64)
    (hstep : step dbg s op = Except.ok s1) :
    (getRecordedSamples s1 : Int) = getRecordedSamples s + advance s op ∧
      getRecordedSamples s ≤ getRecordedSamples s1 := by
  have key : (getRecordedSamples s1 : Int) = getRecordedSamples s + advance s op := by
    unfold getRecordedSamples at *
    cases op with
    | addBuffer cu b n =>
      simp only [step] at hstep
      rw [addBuffer_ok_iff] at hstep
      obtain ⟨-, k, -, rfl⟩ := hstep
      simp [afterAddBuffer, advance]
    | addSilence n =>
      simp only [step, Except.ok.injEq] at hstep
      subst hstep
      exact toQuint64_add s.uiRecordedSamples n hn hb
    | stop =>
      simp only [step, Except.ok.injEq] at hstep
      subst hstep
      simp [stop, advance]
    | drainStep =>
      simp only [step] at hstep
      rw [drainStep_ok_iff] at hstep
      rcases hstep with ⟨hq, rfl⟩ | ⟨rb, rest, k, ri, hq, -, -, rfl⟩
      · simp [advance, hq]
      · simp only [advance, hq] at hn hb ⊢
        exact toQuint64_add s.uiRecordedSamples rb.iSamples hn hb
  refine ⟨key, ?_⟩
  omega

theorem C10_monotonic_counter_witness :
    (getRecordedSamples (addSilence (session false) 5) : Int)
      = getRecordedSamples (session false) + advance (session false) (Op.addSilence 5) ∧
    getRecordedSamples (session false) ≤ getRecordedSamples (addSilence (session false) 5) :=
  C10_monotonic_counter true (session false) (addSilence (session false) 5) (Op.addSilence 5)
    (by decide) (by decide) rfl

/-- C10, counterexample. `addSilence(-1)`, a call its signature accepts,
takes the counter from 1 back to 0; and `addSilence(1)` takes a counter that
stands at `2 ^ 64 - 1` back to 0. -/
theorem C10_monotonic_counter_counterexample :
    (isInt (-1) ∧
      step true (addSilence (session false) 1) (Op.addSilence (-1))
        = Except.ok (addSilence (addSilence (session false) 1) (-1)) ∧
      getRecordedSamples (addSilence (session false) 1) = 1 ∧
      getRecordedSamples (addSilence (addSilence (session false) 1) (-1)) = 0 ∧
      ¬ getRecordedSamples (addSilence (session false) 1)
        ≤ getRecordedSamples (addSilence (addSilence (session false) 1) (-1))) ∧
    (isInt 1 ∧
      step true { session false with uiRecordedSamples := 18446744073709551615 }
          (Op.addSilence 1)
        = Except.ok { session false with uiRecordedSamples := 0 } ∧
      ¬ getRecordedSamples { session false with uiRecordedSamples := 18446744073709551615 }
        ≤ getRecordedSamples { session false with uiRecordedSamples := 0 }) :=
  ⟨⟨by decide, rfl, rfl, rfl, by decide⟩, ⟨by decide, rfl, by decide⟩⟩

/-! ### Alignment after a drain -/

theorem writeAll_append (dbg : Bool) (a b : List RecordBuffer) (s : Recorder) :
    writeAll dbg s (a ++ b) =
      match writeAll dbg s a with
      | Except.ok s1 => writeAll dbg s1 b
      | Except.error e => Except.error e := by
  induction a generalizing s with
  | nil => simp [writeAll]
  | cons rb rest ih =>
    simp only [List.cons_append, writeAll]
    cases h : writeChunk dbg s rb with
    | error e => simp
    | ok s1 => simpa using ih s1

theorem writeAll_ok_bMixDown (dbg : Bool) (chunks : List RecordBuffer) (s s1 : Recorder)
    (h : writeAll dbg s chunks = Except.ok s1) : s1.bMixDown = s.bMixDown := by
  induction chunks generalizing s with
  | nil =>
    simp only [writeAll, Except.ok.injEq] at h
    rw [h]
  | cons rb rest ih =>
    simp only [writeAll] at h
    cases hw : writeChunk dbg s rb with
    | error e => simp [hw] at h
    | ok s2 =>
      simp only [hw] at h
      rw [ih s2 h]
      rw [writeChunk_ok_iff] at hw
      obtain ⟨k, ri, -, -, rfl⟩ := hw
      rfl

/-- C5, as amended. Alignment at quiescence: when the worker drains a queue
that is not empty and every queued chunk has a registered track, the drain
ends with an empty queue and the track of the last chunk of the queue has
`uiLastPosition` equal to `uiRecordedSamples`. -/
theorem C5_alignment_at_quiescence (dbg : Bool) (s : Recorder) (front : List RecordBuffer)
    (rb : RecordBuffer) (hreg : Registered s) (hq : s.qlRecordBuffer = front ++ [rb]) :
    ∃ s1 k ri, drain dbg s = Except.ok s1 ∧ s1.qlRecordBuffer = [] ∧
      trackIndex s.bMixDown rb.cuUser = Except.ok k ∧
      QHash.value s1.qhRecordInfo k = some ri ∧
      ri.uiLastPosition = s1.uiRecordedSamples := by
  obtain ⟨s1, hd⟩ := drain_ok_of_registered dbg s hreg
  have hd' := hd
  rw [drain_eq_writeAll, hq, writeAll_append] at hd'
  cases hf : writeAll dbg { s with qlRecordBuffer := [] } front with
  | error e => simp [hf] at hd'
  | ok s2 =>
    simp only [hf, writeAll] at hd'
    cases hw : writeChunk dbg s2 rb with
    | error e => simp [hw] at hd'
    | ok s3 =>
      simp only [hw, Except.ok.injEq] at hd'
      subst hd'
      have hm : s2.bMixDown = s.bMixDown :=
        writeAll_ok_bMixDown dbg front { s with qlRecordBuffer := [] } s2 hf
      rw [writeChunk_ok_iff] at hw
      obtain ⟨k, ri, hk, hv, rfl⟩ := hw
      rw [hm] at hk
      exact ⟨_, k, trackAfter s2 k rb ri, hd, drain_ok_queue dbg s _ hd, hk,
        QHash.value_insert_self _ _ _, rfl⟩

theorem shortQueued_registered : Registered shortQueued := by
  intro rb hrb
  have hq : shortQueued.qlRecordBuffer =
      [RecordBuffer.mk (some alice) [1, 2, 3] 3, RecordBuffer.mk (some bob) [4, 5] 2] := rfl
  rw [hq] at hrb
  simp only [List.mem_cons, List.mem_singleton, List.not_mem_nil, or_false] at hrb
  rcases hrb with rfl | rfl
  · exact ⟨1, rfl, rfl⟩
  · exact ⟨2, rfl, rfl⟩

theorem C5_alignment_at_quiescence_witness :
    ∃ s1 k ri, drain true shortQueued = Except.ok s1 ∧ s1.qlRecordBuffer = [] ∧
      trackIndex shortQueued.bMixDown (some bob) = Except.ok k ∧
      QHash.value s1.qhRecordInfo k = some ri ∧
      ri.uiLastPosition = s1.uiRecordedSamples :=
  C5_alignment_at_quiescence true shortQueued [RecordBuffer.mk (some alice) [1, 2, 3] 3]
    (RecordBuffer.mk (some bob) [4, 5] 2) shortQueued_registered rfl

/-- C5, counterexample. At the end of scenario A the queue is empty and both
tracks have received a chunk; alice's `uiLastPosition` is 960 while
`uiRecordedSamples` is 1440. -/
theorem C5_alignment_at_quiescence_counterexample :
    ∃ s log ri f, runOps true (session false) scenarioA = Except.ok (s, log) ∧
      s.qlRecordBuffer = [] ∧ QHash.value s.qhRecordInfo 1 = some ri ∧ ri.sf = some f ∧
      ri.uiLastPosition = 960 ∧ s.uiRecordedSamples = 1440 ∧
      ri.uiLastPosition ≠ s.uiRecordedSamples :=
  ⟨(outcome (runOps true (session false) scenarioA)).1,
   (outcome (runOps true (session false) scenarioA)).2, _, _, rfl, rfl, rfl, rfl, rfl, rfl,
   by decide⟩

/-! ### Track registration -/

theorem keys_afterAddBuffer (s : Recorder) (cu : Option ClientUser) (b : List Sample)
    (n : Int) (k : Int) :
    QHash.keys (afterAddBuffer s cu b n k).qhRecordInfo =
      if k ∈ QHash.keys s.qhRecordInfo then QHash.keys s.qhRecordInfo
      else QHash.keys s.qhRecordInfo ++ [k] := by
  unfold afterAddBuffer
  by_cases hc : k ∈ QHash.keys s.qhRecordInfo
  · have := (QHash.contains_iff_mem_keys _ _).mpr hc
    simp [hc, this]
  · have : ¬ QHash.contains s.qhRecordInfo k = true :=
      fun h => hc ((QHash.contains_iff_mem_keys _ _).mp h)
    simp only [this, Bool.false_eq_true, if_false, hc]
    exact QHash.keys_insert_of_not_mem _ _ _ hc

theorem keys_afterChunk (s : Recorder) (rb : RecordBuffer) (rest : List RecordBuffer)
    (k : Int) (ri : RecordInfo) (hv : QHash.value s.qhRecordInfo k = some ri) :
    QHash.keys (afterChunk s rb rest k ri).qhRecordInfo = QHash.keys s.qhRecordInfo :=
  QHash.keys_insert_of_mem _ _ _ ((QHash.value_isSome_iff _ _).mp ⟨ri, hv⟩)

theorem opened_afterAddBuffer (s : Recorder) (cu : Option ClientUser) (b : List Sample)
    (n : Int) (k j : Int) :
    Opened (afterAddBuffer s cu b n k) j ↔ Opened s j := by
  unfold Opened
  constructor
  · rintro ⟨ri, f, hv, hf⟩
    rw [value_afterAddBuffer] at hv
    by_cases hc : QHash.contains s.qhRecordInfo k = false ∧ j = k
    · simp only [hc, and_self, if_true, Option.some.injEq] at hv
      rw [← hv] at hf
      exact absurd hf (by simp)
    · simp only [hc, if_false] at hv
      exact ⟨ri, f, hv, hf⟩
  · rintro ⟨ri, f, hv, hf⟩
    refine ⟨ri, f, ?_, hf⟩
    rw [value_afterAddBuffer]
    have hne : ¬ (QHash.contains s.qhRecordInfo k = false ∧ j = k) := by
      rintro ⟨hc, hk⟩
      rw [hk] at hv
      simp [QHash.contains, hv] at hc
    simp only [hne, if_false]
    exact hv

theorem opened_afterChunk (s : Recorder) (rb : RecordBuffer) (rest : List RecordBuffer)
    (k j : Int) (ri : RecordInfo) :
    Opened (afterChunk s rb rest k ri) j ↔ Opened s j ∨ j = k := by
  unfold Opened
  by_cases hj : j = k
  · subst hj
    simp only [value_afterChunk, if_true, or_true, iff_true]
    exact ⟨_, _, rfl, rfl⟩
  · simp only [value_afterChunk, hj, if_false, or_false]

theorem submittedKeys_addBuffer (mix : Bool) (cu : Option ClientUser) (b : List Sample)
    (n : Int) (k : Int) (hk : trackIndex mix cu = Except.ok k) :
    submittedKeys mix [Op.addBuffer cu b n] = [k] := by
  simp [submittedKeys, submittedChunks, Op.chunk, hk]

theorem written_mono (s s1 : Recorder) (log : List Processed)
    (hw : ∀ e ∈ log, ∃ ri f, QHash.value s.qhRecordInfo e.index = some ri ∧
      ri.sf = some f ∧ RecordBuffer.samples e.rb ∈ f.writes)
    (hmono : ∀ j ri f, QHash.value s.qhRecordInfo j = some ri → ri.sf = some f →
      ∃ ri1 f1, QHash.value s1.qhRecordInfo j = some ri1 ∧ ri1.sf = some f1 ∧
        ∀ w ∈ f.writes, w ∈ f1.writes) :
    ∀ e ∈ log, ∃ ri f, QHash.value s1.qhRecordInfo e.index = some ri ∧
      ri.sf = some f ∧ RecordBuffer.samples e.rb ∈ f.writes := by
  intro e he
  obtain ⟨ri, f, hv, hf, hm⟩ := hw e he
  obtain ⟨ri1, f1, hv1, hf1, hsub⟩ := hmono e.index ri f hv hf
  exact ⟨ri1, f1, hv1, hf1, hsub _ hm⟩

theorem step_tracked (dbg : Bool) (s s1 : Recorder) (log : List Processed) (op : Op)
    (h : Tracked s log) (hstep : step dbg s op = Except.ok s1) :
    Tracked s1 (log ++ processedBy s op) ∧ s1.bMixDown = s.bMixDown ∧
      (∀ k, k ∈ QHash.keys s1.qhRecordInfo ↔
        k ∈ QHash.keys s.qhRecordInfo ∨ k ∈ submittedKeys s.bMixDown [op]) ∧
      (processedBy s op).map Processed.rb ++ s1.qlRecordBuffer =
        s.qlRecordBuffer ++ Op.chunk op := by
  cases op with
  | addBuffer cu b n =>
    simp only [step] at hstep
    rw [addBuffer_ok_iff] at hstep
    obtain ⟨-, k, hk, rfl⟩ := hstep
    have hkeys := keys_afterAddBuffer s cu b n k
    refine ⟨⟨?_, ?_, ?_⟩, rfl, ?_, ?_⟩
    · rw [hkeys]
      by_cases hc : k ∈ QHash.keys s.qhRecordInfo
      · simpa [hc] using h.nodup
      · simp only [hc, if_false]
        exact List.Nodup.append h.nodup (List.nodup_singleton k) (by simpa using hc)
    · intro j hj
      rw [hkeys] at hj
      have hj' : j ∈ QHash.keys s.qhRecordInfo ∨ j = k := by
        by_cases hc : k ∈ QHash.keys s.qhRecordInfo
        · simp only [hc, if_true] at hj
          exact Or.inl hj
        · simpa [hc] using hj
      rcases hj' with hj' | rfl
      · rcases h.pending j hj' with ho | ⟨rb, hrb, hrk⟩
        · exact Or.inl ((opened_afterAddBuffer s cu b n k j).mpr ho)
        · exact Or.inr ⟨rb, List.mem_append_left _ hrb, hrk⟩
      · exact Or.inr ⟨RecordBuffer.mk cu b n,
          List.mem_append_right _ (List.mem_singleton.mpr rfl), hk⟩
    · simp only [processedBy, List.append_nil]
      apply written_mono s _ log h.written
      intro j ri f hv hf
      refine ⟨ri, f, ?_, hf, fun w hw => hw⟩
      rw [value_afterAddBuffer]
      have hne : ¬ (QHash.contains s.qhRecordInfo k = false ∧ j = k) := by
        rintro ⟨hc, hjk⟩
        rw [hjk] at hv
        simp [QHash.contains, hv] at hc
      simp only [hne, if_false]
      exact hv
    · intro j
      rw [hkeys, submittedKeys_addBuffer s.bMixDown cu b n k hk]
      by_cases hc : k ∈ QHash.keys s.qhRecordInfo
      · simp only [hc, if_true, List.mem_singleton]
        constructor
        · exact Or.inl
        · rintro (h1 | rfl)
          · exact h1
          · exact hc
      · simp [hc]
    · simp [processedBy, afterAddBuffer, Op.chunk]
  | addSilence n =>
    simp only [step, Except.ok.injEq] at hstep
    subst hstep
    refine ⟨?_, rfl, ?_, ?_⟩
    · simpa [processedBy] using (⟨h.nodup, h.pending, h.written⟩ : Tracked (addSilence s n) log)
    · intro j
      simp [submittedKeys, submittedChunks, Op.chunk, addSilence]
    · simp [processedBy, addSilence, Op.chunk]
  | stop =>
    simp only [step, Except.ok.injEq] at hstep
    subst hstep
    refine ⟨?_, rfl, ?_, ?_⟩
    · simpa [processedBy] using (⟨h.nodup, h.pending, h.written⟩ : Tracked (stop s) log)
    · intro j
      simp [submittedKeys, submittedChunks, Op.chunk, stop]
    · simp [processedBy, stop, Op.chunk]
  | drainStep =>
    simp only [step] at hstep
    rw [drainStep_ok_iff] at hstep
    rcases hstep with ⟨hq, rfl⟩ | ⟨rb, rest, k, ri, hq, hk, hv, rfl⟩
    · refine ⟨?_, rfl, ?_, ?_⟩
      · simpa [processedBy, hq] using h
      · intro j
        simp [submittedKeys, submittedChunks, Op.chunk]
      · simp [processedBy, hq, Op.chunk]
    · have hkeys := keys_afterChunk s rb rest k ri hv
      refine ⟨⟨?_, ?_, ?_⟩, rfl, ?_, ?_⟩
      · rw [hkeys]
        exact h.nodup
      · intro j hj
        rw [hkeys] at hj
        by_cases hjk : j = k
        · exact Or.inl ((opened_afterChunk s rb rest k j ri).mpr (Or.inr hjk))
        · rcases h.pending j hj with ho | ⟨rb', hrb', hrk'⟩
          · exact Or.inl ((opened_afterChunk s rb rest k j ri).mpr (Or.inl ho))
          · rw [hq, List.mem_cons] at hrb'
            rcases hrb' with rfl | hrb'
            · rw [hk] at hrk'
              simp only [Except.ok.injEq] at hrk'
              exact absurd hrk'.symm hjk
            · exact Or.inr ⟨rb', hrb', hrk'⟩
      · simp only [processedBy, hq, hk]
        intro e he
        rw [List.mem_append, List.mem_singleton] at he
        rcases he with he | rfl
        · apply written_mono s _ log h.written _ e he
          intro j ri0 f0 hv0 hf0
          by_cases hjk : j = k
          · subst hjk
            rw [hv] at hv0
            simp only [Option.some.injEq] at hv0
            subst hv0
            refine ⟨trackAfter s j rb ri, _, by rw [value_afterChunk]; simp, rfl, ?_⟩
            intro w hw
            have hw' : w ∈ RecordInfo.writes ri := by
              simpa [RecordInfo.writes, hf0] using hw
            simp only [List.mem_append]
            exact Or.inl (Or.inl hw')
          · refine ⟨ri0, f0, ?_, hf0, fun w hw => hw⟩
            rw [value_afterChunk]
            simp only [hjk, if_false]
            exact hv0
        · refine ⟨trackAfter s k rb ri, _, by rw [value_afterChunk]; simp, rfl, ?_⟩
          simp
      · intro j
        rw [hkeys]
        simp [submittedKeys, submittedChunks, Op.chunk]
      · simp [processedBy, hq, hk, afterChunk, Op.chunk]

theorem submittedChunks_cons (op : Op) (ops : List Op) :
    submittedChunks (op :: ops) = Op.chunk op ++ submittedChunks ops := by
  simp [submittedChunks]

theorem submittedKeys_cons (mix : Bool) (op : Op) (ops : List Op) :
    submittedKeys mix (op :: ops) = submittedKeys mix [op] ++ submittedKeys mix ops := by
  simp [submittedKeys, submittedChunks, List.filterMap_append]

theorem runOps_tracked (dbg : Bool) (ops : List Op) (s s1 : Recorder)
    (log0 log : List Processed) (h : Tracked s log0)
    (hrun : runOps dbg s ops = Except.ok (s1, log)) :
    Tracked s1 (log0 ++ log) ∧ s1.bMixDown = s.bMixDown ∧
      (∀ k, k ∈ QHash.keys s1.qhRecordInfo ↔
        k ∈ QHash.keys s.qhRecordInfo ∨ k ∈ submittedKeys s.bMixDown ops) ∧
      log.map Processed.rb ++ s1.qlRecordBuffer = s.qlRecordBuffer ++ submittedChunks ops := by
  induction ops generalizing s log0 log with
  | nil =>
    simp only [runOps, Except.ok.injEq, Prod.mk.injEq] at hrun
    obtain ⟨rfl, rfl⟩ := hrun
    refine ⟨by simpa using h, rfl, ?_, ?_⟩
    · intro k
      simp [submittedKeys, submittedChunks]
    · simp [submittedChunks]
  | cons op ops ih =>
    rw [runOps_cons_ok_iff] at hrun
    obtain ⟨s2, log1, hstep, hrun2, rfl⟩ := hrun
    obtain ⟨h2, hm2, hk2, hf2⟩ := step_tracked dbg s s2 log0 op h hstep
    obtain ⟨h3, hm3, hk3, hf3⟩ := ih s2 (log0 ++ processedBy s op) log1 h2 hrun2
    refine ⟨by simpa [List.append_assoc] using h3, hm3.trans hm2, ?_, ?_⟩
    · intro k
      rw [hk3, hk2, hm2, or_assoc]
      apply or_congr_right
      rw [submittedKeys_cons s.bMixDown op ops, List.mem_append]
    · rw [submittedChunks_cons, List.map_append, List.append_assoc, hf3, ← List.append_assoc,
        hf2, List.append_assoc]

theorem tracked_fresh (s : Recorder) (h : IsFresh s) : Tracked s [] := by
  obtain ⟨-, ht, -⟩ := h
  constructor
  · simp [ht, QHash.keys]
  · intro k hk
    simp [ht, QHash.keys] at hk
  · intro e he
    exact absurd he (List.not_mem_nil _)

theorem submittedKeys_false (ops : List Op) : submittedKeys false ops = identities ops := by
  unfold submittedKeys identities
  congr 1
  funext rb
  cases h : rb.cuUser <;> simp [trackIndex]

theorem opened_mem_keys (s : Recorder) (k : Int) (h : Opened s k) :
    k ∈ QHash.keys s.qhRecordInfo := by
  obtain ⟨ri, f, hv, -⟩ := h
  exact (QHash.value_isSome_iff _ _).mp ⟨ri, hv⟩

/-- C6. Per-speaker tracks: without mixdown, after any run from a recorder
with no track and an empty queue in which every `addBuffer` call names a
user, the track table has no key twice and its keys are exactly the session
ids submitted; and once the queue is empty the tracks with an opened file are
exactly those session ids.  Such a run ends without a fault. -/
theorem C6_per_speaker_tracks (dbg : Bool) (s0 : Recorder) (ops : List Op)
    (h0 : IsFresh s0) (hmix : s0.bMixDown = false)
    (hadm : ∀ o ∈ ops, Op.Admissible false o) :
    ∃ s log, runOps dbg s0 ops = Except.ok (s, log) ∧
      (QHash.keys s.qhRecordInfo).Nodup ∧
      (∀ k, k ∈ QHash.keys s.qhRecordInfo ↔ k ∈ identities ops) ∧
      (s.qlRecordBuffer = [] → ∀ k, Opened s k ↔ k ∈ identities ops) := by
  obtain ⟨s, log, hrun, -, -⟩ := runOps_ok_of_admissible dbg ops s0
    (registered_of_isFresh s0 h0) (by rw [hmix]; exact hadm)
  obtain ⟨ht, -, hk, -⟩ := runOps_tracked dbg ops s0 s [] log (tracked_fresh s0 h0) hrun
  have hkeys : ∀ k, k ∈ QHash.keys s.qhRecordInfo ↔ k ∈ identities ops := by
    intro k
    rw [hk, hmix, submittedKeys_false, h0.2.1]
    simp [QHash.keys]
  refine ⟨s, log, hrun, ht.nodup, hkeys, ?_⟩
  intro hq k
  constructor
  · intro ho
    exact (hkeys k).mp (opened_mem_keys s k ho)
  · intro hk'
    rcases ht.pending k ((hkeys k).mpr hk') with ho | ⟨rb, hrb, -⟩
    · exact ho
    · rw [hq] at hrb
      exact absurd hrb (List.not_mem_nil _)

theorem C6_per_speaker_tracks_witness :
    ∃ s log, runOps true (session false) shortRun = Except.ok (s, log) ∧
      (QHash.keys s.qhRecordInfo).Nodup ∧
      (∀ k, k ∈ QHash.keys s.qhRecordInfo ↔ k ∈ identities shortRun) ∧
      (s.qlRecordBuffer = [] → ∀ k, Opened s k ↔ k ∈ identities shortRun) :=
  C6_per_speaker_tracks true (session false) shortRun ⟨rfl, rfl, rfl⟩ rfl (by
    intro o ho
    simp only [shortRun, List.mem_cons, List.mem_singleton, List.not_mem_nil, or_false] at ho
    rcases ho with rfl | rfl | rfl | rfl | rfl
    · exact ⟨fun h => absurd h (by decide), fun _ => by decide⟩
    · exact True.intro
    · exact ⟨fun h => absurd h (by decide), fun _ => by decide⟩
    · exact True.intro
    · exact True.intro)

/-! ### Mixdown -/

theorem step_bMixDown (dbg : Bool) (s s1 : Recorder) (op : Op)
    (hstep : step dbg s op = Except.ok s1) : s1.bMixDown = s.bMixDown := by
  cases op with
  | addBuffer cu b n =>
    simp only [step] at hstep
    rw [addBuffer_ok_iff] at hstep
    obtain ⟨-, k, -, rfl⟩ := hstep
    rfl
  | addSilence n =>
    simp only [step, Except.ok.injEq] at hstep
    rw [← hstep]
    rfl
  | stop =>
    simp only [step, Except.ok.injEq] at hstep
    rw [← hstep]
    rfl
  | drainStep =>
    simp only [step] at hstep
    rw [drainStep_ok_iff] at hstep
    rcases hstep with ⟨-, rfl⟩ | ⟨rb, rest, k, ri, -, -, -, rfl⟩
    · rfl
    · rfl

theorem processedBy_index (s : Recorder) (op : Op) :
    ∀ e ∈ processedBy s op, trackIndex s.bMixDown e.rb.cuUser = Except.ok e.index := by
  intro e he
  cases op with
  | drainStep =>
    cases hq : s.qlRecordBuffer with
    | nil => simp [processedBy, hq] at he
    | cons rb rest =>
      cases hk : trackIndex s.bMixDown rb.cuUser with
      | error err => simp [processedBy, hq, hk] at he
      | ok k =>
        simp only [processedBy, hq, hk, List.mem_singleton] at he
        rw [he]
        exact hk
  | addBuffer cu b n => simp [processedBy] at he
  | addSilence n => simp [processedBy] at he
  | stop => simp [processedBy] at he

theorem runOps_log_index (dbg : Bool) (ops : List Op) (s s1 : Recorder)
    (log : List Processed) (hrun : runOps dbg s ops = Except.ok (s1, log)) :
    ∀ e ∈ log, trackIndex s.bMixDown e.rb.cuUser = Except.ok e.index := by
  induction ops generalizing s log with
  | nil =>
    simp only [runOps, Except.ok.injEq, Prod.mk.injEq] at hrun
    intro e he
    rw [← hrun.2] at he
    exact absurd he (List.not_mem_nil _)
  | cons op ops ih =>
    rw [runOps_cons_ok_iff] at hrun
    obtain ⟨s2, log1, hstep, hrun2, rfl⟩ := hrun
    intro e he
    rw [List.mem_append] at he
    rcases he with he | he
    · exact processedBy_index s op e he
    · rw [← step_bMixDown dbg s s2 op hstep]
      exact ih s2 log1 hrun2 e he

theorem trackIndex_mixdown (cu : Option ClientUser) : trackIndex true cu = Except.ok 0 := rfl

theorem eq_singleton_of_nodup (l : List Int) (a : Int) (hn : l.Nodup)
    (h : ∀ k, k ∈ l ↔ k = a) : l = [a] := by
  cases l with
  | nil => exact absurd ((h a).mpr rfl) (List.not_mem_nil _)
  | cons b t =>
    have hb : b = a := (h b).mp (List.mem_cons_self _ _)
    subst hb
    cases t with
    | nil => rfl
    | cons c u =>
      have hc : c = b := (h c).mp (List.mem_cons_of_mem _ (List.mem_cons_self _ _))
      subst hc
      simp at hn

theorem mem_submittedKeys_true (ops : List Op) (k : Int) :
    k ∈ submittedKeys true ops ↔ k = 0 ∧ submittedChunks ops ≠ [] := by
  unfold submittedKeys
  simp only [trackIndex_mixdown, List.mem_filterMap, Option.some.injEq]
  constructor
  · rintro ⟨rb, hrb, rfl⟩
    exact ⟨rfl, List.ne_nil_of_mem hrb⟩
  · rintro ⟨rfl, hne⟩
    obtain ⟨rb, hrb⟩ := List.exists_mem_of_ne_nil _ hne
    exact ⟨rb, hrb, rfl⟩

/-- C7. Mixdown key: with mixdown on, the track key computed from a chunk is
0 whatever its user, at submission and in the worker alike.  After a run from
a recorder with no track and an empty queue in which every `addBuffer` call
passes no user and at least one such call is made, the track table has the
single key 0, every chunk the worker has taken was written to the file of
track 0, and once the queue is empty the chunks taken are the chunks
submitted, in order.  In a debug build `addBuffer` with a user fails its
assertion when mixdown is on. -/
theorem C7_mixdown_key (dbg : Bool) (s0 : Recorder) (ops : List Op)
    (h0 : IsFresh s0) (hmix : s0.bMixDown = true)
    (hadm : ∀ o ∈ ops, Op.Admissible true o) (hne : submittedChunks ops ≠ []) :
    (∀ cu, trackIndex true cu = Except.ok 0) ∧
    (∃ s log, runOps dbg s0 ops = Except.ok (s, log) ∧
      QHash.keys s.qhRecordInfo = [0] ∧
      (∀ e ∈ log, e.index = 0 ∧ ∃ ri f, QHash.value s.qhRecordInfo 0 = some ri ∧
        ri.sf = some f ∧ RecordBuffer.samples e.rb ∈ f.writes) ∧
      (s.qlRecordBuffer = [] → log.map Processed.rb = submittedChunks ops)) ∧
    (∀ (t : Recorder) (cu : ClientUser) (b : List Sample) (n : Int), t.bMixDown = true →
      addBuffer true t (some cu) b n = Except.error Fault.assertion) := by
  refine ⟨trackIndex_mixdown, ?_, ?_⟩
  · obtain ⟨s, log, hrun, -, -⟩ := runOps_ok_of_admissible dbg ops s0
      (registered_of_isFresh s0 h0) (by rw [hmix]; exact hadm)
    obtain ⟨ht, -, hk, hf⟩ := runOps_tracked dbg ops s0 s [] log (tracked_fresh s0 h0) hrun
    have hidx := runOps_log_index dbg ops s0 s log hrun
    refine ⟨s, log, hrun, ?_, ?_, ?_⟩
    · apply eq_singleton_of_nodup _ _ ht.nodup
      intro k
      rw [hk, hmix, mem_submittedKeys_true, h0.2.1]
      simp [QHash.keys, hne]
    · intro e he
      have h1 := hidx e he
      rw [hmix, trackIndex_mixdown] at h1
      simp only [Except.ok.injEq] at h1
      obtain ⟨ri, f, hv, hsf, hw⟩ := ht.written e (by simpa using he)
      rw [← h1] at hv
      exact ⟨h1.symm, ri, f, hv, hsf, hw⟩
    · intro hq
      rw [hq, h0.2.2] at hf
      simpa using hf
  · intro t cu b n hm
    simp [addBuffer, Q_ASSERT, hm, bind, Except.bind]

theorem C7_mixdown_key_witness :
    (∀ cu, trackIndex true cu = Except.ok 0) ∧
    (∃ s log, runOps true (session true) mixRun = Except.ok (s, log) ∧
      QHash.keys s.qhRecordInfo = [0] ∧
      (∀ e ∈ log, e.index = 0 ∧ ∃ ri f, QHash.value s.qhRecordInfo 0 = some ri ∧
        ri.sf = some f ∧ RecordBuffer.samples e.rb ∈ f.writes) ∧
      (s.qlRecordBuffer = [] → log.map Processed.rb = submittedChunks mixRun)) ∧
    (∀ (t : Recorder) (cu : ClientUser) (b : List Sample) (n : Int), t.bMixDown = true →
      addBuffer true t (some cu) b n = Except.error Fault.assertion) :=
  C7_mixdown_key true (session true) mixRun ⟨rfl, rfl, rfl⟩ rfl (by
    intro o ho
    simp only [mixRun, List.mem_cons, List.mem_singleton, List.not_mem_nil, or_false] at ho
    rcases ho with rfl | rfl | rfl | rfl
    · exact ⟨fun _ => rfl, fun h => absurd h (by decide)⟩
    · exact ⟨fun _ => rfl, fun h => absurd h (by decide)⟩
    · exact True.intro
    · exact True.intro) (by decide)

/-! ### Stop and the queue -/

theorem drainStep_stop (dbg : Bool) (s : Recorder) :
    drainStep dbg (stop s) =
      match drainStep dbg s with
      | Except.ok s1 => Except.ok (stop s1)
      | Except.error e => Except.error e := by
  cases hq : s.qlRecordBuffer with
  | nil => simp [drainStep, stop, hq]
  | cons rb rest =>
    have hq' : (stop s).qlRecordBuffer = rb :: rest := hq
    rw [drainStep_cons dbg s rb rest hq, drainStep_cons dbg (stop s) rb rest hq']
    cases hk : trackIndex s.bMixDown rb.cuUser with
    | error e => simp [writeChunk, stop, hk, bind, Except.bind]
    | ok k =>
      cases hv : QHash.value s.qhRecordInfo k with
      | none =>
        cases dbg <;> simp [writeChunk, stop, hk, bind, Except.bind, Q_ASSERT, QHash.contains, hv]
      | some ri =>
        rw [writeChunk_eq dbg { s with qlRecordBuffer := rest } rb k ri hk hv,
          writeChunk_eq dbg { stop s with qlRecordBuffer := rest } rb k ri hk hv]
        rfl

/-- C3, as amended. `stop` and the worker: the worker tests `bRecording`
right after each wake, before it looks at the queue.  The wake that follows
`stop` therefore ends the worker at once: nothing is taken from the queue
and nothing is written.  A wake that finds `bRecording` true drains the
queue to the end before the worker waits again, and an iteration of the
drain loop does not read `bRecording`, so it does the same whether or not
`stop` has been called in the meantime. -/
theorem C3_stop_and_queue (dbg : Bool) (s : Recorder) :
    wake dbg (stop s) = Except.ok (stop s, WorkerState.Stopped) ∧
    (s.bRecording = true → Registered s →
      ∃ s1, wake dbg s = Except.ok (s1, WorkerState.Idle) ∧ drain dbg s = Except.ok s1 ∧
        s1.qlRecordBuffer = []) ∧
    drainStep dbg (stop s) =
      (match drainStep dbg s with
       | Except.ok s1 => Except.ok (stop s1)
       | Except.error e => Except.error e) := by
  refine ⟨by simp [wake, stop], ?_, drainStep_stop dbg s⟩
  intro hr hreg
  obtain ⟨s1, hd⟩ := drain_ok_of_registered dbg s hreg
  exact ⟨s1, by simp [wake, hr, hd], hd, drain_ok_queue dbg s s1 hd⟩

/-- C3, counterexample. Scenario C: with two chunks queued, `stop` is called
and the worker wakes.  The worker reaches `Stopped` with both chunks still
in the queue and no file opened. -/
theorem C3_stop_and_queue_counterexample :
    ∃ s, runOps true (session false) scenarioC = Except.ok (s, []) ∧
      s.qlRecordBuffer.length = 2 ∧
      wake true (stop s) = Except.ok (stop s, WorkerState.Stopped) ∧
      (stop s).qlRecordBuffer.length = 2 ∧
      (stop s).qhRecordInfo = [(1, { sf := none, uiLastPosition := 0 }),
        (2, { sf := none, uiLastPosition := 0 })] :=
  ⟨(outcome (runOps true (session false) scenarioC)).1, rfl, rfl, rfl, rfl, rfl⟩

/-! ### Frames of `addSilence` and `stop`, and the format lookup -/

/-- C11. Frame of `addSilence(samples)`: for every state and every count the
call replaces `uiRecordedSamples` by the old value plus `samples`, taken in
`quint64`, which is the plain sum when `samples` is non-negative and the sum
stays below `2 ^ 64`; the queue, the track table (so every track's file
handle, file contents and `uiLastPosition`, and the set of keys), the
configuration and `bRecording` are as before. -/
theorem C11_addSilence_frame (dbg : Bool) (s : Recorder) (samples : Int) :
    step dbg s (Op.addSilence samples) = Except.ok (addSilence s samples) ∧
    (addSilence s samples).uiRecordedSamples = toQuint64 (s.uiRecordedSamples + samples) ∧
    (0 ≤ samples → (s.uiRecordedSamples : Int) + samples < two64 →
      ((addSilence s samples).uiRecordedSamples : Int) = s.uiRecordedSamples + samples) ∧
    (addSilence s samples).qhRecordInfo = s.qhRecordInfo ∧
    (∀ k, QHash.value (addSilence s samples).qhRecordInfo k = QHash.value s.qhRecordInfo k) ∧
    QHash.keys (addSilence s samples).qhRecordInfo = QHash.keys s.qhRecordInfo ∧
    (addSilence s samples).qlRecordBuffer = s.qlRecordBuffer ∧
    (addSilence s samples).iSampleRate = s.iSampleRate ∧
    (addSilence s samples).fmFormat = s.fmFormat ∧
    (addSilence s samples).qsFileName = s.qsFileName ∧
    (addSilence s samples).bMixDown = s.bMixDown ∧
    (addSilence s samples).bRecording = s.bRecording ∧
    addSilence s samples = { s with uiRecordedSamples := toQuint64 (s.uiRecordedSamples + samples) } :=
  ⟨rfl, rfl, fun hn hb => toQuint64_add s.uiRecordedSamples samples hn hb, rfl, fun _ => rfl,
    rfl, rfl, rfl, rfl, rfl, rfl, rfl, rfl⟩

/-- C13. `stop` is idempotent: calling it twice leaves the same state as
calling it once; and on a recorder whose `bRecording` is false, as the
constructor leaves it, `stop` changes nothing: `bRecording`, the queue, the
track table, `uiRecordedSamples` and the configuration are as before. -/
theorem C13_stop_idempotent (s : Recorder) :
    stop (stop s) = stop s ∧
    (s.bRecording = false → stop s = s) ∧
    stop fresh = fresh ∧ fresh.bRecording = false ∧
    (stop s).bRecording = false ∧
    (stop s).qlRecordBuffer = s.qlRecordBuffer ∧
    (stop s).qhRecordInfo = s.qhRecordInfo ∧
    (stop s).uiRecordedSamples = s.uiRecordedSamples ∧
    (stop s).iSampleRate = s.iSampleRate ∧ (stop s).fmFormat = s.fmFormat ∧
    (stop s).qsFileName = s.qsFileName ∧ (stop s).bMixDown = s.bMixDown := by
  refine ⟨rfl, ?_, rfl, rfl, rfl, rfl, rfl, rfl, rfl, rfl, rfl, rfl⟩
  intro h
  cases s
  simp_all [stop]

/-- C14. Format lookup: over the four formats `getFormatDescription` and
`getFormatDefaultExtension` are injective and return no empty string.  Both
take the format as their only argument, so their result depends on no
recorder state. -/
theorem C14_format_lookup :
    Function.Injective getFormatDescription ∧
    Function.Injective getFormatDefaultExtension ∧
    (∀ fm, getFormatDescription fm ≠ "") ∧
    (∀ fm, getFormatDefaultExtension fm ≠ "") := by
  refine ⟨?_, ?_, ?_, ?_⟩
  · intro a b h
    cases a <;> cases b <;> first | rfl | exact absurd h (by decide)
  · intro a b h
    cases a <;> cases b <;> first | rfl | exact absurd h (by decide)
  · intro fm
    cases fm <;> decide
  · intro fm
    cases fm <;> decide

/-! ### Frame of one worker iteration -/

/-- C18. Frame of one worker iteration: when the worker takes a chunk whose
key is `k`, the queue loses its head, `uiRecordedSamples` advances, and the
record of track `k` is replaced; the record of every other key (file handle,
file contents, `uiLastPosition`) is as before, the keys of the track table
are as before, and so are the configuration and `bRecording`. -/
theorem C18_chunk_frame (dbg : Bool) (s s1 : Recorder) (rb : RecordBuffer)
    (rest : List RecordBuffer) (k : Int)
    (hq : s.qlRecordBuffer = rb :: rest)
    (hk : trackIndex s.bMixDown rb.cuUser = Except.ok k)
    (hstep : drainStep dbg s = Except.ok s1) :
    s1.qlRecordBuffer = rest ∧
    s1.uiRecordedSamples = toQuint64 (s.uiRecordedSamples + rb.iSamples) ∧
    (∀ j, j ≠ k → QHash.value s1.qhRecordInfo j = QHash.value s.qhRecordInfo j) ∧
    QHash.keys s1.qhRecordInfo = QHash.keys s.qhRecordInfo ∧
    s1.iSampleRate = s.iSampleRate ∧ s1.fmFormat = s.fmFormat ∧
    s1.qsFileName = s.qsFileName ∧ s1.bMixDown = s.bMixDown ∧
    s1.bRecording = s.bRecording := by
  rw [drainStep_ok_iff] at hstep
  rcases hstep with ⟨hnil, -⟩ | ⟨rb', rest', k', ri, hq', hk', hv, rfl⟩
  · rw [hq] at hnil
    exact absurd hnil (List.cons_ne_nil _ _)
  · rw [hq] at hq'
    simp only [List.cons.injEq] at hq'
    obtain ⟨rfl, rfl⟩ := hq'
    rw [hk] at hk'
    simp only [Except.ok.injEq] at hk'
    subst hk'
    refine ⟨rfl, rfl, ?_, keys_afterChunk s rb rest k ri hv, rfl, rfl, rfl, rfl, rfl⟩
    intro j hj
    rw [value_afterChunk]
    simp [hj]

theorem C18_chunk_frame_witness :
    (outcome (runOps true (session false) shortRun)).1.qlRecordBuffer = [] ∧
    (outcome (runOps true (session false) shortRun)).1.uiRecordedSamples
      = toQuint64 (((8 : Nat) : Int) + 2) ∧
    (∀ j, j ≠ 2 → QHash.value (outcome (runOps true (session false) shortRun)).1.qhRecordInfo j
      = QHash.value (outcome (runOps true (session false)
          (shortRun.take 4))).1.qhRecordInfo j) ∧
    QHash.keys (outcome (runOps true (session false) shortRun)).1.qhRecordInfo =
      QHash.keys (outcome (runOps true (session false) (shortRun.take 4))).1.qhRecordInfo ∧
    (outcome (runOps true (session false) shortRun)).1.iSampleRate = 48000 ∧
    (outcome (runOps true (session false) shortRun)).1.fmFormat = Format.WAV ∧
    (outcome (runOps true (session false) shortRun)).1.qsFileName = "rec-%1.wav" ∧
    (outcome (runOps true (session false) shortRun)).1.bMixDown = false ∧
    (outcome (runOps true (session false) shortRun)).1.bRecording = true :=
  C18_chunk_frame true (outcome (runOps true (session false) (shortRun.take 4))).1
    (outcome (runOps true (session false) shortRun)).1
    (RecordBuffer.mk (some bob) [4, 5] 2) [] 2 rfl rfl rfl

/-! ### Lazy file creation -/

theorem step_opened_mono (dbg : Bool) (s s1 : Recorder) (op : Op) (j : Int)
    (hstep : step dbg s op = Except.ok s1) (h : Opened s j) : Opened s1 j := by
  cases op with
  | addBuffer cu b n =>
    simp only [step] at hstep
    rw [addBuffer_ok_iff] at hstep
    obtain ⟨-, k, -, rfl⟩ := hstep
    exact (opened_afterAddBuffer s cu b n k j).mpr h
  | addSilence n =>
    simp only [step, Except.ok.injEq] at hstep
    subst hstep
    exact h
  | stop =>
    simp only [step, Except.ok.injEq] at hstep
    subst hstep
    exact h
  | drainStep =>
    simp only [step] at hstep
    rw [drainStep_ok_iff] at hstep
    rcases hstep with ⟨-, rfl⟩ | ⟨rb, rest, k, ri, -, -, -, rfl⟩
    · exact h
    · exact (opened_afterChunk s rb rest k j ri).mpr (Or.inl h)

theorem opensBy_spec (dbg : Bool) (s s1 : Recorder) (op : Op) (k : Int)
    (hstep : step dbg s op = Except.ok s1) (hk : k ∈ opensBy s op) :
    ¬ Opened s k ∧ Opened s1 k ∧ opensBy s op = [k] := by
  cases op with
  | addBuffer cu b n => simp [opensBy] at hk
  | addSilence n => simp [opensBy] at hk
  | stop => simp [opensBy] at hk
  | drainStep =>
    simp only [step] at hstep
    rw [drainStep_ok_iff] at hstep
    rcases hstep with ⟨hq, rfl⟩ | ⟨rb, rest, k', ri, hq, hk', hv, rfl⟩
    · simp [opensBy, hq] at hk
    · simp only [opensBy, hq, hk', hv] at hk ⊢
      by_cases hsf : ri.sf.isNone = true
      · simp only [hsf, if_true, List.mem_singleton] at hk ⊢
        subst hk
        refine ⟨?_, (opened_afterChunk s rb rest k k ri).mpr (Or.inr rfl), rfl⟩
        rintro ⟨ri0, f0, hv0, hf0⟩
        rw [hv] at hv0
        simp only [Option.some.injEq] at hv0
        subst hv0
        simp [hf0] at hsf
      · simp [hsf] at hk

theorem runOpens_nodup (dbg : Bool) (ops : List Op) (s : Recorder) :
    (runOpens dbg s ops).Nodup ∧ ∀ k ∈ runOpens dbg s ops, ¬ Opened s k := by
  induction ops generalizing s with
  | nil => simp [runOpens]
  | cons op ops ih =>
    cases hstep : step dbg s op with
    | error e => simp [runOpens, hstep]
    | ok s1 =>
      simp only [runOpens, hstep]
      obtain ⟨hn, hno⟩ := ih s1
      constructor
      · rw [List.nodup_append]
        refine ⟨?_, hn, ?_⟩
        · by_cases he : opensBy s op = []
          · rw [he]
            exact List.nodup_nil
          · obtain ⟨k, hk⟩ := List.exists_mem_of_ne_nil _ he
            rw [(opensBy_spec dbg s s1 op k hstep hk).2.2]
            exact List.nodup_singleton k
        · intro k hk1 hk2
          exact hno k hk2 (opensBy_spec dbg s s1 op k hstep hk1).2.1
      · intro k hk
        rw [List.mem_append] at hk
        rcases hk with hk | hk
        · exact (opensBy_spec dbg s s1 op k hstep hk).1
        · exact fun ho => hno k hk (step_opened_mono dbg s s1 op k hstep ho)

/-- C12. Lazy file creation: `addBuffer` for a key not yet in the table
inserts a record with no file handle and `uiLastPosition` 0, `addBuffer` for
a key already there leaves the table as it is, and in both cases no file is
opened.  A worker iteration for a chunk of key `k` calls `sf_open` exactly
when the record of `k` has no handle yet, with the file name made from the
pattern and `k`; when the record has a handle the iteration keeps it and
only appends to it.  So in any run `sf_open` is called at most once for
each key, and never for a key whose file is open already. -/
theorem C12_lazy_file_creation (dbg : Bool) (s : Recorder) :
    (∀ cu b n s1 k, addBuffer dbg s cu b n = Except.ok s1 →
      trackIndex s.bMixDown cu = Except.ok k →
      (QHash.contains s.qhRecordInfo k = false →
        QHash.value s1.qhRecordInfo k = some { sf := none, uiLastPosition := 0 }) ∧
      (QHash.contains s.qhRecordInfo k = true → s1.qhRecordInfo = s.qhRecordInfo) ∧
      (∀ j, Opened s1 j ↔ Opened s j) ∧
      opensBy s (Op.addBuffer cu b n) = []) ∧
    (∀ rb rest k ri s1, s.qlRecordBuffer = rb :: rest →
      trackIndex s.bMixDown rb.cuUser = Except.ok k →
      QHash.value s.qhRecordInfo k = some ri →
      drainStep dbg s = Except.ok s1 →
      ∃ ri1 f1, QHash.value s1.qhRecordInfo k = some ri1 ∧ ri1.sf = some f1 ∧
        (ri.sf = none → opensBy s Op.drainStep = [k] ∧ f1.path = arg s.qsFileName k ∧
          f1.writes =
            silenceBlocks (toQuint64 ((s.uiRecordedSamples : Int) - ri.uiLastPosition)) ++
              [RecordBuffer.samples rb]) ∧
        (∀ f0, ri.sf = some f0 → opensBy s Op.drainStep = [] ∧ f1.path = f0.path ∧
          f1.title = f0.title ∧
          f1.writes = f0.writes ++
            silenceBlocks (toQuint64 ((s.uiRecordedSamples : Int) - ri.uiLastPosition)) ++
              [RecordBuffer.samples rb])) ∧
    (∀ ops, (runOpens dbg s ops).Nodup ∧ ∀ k ∈ runOpens dbg s ops, ¬ Opened s k) := by
  refine ⟨?_, ?_, fun ops => runOpens_nodup dbg ops s⟩
  · intro cu b n s1 k h hk
    rw [addBuffer_ok_iff] at h
    obtain ⟨-, k', hk', rfl⟩ := h
    rw [hk] at hk'
    simp only [Except.ok.injEq] at hk'
    subst hk'
    refine ⟨?_, ?_, fun j => opened_afterAddBuffer s cu b n k j, rfl⟩
    · intro hc
      rw [value_afterAddBuffer]
      simp [hc]
    · intro hc
      simp [afterAddBuffer, hc]
  · intro rb rest k ri s1 hq hk hv h
    rw [drainStep_ok_iff] at h
    rcases h with ⟨hnil, -⟩ | ⟨rb', rest', k', ri', hq', hk', hv', rfl⟩
    · rw [hq] at hnil
      exact absurd hnil (List.cons_ne_nil _ _)
    · rw [hq] at hq'
      simp only [List.cons.injEq] at hq'
      obtain ⟨rfl, rfl⟩ := hq'
      rw [hk] at hk'
      simp only [Except.ok.injEq] at hk'
      subst hk'
      rw [hv] at hv'
      simp only [Option.some.injEq] at hv'
      subst hv'
      refine ⟨trackAfter s k rb ri, _, by rw [value_afterChunk]; simp, rfl, ?_, ?_⟩
      · intro hsf
        refine ⟨by simp [opensBy, hq, hk, hv, hsf], ?_, ?_⟩
        · simp only [openTrack, hsf]
          cases rb.cuUser <;> rfl
        · simp [RecordInfo.writes, hsf]
      · intro f0 hsf
        refine ⟨by simp [opensBy, hq, hk, hv, hsf], ?_, ?_, ?_⟩
        · simp [openTrack, hsf]
        · simp [openTrack, hsf]
        · simp only [RecordInfo.writes, hsf]

/-! ### Entering the worker -/

/-- C16. The worker needs a sample rate.  With `iSampleRate` 0 the worker
ends before its loop: in a release build `run` returns at once, in a debug
build its first assertion fails; in neither case is `bRecording` set, a
chunk taken from the queue, a file opened or `uiRecordedSamples` changed.
With a sample rate other than 0 and a format that `sf_format_check` accepts
the worker sets `bRecording` and reaches its first wait with everything else
as before; a release build does so whatever the format check says.  A debug
build stops at its second assertion when the format check fails, and in every
build a worker that reaches its first wait has set `bRecording`. -/
theorem C16_start_requires_sample_rate (dbg formatOk : Bool) (s : Recorder) :
    (s.iSampleRate = 0 →
      runEnter false formatOk s = Except.ok (s, WorkerState.Stopped) ∧
      runEnter true formatOk s = Except.error Fault.assertion ∧
      ∀ r, runEnter dbg formatOk s = Except.ok r → r = (s, WorkerState.Stopped)) ∧
    (s.iSampleRate ≠ 0 →
      runEnter dbg true s = Except.ok ({ s with bRecording := true }, WorkerState.Idle) ∧
      runEnter false formatOk s
        = Except.ok ({ s with bRecording := true }, WorkerState.Idle) ∧
      runEnter true false s = Except.error Fault.assertion ∧
      (∀ r, runEnter dbg formatOk s = Except.ok r →
        r = ({ s with bRecording := true }, WorkerState.Idle)) ∧
      ({ s with bRecording := true } : Recorder).bRecording = true ∧
      ({ s with bRecording := true } : Recorder).qlRecordBuffer = s.qlRecordBuffer ∧
      ({ s with bRecording := true } : Recorder).qhRecordInfo = s.qhRecordInfo ∧
      ({ s with bRecording := true } : Recorder).uiRecordedSamples = s.uiRecordedSamples) := by
  constructor
  · intro h0
    refine ⟨by simp [runEnter, Q_ASSERT, h0, bind, Except.bind, pure, Except.pure],
      by simp [runEnter, Q_ASSERT, h0, bind, Except.bind], ?_⟩
    intro r hr
    cases dbg
    · simp [runEnter, Q_ASSERT, h0, bind, Except.bind, pure, Except.pure] at hr
      exact hr.symm
    · simp [runEnter, Q_ASSERT, h0, bind, Except.bind] at hr
  · intro hne
    refine ⟨?_, ?_, ?_, ?_, rfl, rfl, rfl, rfl⟩
    · cases dbg <;> simp [runEnter, Q_ASSERT, hne, bind, Except.bind, pure, Except.pure]
    · simp [runEnter, Q_ASSERT, hne, bind, Except.bind, pure, Except.pure]
    · simp [runEnter, Q_ASSERT, hne, bind, Except.bind, pure, Except.pure]
    · intro r hr
      cases dbg <;> cases formatOk <;>
        simp [runEnter, Q_ASSERT, hne, bind, Except.bind, pure, Except.pure] at hr <;>
        exact hr.symm

/-! ### The two padding tests -/

theorem writeChunkLt_eq (dbg : Bool) (s : Recorder) (rb : RecordBuffer)
    (h : ∀ k ri, QHash.value s.qhRecordInfo k = some ri →
      ri.uiLastPosition ≤ s.uiRecordedSamples) :
    writeChunkLt dbg s rb = writeChunk dbg s rb := by
  cases hk : trackIndex s.bMixDown rb.cuUser with
  | error e => simp [writeChunkLt, writeChunk, hk, bind, Except.bind]
  | ok k =>
    cases hv : QHash.value s.qhRecordInfo k with
    | none => simp [writeChunkLt, writeChunk, hk, bind, Except.bind, hv]
    | some ri =>
      have hle := h k ri hv
      have hg : (ri.uiLastPosition < s.uiRecordedSamples) ↔
          (ri.uiLastPosition != s.uiRecordedSamples) = true := by
        simp only [bne_iff_ne, ne_eq]
        omega
      simp only [writeChunkLt, writeChunk, hk, bind, Except.bind, hv, hg]

theorem stepLt_eq (dbg : Bool) (s : Recorder) (op : Op) (h : LastLe s) :
    stepLt dbg s op = step dbg s op := by
  cases op with
  | addBuffer cu b n => rfl
  | addSilence n => rfl
  | stop => rfl
  | drainStep =>
    simp only [stepLt, step, drainStepLt, drainStep]
    cases hq : s.qlRecordBuffer with
    | nil => rfl
    | cons rb rest => exact writeChunkLt_eq dbg _ rb h

theorem runOps_append_inv (dbg : Bool) (a b : List Op) (s s1 s2 : Recorder)
    (l1 l : List Processed) (h1 : runOps dbg s a = Except.ok (s1, l1))
    (h : runOps dbg s (a ++ b) = Except.ok (s2, l)) :
    ∃ l2, runOps dbg s1 b = Except.ok (s2, l2) ∧ l = l1 ++ l2 := by
  induction a generalizing s l1 l with
  | nil =>
    simp only [runOps, Except.ok.injEq, Prod.mk.injEq] at h1
    obtain ⟨rfl, rfl⟩ := h1
    exact ⟨l, by simpa using h, by simp⟩
  | cons op ops ih =>
    rw [runOps_cons_ok_iff] at h1
    obtain ⟨s', l', hstep, hrun, rfl⟩ := h1
    rw [List.cons_append, runOps_cons_ok_iff] at h
    obtain ⟨s'', l'', hstep', hrun', rfl⟩ := h
    rw [hstep] at hstep'
    simp only [Except.ok.injEq] at hstep'
    subst hstep'
    obtain ⟨l2, h2, rfl⟩ := ih s' l' l'' hrun hrun'
    exact ⟨l2, h2, by simp⟩

theorem step_lastLe_of_advance (dbg : Bool) (s s1 : Recorder) (op : Op) (h : LastLe s)
    (hn : 0 ≤ advance s op) (hb : (s.uiRecordedSamples : Int) + advance s op < two64)
    (hstep : step dbg s op = Except.ok s1) :
    LastLe s1 ∧ (s1.uiRecordedSamples : Int) = s.uiRecordedSamples + advance s op := by
  cases op with
  | addBuffer cu b n =>
    simp only [step] at hstep
    rw [addBuffer_ok_iff] at hstep
    obtain ⟨-, k, -, rfl⟩ := hstep
    refine ⟨?_, by simp [afterAddBuffer, advance]⟩
    intro j ri hv
    rw [value_afterAddBuffer] at hv
    by_cases hc : QHash.contains s.qhRecordInfo k = false ∧ j = k
    · simp only [hc, and_self, if_true, Option.some.injEq] at hv
      rw [← hv]
      exact Nat.zero_le _
    · simp only [hc, if_false] at hv
      exact h j ri hv
  | addSilence n =>
    simp only [step, Except.ok.injEq] at hstep
    subst hstep
    simp only [advance] at hn hb
    have hc := toQuint64_add s.uiRecordedSamples n hn hb
    refine ⟨?_, hc⟩
    intro j ri hv
    have := h j ri hv
    simp only [addSilence]
    omega
  | stop =>
    simp only [step, Except.ok.injEq] at hstep
    subst hstep
    exact ⟨h, by simp [stop, advance]⟩
  | drainStep =>
    simp only [step] at hstep
    rw [drainStep_ok_iff] at hstep
    rcases hstep with ⟨hq, rfl⟩ | ⟨rb, rest, k, ri, hq, hk, hv, rfl⟩
    · exact ⟨h, by simp [advance, hq]⟩
    · simp only [advance, hq] at hn hb
      have hc := toQuint64_add s.uiRecordedSamples rb.iSamples hn hb
      have hc' : (afterChunk s rb rest k ri).uiRecordedSamples
          = toQuint64 (s.uiRecordedSamples + rb.iSamples) := rfl
      refine ⟨?_, by simp only [advance, hq]; rw [hc', hc]⟩
      intro j ri' hv'
      rw [value_afterChunk] at hv'
      by_cases hj : j = k
      · simp only [hj, if_true, Option.some.injEq] at hv'
        rw [← hv', hc']
        exact le_refl _
      · simp only [hj, if_false] at hv'
        have := h j ri' hv'
        rw [hc']
        omega

theorem advance_eq (dbg : Bool) (s s1 : Recorder) (op : Op)
    (hstep : step dbg s op = Except.ok s1) :
    advance s op = processedTotal (processedBy s op) + Op.silence op := by
  cases op with
  | addBuffer cu b n => simp [advance, processedBy, processedTotal, Op.silence]
  | addSilence n => simp [advance, processedBy, processedTotal, Op.silence]
  | stop => simp [advance, processedBy, processedTotal, Op.silence]
  | drainStep =>
    simp only [step] at hstep
    rw [drainStep_ok_iff] at hstep
    rcases hstep with ⟨hq, rfl⟩ | ⟨rb, rest, k, ri, hq, hk, hv, rfl⟩
    · simp [advance, processedBy, hq, processedTotal, Op.silence]
    · simp [advance, processedBy, hq, hk, processedTotal, Op.silence]

theorem submittedChunks_nonneg (ops : List Op) (hops : ∀ o ∈ ops, 0 ≤ Op.samples o) :
    ∀ rb ∈ submittedChunks ops, 0 ≤ rb.iSamples := by
  intro rb hrb
  simp only [submittedChunks, List.mem_flatten, List.mem_map] at hrb
  obtain ⟨l, ⟨op, hop, rfl⟩, hrb⟩ := hrb
  cases op with
  | addBuffer cu b n =>
    simp only [Op.chunk, List.mem_singleton] at hrb
    rw [hrb]
    exact hops _ hop
  | addSilence n => simp [Op.chunk] at hrb
  | stop => simp [Op.chunk] at hrb
  | drainStep => simp [Op.chunk] at hrb

theorem runOps_log_nonneg (dbg : Bool) (ops : List Op) (s s1 : Recorder)
    (log : List Processed) (hq : ∀ rb ∈ s.qlRecordBuffer, 0 ≤ rb.iSamples)
    (hops : ∀ o ∈ ops, 0 ≤ Op.samples o)
    (hrun : runOps dbg s ops = Except.ok (s1, log)) :
    (∀ e ∈ log, 0 ≤ e.rb.iSamples) ∧ (∀ rb ∈ s1.qlRecordBuffer, 0 ≤ rb.iSamples) := by
  have hf := runOps_fifo dbg ops s s1 log hrun
  have hall : ∀ rb ∈ log.map Processed.rb ++ s1.qlRecordBuffer, 0 ≤ rb.iSamples := by
    rw [hf]
    intro rb hrb
    rw [List.mem_append] at hrb
    rcases hrb with h | h
    · exact hq rb h
    · exact submittedChunks_nonneg ops hops rb h
  constructor
  · intro e he
    exact hall e.rb (List.mem_append_left _ (List.mem_map_of_mem _ he))
  · intro rb hrb
    exact hall rb (List.mem_append_right _ hrb)

theorem processedTotal_nonneg (log : List Processed) (h : ∀ e ∈ log, 0 ≤ e.rb.iSamples) :
    0 ≤ processedTotal log := by
  unfold processedTotal
  apply List.sum_nonneg
  intro x hx
  rw [List.mem_map] at hx
  obtain ⟨e, he, rfl⟩ := hx
  exact h e he

theorem silenceTotal_nonneg (ops : List Op) (h : ∀ o ∈ ops, 0 ≤ Op.samples o) :
    0 ≤ silenceTotal ops := by
  unfold silenceTotal
  apply List.sum_nonneg
  intro x hx
  rw [List.mem_map] at hx
  obtain ⟨o, ho, rfl⟩ := hx
  have := h o ho
  cases o <;> simp_all [Op.silence, Op.samples]

theorem processedTotal_append (a b : List Processed) :
    processedTotal (a ++ b) = processedTotal a + processedTotal b := by
  simp [processedTotal]

theorem silenceTotal_cons (op : Op) (ops : List Op) :
    silenceTotal (op :: ops) = Op.silence op + silenceTotal ops := by
  simp [silenceTotal]

theorem runOps_lastLe_of_noWrap (dbg : Bool) (ops : List Op) (s s1 : Recorder)
    (log : List Processed) (h : LastLe s)
    (hq : ∀ rb ∈ s.qlRecordBuffer, 0 ≤ rb.iSamples)
    (hops : ∀ o ∈ ops, 0 ≤ Op.samples o)
    (hrun : runOps dbg s ops = Except.ok (s1, log))
    (hno : (s.uiRecordedSamples : Int) + (processedTotal log + silenceTotal ops) < two64) :
    LastLe s1 ∧ runOpsLt dbg s ops = Except.ok (s1, log) := by
  induction ops generalizing s log with
  | nil =>
    simp only [runOps, Except.ok.injEq, Prod.mk.injEq] at hrun
    obtain ⟨rfl, rfl⟩ := hrun
    exact ⟨h, rfl⟩
  | cons op ops ih =>
    rw [runOps_cons_ok_iff] at hrun
    obtain ⟨s2, log1, hstep, hrun2, rfl⟩ := hrun
    have hops' : ∀ o ∈ ops, 0 ≤ Op.samples o := fun o ho => hops o (List.mem_cons_of_mem _ ho)
    have hop1 : ∀ o ∈ [op], 0 ≤ Op.samples o := by
      intro o ho
      rw [List.mem_singleton] at ho
      rw [ho]
      exact hops op (List.mem_cons_self _ _)
    obtain ⟨hq2', hq2⟩ := runOps_log_nonneg dbg [op] s s2 (processedBy s op) hq hop1 (by
        rw [runOps_cons_ok_iff]
        exact ⟨s2, [], hstep, rfl, by simp⟩)
    obtain ⟨hl1, -⟩ := runOps_log_nonneg dbg ops s2 s1 log1 hq2 hops' hrun2
    have hp1 := processedTotal_nonneg log1 hl1
    have hp0 := processedTotal_nonneg _ hq2'
    have hs1 := silenceTotal_nonneg ops hops'
    have hs0 : 0 ≤ Op.silence op := by
      have := silenceTotal_nonneg [op] hop1
      simpa [silenceTotal] using this
    have hadv := advance_eq dbg s s2 op hstep
    rw [processedTotal_append, silenceTotal_cons] at hno
    obtain ⟨h2, hc2⟩ := step_lastLe_of_advance dbg s s2 op h (by omega) (by omega) hstep
    obtain ⟨h3, hlt⟩ := ih s2 log1 h2 hq2 hops' hrun2 (by omega)
    refine ⟨h3, ?_⟩
    simp only [runOpsLt, stepLt_eq dbg s op h, hstep, hlt]

/-- C17. Guard equivalence: take a run of `addBuffer`, `addSilence` and
worker iterations from a recorder with counter 0, no track and an empty
queue, in which every sample count is non-negative and the counter does not
wrap: the counts of the chunks taken and of the `addSilence` calls add up to
less than `2 ^ 64`.  In every state the run passes through, the test
`uiLastPosition != uiRecordedSamples` the worker makes and the test
`uiLastPosition < uiRecordedSamples` of the padding rule give the same
answer for every track, and the worker with the second test ends in the
same state, with the same files and the same log, as the worker with the
first. -/
theorem C17_guard_equivalence (dbg : Bool) (s0 s : Recorder) (ops : List Op)
    (log : List Processed) (h0 : IsFresh s0) (hops : ∀ o ∈ ops, 0 ≤ Op.samples o)
    (hrun : runOps dbg s0 ops = Except.ok (s, log))
    (hno : processedTotal log + silenceTotal ops < two64) :
    runOpsLt dbg s0 ops = Except.ok (s, log) ∧
    ∀ pre suf s1 log1, ops = pre ++ suf → runOps dbg s0 pre = Except.ok (s1, log1) →
      ∀ k ri, QHash.value s1.qhRecordInfo k = some ri →
        ((ri.uiLastPosition != s1.uiRecordedSamples) = true ↔
          ri.uiLastPosition < s1.uiRecordedSamples) := by
  have hfresh : LastLe s0 := by
    intro k ri hv
    simp [h0.2.1, QHash.value] at hv
  have hq0 : ∀ rb ∈ s0.qlRecordBuffer, 0 ≤ rb.iSamples := by
    intro rb hrb
    rw [h0.2.2] at hrb
    exact absurd hrb (List.not_mem_nil _)
  constructor
  · refine (runOps_lastLe_of_noWrap dbg ops s0 s log hfresh hq0 hops hrun ?_).2
    rw [h0.1]
    simpa using hno
  · intro pre suf s1 log1 hsplit hpre k ri hv
    subst hsplit
    obtain ⟨log2, hsuf, hlog⟩ := runOps_append_inv dbg pre suf s0 s1 s log1 log hpre hrun
    have hops1 : ∀ o ∈ pre, 0 ≤ Op.samples o := fun o ho => hops o (List.mem_append_left _ ho)
    have hops2 : ∀ o ∈ suf, 0 ≤ Op.samples o := fun o ho => hops o (List.mem_append_right _ ho)
    obtain ⟨-, hq1⟩ := runOps_log_nonneg dbg pre s0 s1 log1 hq0 hops1 hpre
    obtain ⟨hl2, -⟩ := runOps_log_nonneg dbg suf s1 s log2 hq1 hops2 hsuf
    have hp2 := processedTotal_nonneg log2 hl2
    have hs2 := silenceTotal_nonneg suf hops2
    have hst : silenceTotal (pre ++ suf) = silenceTotal pre + silenceTotal suf := by
      simp [silenceTotal]
    rw [hlog, processedTotal_append, hst] at hno
    have hle := (runOps_lastLe_of_noWrap dbg pre s0 s1 log1 hfresh hq0 hops1 hpre (by
      rw [h0.1]
      simp only [Nat.cast_zero, zero_add]
      omega)).1 k ri hv
    simp only [bne_iff_ne, ne_eq]
    omega

theorem C17_guard_equivalence_witness :
    runOpsLt true (session false) shortRun
      = Except.ok (outcome (runOps true (session false) shortRun)) ∧
    ∀ pre suf s1 log1, shortRun = pre ++ suf →
      runOps true (session false) pre = Except.ok (s1, log1) →
      ∀ k ri, QHash.value s1.qhRecordInfo k = some ri →
        ((ri.uiLastPosition != s1.uiRecordedSamples) = true ↔
          ri.uiLastPosition < s1.uiRecordedSamples) :=
  C17_guard_equivalence true (session false) _ shortRun _ ⟨rfl, rfl, rfl⟩ (by decide) rfl
    (by decide)

/-! ### Positions and file lengths -/

theorem latestChunk_append_singleton (k : Int) (log : List Processed) (e : Processed) :
    latestChunk k (log ++ [e]) = if e.index = k then some e else latestChunk k log := by
  unfold latestChunk
  rw [List.filter_append]
  by_cases h : e.index = k
  · simp [h]
  · simp [h]

theorem latestChunk_eq_none (k : Int) (log : List Processed)
    (h : ∀ e ∈ log, e.index ≠ k) : latestChunk k log = none := by
  unfold latestChunk
  have : (log.filter fun e => e.index == k) = [] := by
    rw [List.filter_eq_nil_iff]
    intro e he
    simpa using h e he
  rw [this]
  rfl

theorem step_atLatest (dbg : Bool) (s s1 : Recorder) (log : List Processed) (op : Op)
    (h : AtLatest s log) (hstep : step dbg s op = Except.ok s1) :
    AtLatest s1 (log ++ processedBy s op) := by
  obtain ⟨hin, hat⟩ := h
  cases op with
  | addBuffer cu b n =>
    simp only [step] at hstep
    rw [addBuffer_ok_iff] at hstep
    obtain ⟨-, k, -, rfl⟩ := hstep
    simp only [processedBy, List.append_nil]
    refine ⟨fun e he => (afterAddBuffer_contains s cu b n k e.index).mpr (Or.inl (hin e he)), ?_⟩
    intro j ri hv
    rw [value_afterAddBuffer] at hv
    by_cases hc : QHash.contains s.qhRecordInfo k = false ∧ j = k
    · simp only [hc, and_self, if_true, Option.some.injEq] at hv
      obtain ⟨hc1, rfl⟩ := hc
      rw [latestChunk_eq_none j log (by
        intro e he hej
        have := hin e he
        rw [hej, hc1] at this
        exact absurd this (by decide))]
      rw [← hv]
    · simp only [hc, if_false] at hv
      exact hat j ri hv
  | addSilence n =>
    simp only [step, Except.ok.injEq] at hstep
    subst hstep
    simpa [processedBy] using (⟨hin, hat⟩ : AtLatest (addSilence s n) log)
  | stop =>
    simp only [step, Except.ok.injEq] at hstep
    subst hstep
    simpa [processedBy] using (⟨hin, hat⟩ : AtLatest (stop s) log)
  | drainStep =>
    simp only [step] at hstep
    rw [drainStep_ok_iff] at hstep
    rcases hstep with ⟨hq, rfl⟩ | ⟨rb, rest, k, ri, hq, hk, hv, rfl⟩
    · simpa [processedBy, hq] using (show AtLatest _ log from ⟨hin, hat⟩)
    · simp only [processedBy, hq, hk]
      constructor
      · intro e he
        rw [List.mem_append, List.mem_singleton] at he
        rcases he with he | rfl
        · exact (QHash.contains_insert _ _ _ _).mpr (Or.inl (hin e he))
        · exact (QHash.contains_insert _ _ _ _).mpr (Or.inr rfl)
      · intro j ri' hv'
        rw [value_afterChunk] at hv'
        rw [latestChunk_append_singleton]
        by_cases hj : j = k
        · simp only [hj, if_true, Option.some.injEq] at hv'
          subst hv'
          simp [hj, trackAfter]
        · simp only [hj, if_false] at hv'
          have hj' : ¬ k = j := fun e => hj e.symm
          simp only [hj', if_false]
          exact hat j ri' hv'

theorem runOps_atLatest (dbg : Bool) (ops : List Op) (s s1 : Recorder)
    (log0 log : List Processed) (h : AtLatest s log0)
    (hrun : runOps dbg s ops = Except.ok (s1, log)) : AtLatest s1 (log0 ++ log) := by
  induction ops generalizing s log0 log with
  | nil =>
    simp only [runOps, Except.ok.injEq, Prod.mk.injEq] at hrun
    obtain ⟨rfl, rfl⟩ := hrun
    simpa using h
  | cons op ops ih =>
    rw [runOps_cons_ok_iff] at hrun
    obtain ⟨s2, log1, hstep, hrun2, rfl⟩ := hrun
    have := ih s2 (log0 ++ processedBy s op) log1 (step_atLatest dbg s s2 log0 op h hstep) hrun2
    simpa [List.append_assoc] using this

theorem atLatest_fresh (s : Recorder) (h : IsFresh s) : AtLatest s [] := by
  constructor
  · intro e he
    exact absurd he (List.not_mem_nil _)
  · intro k ri hv
    simp [h.2.1, QHash.value] at hv

theorem step_last_mono (dbg : Bool) (s s1 : Recorder) (op : Op) (h : LastLe s)
    (hn : 0 ≤ advance s op) (hb : (s.uiRecordedSamples : Int) + advance s op < two64)
    (hstep : step dbg s op = Except.ok s1) :
    ∀ k ri, QHash.value s.qhRecordInfo k = some ri →
      ∃ ri1, QHash.value s1.qhRecordInfo k = some ri1 ∧
        ri.uiLastPosition ≤ ri1.uiLastPosition := by
  intro j ri0 hv0
  cases op with
  | addBuffer cu b n =>
    simp only [step] at hstep
    rw [addBuffer_ok_iff] at hstep
    obtain ⟨-, k, -, rfl⟩ := hstep
    refine ⟨ri0, ?_, le_refl _⟩
    rw [value_afterAddBuffer]
    have hne : ¬ (QHash.contains s.qhRecordInfo k = false ∧ j = k) := by
      rintro ⟨hc, hjk⟩
      rw [hjk] at hv0
      simp [QHash.contains, hv0] at hc
    simp only [hne, if_false]
    exact hv0
  | addSilence n =>
    simp only [step, Except.ok.injEq] at hstep
    subst hstep
    exact ⟨ri0, hv0, le_refl _⟩
  | stop =>
    simp only [step, Except.ok.injEq] at hstep
    subst hstep
    exact ⟨ri0, hv0, le_refl _⟩
  | drainStep =>
    simp only [step] at hstep
    rw [drainStep_ok_iff] at hstep
    rcases hstep with ⟨hq, rfl⟩ | ⟨rb, rest, k, ri, hq, hk, hv, rfl⟩
    · exact ⟨ri0, hv0, le_refl _⟩
    · simp only [advance, hq] at hn hb
      have hc := toQuint64_add s.uiRecordedSamples rb.iSamples hn hb
      by_cases hj : j = k
      · subst hj
        refine ⟨trackAfter s j rb ri, by rw [value_afterChunk]; simp, ?_⟩
        have hle := h j ri0 hv0
        have hl : (trackAfter s j rb ri).uiLastPosition
            = toQuint64 (s.uiRecordedSamples + rb.iSamples) := rfl
        rw [hl]
        omega
      · refine ⟨ri0, ?_, le_refl _⟩
        rw [value_afterChunk]
        simp only [hj, if_false]
        exact hv0

theorem runOps_budget (dbg : Bool) (ops : List Op) (s s1 : Recorder) (log : List Processed)
    (rem : Int) (h : LastLe s) (hq : ∀ rb ∈ s.qlRecordBuffer, 0 ≤ rb.iSamples)
    (hops : ∀ o ∈ ops, 0 ≤ Op.samples o) (hrem : 0 ≤ rem)
    (hb : (s.uiRecordedSamples : Int) + queuedTotal s + (opsTotal ops + rem) < two64)
    (hrun : runOps dbg s ops = Except.ok (s1, log)) :
    LastLe s1 ∧ (∀ rb ∈ s1.qlRecordBuffer, 0 ≤ rb.iSamples) ∧
      (s1.uiRecordedSamples : Int) + queuedTotal s1 + rem < two64 ∧
      ∀ k ri, QHash.value s.qhRecordInfo k = some ri →
        ∃ ri1, QHash.value s1.qhRecordInfo k = some ri1 ∧
          ri.uiLastPosition ≤ ri1.uiLastPosition := by
  induction ops generalizing s log with
  | nil =>
    simp only [runOps, Except.ok.injEq, Prod.mk.injEq] at hrun
    obtain ⟨rfl, -⟩ := hrun
    refine ⟨h, hq, ?_, fun k ri hv => ⟨ri, hv, le_refl _⟩⟩
    simpa [opsTotal] using hb
  | cons op ops ih =>
    rw [runOps_cons_ok_iff] at hrun
    obtain ⟨s2, log1, hstep, hrun2, -⟩ := hrun
    have hops' : ∀ o ∈ ops, 0 ≤ Op.samples o := fun o ho => hops o (List.mem_cons_of_mem _ ho)
    have hop := hops op (List.mem_cons_self _ _)
    have hon := opsTotal_nonneg_of_counts ops hops'
    have hqn := queuedTotal_nonneg_of_counts s hq
    have hcons : opsTotal (op :: ops) = Op.samples op + opsTotal ops := by
      simp [opsTotal]
    rw [hcons] at hb
    obtain ⟨h2, hq2, hb2⟩ := step_lastLe dbg s s2 op (opsTotal ops + rem) h hq hop
      (by omega) (by omega) hstep
    have hadv : 0 ≤ advance s op ∧ advance s op ≤ queuedTotal s + Op.samples op := by
      cases op with
      | addBuffer cu b n => simpa [advance, Op.samples] using add_nonneg hqn hop
      | addSilence n =>
        simp only [advance, Op.samples] at hop ⊢
        omega
      | stop => simpa [advance, Op.samples] using hqn
      | drainStep =>
        cases hq' : s.qlRecordBuffer with
        | nil =>
          simp only [advance, hq', Op.samples]
          omega
        | cons rb rest =>
          have h1 : 0 ≤ rb.iSamples := hq rb (by rw [hq']; exact List.mem_cons_self _ _)
          have h2 : 0 ≤ (rest.map fun r => r.iSamples).sum := by
            apply List.sum_nonneg
            intro x hx
            rw [List.mem_map] at hx
            obtain ⟨r, hr, rfl⟩ := hx
            exact hq r (by rw [hq']; exact List.mem_cons_of_mem _ hr)
          have h3 : queuedTotal s = rb.iSamples + (rest.map fun r => r.iSamples).sum := by
            simp [queuedTotal, hq']
          simp only [advance, hq', Op.samples]
          omega
    have hmono := step_last_mono dbg s s2 op h hadv.1 (by omega) hstep
    obtain ⟨h3, hq3, hb3, hm3⟩ := ih s2 log1 h2 hq2 hops' hb2 hrun2
    refine ⟨h3, hq3, hb3, ?_⟩
    intro k ri hv
    obtain ⟨ri1, hv1, hle1⟩ := hmono k ri hv
    obtain ⟨ri2, hv2, hle2⟩ := hm3 k ri1 hv1
    exact ⟨ri2, hv2, le_trans hle1 hle2⟩

theorem Op.samples_nonneg_of_wellFormed (ops : List Op) (h : ∀ o ∈ ops, Op.WellFormed o) :
    ∀ o ∈ ops, 0 ≤ Op.samples o :=
  fun o ho => Op.samples_nonneg o (h o ho)

/-- C15, as amended. Take a run of `addBuffer`, `addSilence`, worker
iterations and `stop` from a recorder with counter 0, no track and an empty
queue, in which every sample count is non-negative and within its array and
the counts add up to less than `2 ^ 64`.  In the state after any initial
part of the run, each track's `uiLastPosition` is the number of samples in
its file, padding included; it is 0 while the worker has taken no chunk of
the track, and otherwise it is the value `uiRecordedSamples` had right after
the latest chunk of the track; and it is not greater here than it is at the
end of the run. -/
theorem C15_written_is_file_length (dbg : Bool) (s0 s s2 : Recorder) (pre suf : List Op)
    (log log2 : List Processed) (h0 : IsFresh s0)
    (hops : ∀ o ∈ pre ++ suf, Op.WellFormed o)
    (hsum : opsTotal (pre ++ suf) < two64)
    (hpre : runOps dbg s0 pre = Except.ok (s, log))
    (hfull : runOps dbg s0 (pre ++ suf) = Except.ok (s2, log2)) :
    ∀ k ri, QHash.value s.qhRecordInfo k = some ri →
      (RecordInfo.frames ri).length = ri.uiLastPosition ∧
      (match latestChunk k log with
        | none => ri.uiLastPosition = 0
        | some e => ri.uiLastPosition = toQuint64 (e.cursor + e.rb.iSamples)) ∧
      ∃ ri2, QHash.value s2.qhRecordInfo k = some ri2 ∧
        ri.uiLastPosition ≤ ri2.uiLastPosition := by
  intro k ri hv
  have hnn := Op.samples_nonneg_of_wellFormed _ hops
  have hsuf : 0 ≤ opsTotal suf :=
    opsTotal_nonneg_of_counts suf (fun o ho => hnn o (List.mem_append_right _ ho))
  have hfresh : LastLe s0 := by
    intro j rj hj
    simp [h0.2.1, QHash.value] at hj
  have hq0 : ∀ rb ∈ s0.qlRecordBuffer, 0 ≤ rb.iSamples := by
    intro rb hrb
    rw [h0.2.2] at hrb
    exact absurd hrb (List.not_mem_nil _)
  have hqt : queuedTotal s0 = 0 := by simp [queuedTotal, h0.2.2]
  refine ⟨?_, ?_, ?_⟩
  · have hs := runOps_sound_of_isFresh dbg pre s0 s log h0
      (fun o ho => hops o (List.mem_append_left _ ho)) (by
        rw [opsTotal_append] at hsum
        have : (opsTotal pre : Int) < two64 := by
          have h1 : ((opsTotal pre + opsTotal suf : Int)) < two64 := by exact_mod_cast hsum
          omega
        exact_mod_cast this) hpre
    exact hs.frames_length k ri hv
  · have := runOps_atLatest dbg pre s0 s [] log (atLatest_fresh s0 h0) hpre
    simp only [List.nil_append] at this
    exact this.2 k ri hv
  · obtain ⟨l2, hsufrun, -⟩ := runOps_append_inv dbg pre suf s0 s s2 log log2 hpre hfull
    obtain ⟨h1, hq1, hb1, -⟩ := runOps_budget dbg pre s0 s log (opsTotal suf) hfresh hq0
      (fun o ho => hnn o (List.mem_append_left _ ho)) hsuf (by
        rw [hqt, h0.1, ← opsTotal_append]
        simpa using hsum) hpre
    obtain ⟨-, -, -, hm⟩ := runOps_budget dbg suf s s2 l2 0 h1 hq1
      (fun o ho => hnn o (List.mem_append_right _ ho)) (le_refl _) (by simpa using hb1) hsufrun
    exact hm k ri hv

theorem shortRun_wellFormed : ∀ o ∈ shortRun, Op.WellFormed o := by
  intro o ho
  simp only [shortRun, List.mem_cons, List.mem_singleton, List.not_mem_nil, or_false] at ho
  rcases ho with rfl | rfl | rfl | rfl | rfl
  · exact wellFormed_mk _ _ _ (by decide) (by decide)
  · show (0 : Int) ≤ 5
    decide
  · exact wellFormed_mk _ _ _ (by decide) (by decide)
  · exact True.intro
  · exact True.intro

theorem C15_written_is_file_length_witness :
    runOps true (session false) shortRun
      = Except.ok (outcome (runOps true (session false) shortRun)) ∧
    ∀ k ri, QHash.value (outcome (runOps true (session false)
        [Op.addBuffer (some alice) [1, 2, 3] 3, Op.addSilence 5,
         Op.addBuffer (some bob) [4, 5] 2, Op.drainStep])).1.qhRecordInfo k = some ri →
      (RecordInfo.frames ri).length = ri.uiLastPosition ∧
      (match latestChunk k (outcome (runOps true (session false)
          [Op.addBuffer (some alice) [1, 2, 3] 3, Op.addSilence 5,
           Op.addBuffer (some bob) [4, 5] 2, Op.drainStep])).2 with
        | none => ri.uiLastPosition = 0
        | some e => ri.uiLastPosition = toQuint64 (e.cursor + e.rb.iSamples)) ∧
      ∃ ri2, QHash.value (outcome (runOps true (session false) shortRun)).1.qhRecordInfo k
          = some ri2 ∧
        ri.uiLastPosition ≤ ri2.uiLastPosition :=
  ⟨rfl, C15_written_is_file_length true (session false) _ _
    [Op.addBuffer (some alice) [1, 2, 3] 3, Op.addSilence 5,
     Op.addBuffer (some bob) [4, 5] 2, Op.drainStep] [Op.drainStep] _ _
    ⟨rfl, rfl, rfl⟩ shortRun_wellFormed (by decide) rfl rfl⟩

theorem frames_length_aux (n : Nat) (a b : Sample) :
    (zeros n ++ ([a] ++ (zeros n ++ [b]))).length = 2 * n + 2 := by
  simp only [List.length_append, zeros_length, List.length_cons, List.length_nil]
  omega

/-- C15, counterexample. The run `wrapRun` has only non-negative sample
counts, each within its array, and ends without a fault; at its end the
file of alice's track holds `2 * wrapCursor1 + 2` samples, more than
`2 ^ 64`, while her `uiLastPosition` is `wrapCursor2 + 1`, which is also
less than the `wrapCursor1 + 1` it was before her second chunk. -/
theorem C15_written_is_file_length_counterexample :
    IsFresh (session false) ∧ (∀ o ∈ wrapRun, Op.WellFormed o) ∧
    ∃ s log ri, runOps true (session false) wrapRun = Except.ok (s, log) ∧
      QHash.value s.qhRecordInfo 1 = some ri ∧
      ri.uiLastPosition = wrapCursor2 + 1 ∧
      (RecordInfo.frames ri).length = 2 * wrapCursor1 + 2 ∧
      (RecordInfo.frames ri).length ≠ ri.uiLastPosition ∧
      QHash.value wrapState3.qhRecordInfo 1 = some wrapTrack3 ∧
      ¬ wrapTrack3.uiLastPosition ≤ ri.uiLastPosition := by
  have hlast : wrapTrack4.uiLastPosition = wrapCursor2 + 1 := by decide
  have hlen : (RecordInfo.frames wrapTrack4).length = 2 * wrapCursor1 + 2 := by
    rw [wrapTrack4_frames]
    exact frames_length_aux wrapCursor1 7 9
  refine ⟨⟨rfl, rfl, rfl⟩, wrapRun_wellFormed, wrapState4, wrapLog, wrapTrack4,
    wrapRun_result, wrapState4_value, hlast, hlen, ?_, rfl, ?_⟩
  · rw [hlen, hlast]
    decide
  · rw [hlast]
    decide

/-! ### File names -/

theorem digitChar_toNat (m : Nat) (h : m < 10) : (Nat.digitChar m).toNat - 48 = m := by
  interval_cases m <;> rfl

theorem digitChar_ne_minus (m : Nat) (h : m < 10) : Nat.digitChar m ≠ '-' := by
  interval_cases m <;> decide

theorem digitsValue_toDigitsCore (fuel n : Nat) (ds : List Char) (h : n < fuel) :
    digitsValue 0 (Nat.toDigitsCore 10 fuel n ds) = digitsValue n ds := by
  induction fuel generalizing n ds with
  | zero => exact absurd h (Nat.not_lt_zero _)
  | succ f ih =>
    simp only [Nat.toDigitsCore]
    by_cases h0 : n / 10 = 0
    · simp only [h0, if_true]
      have hn : n < 10 := by omega
      have hmod : n % 10 = n := Nat.mod_eq_of_lt hn
      simp only [digitsValue, List.foldl_cons, hmod, digitChar_toNat n hn]
      congr 1
      omega
    · simp only [h0, if_false]
      rw [ih (n / 10) _ (by omega)]
      simp only [digitsValue, List.foldl_cons, digitChar_toNat (n % 10) (Nat.mod_lt _ (by decide))]
      congr 1
      omega

theorem toDigitsCore_ne_minus (fuel n : Nat) (ds : List Char) (h : ∀ c ∈ ds, c ≠ '-') :
    ∀ c ∈ Nat.toDigitsCore 10 fuel n ds, c ≠ '-' := by
  induction fuel generalizing n ds with
  | zero => simpa [Nat.toDigitsCore] using h
  | succ f ih =>
    have hd : ∀ c ∈ Nat.digitChar (n % 10) :: ds, c ≠ '-' := by
      intro c hc
      rw [List.mem_cons] at hc
      rcases hc with rfl | hc
      · exact digitChar_ne_minus _ (Nat.mod_lt _ (by decide))
      · exact h c hc
    simp only [Nat.toDigitsCore]
    by_cases h0 : n / 10 = 0
    · simpa only [h0, if_true] using hd
    · simp only [h0, if_false]
      exact ih _ _ hd

theorem repr_toList (n : Nat) : (Nat.repr n).toList = Nat.toDigits 10 n := rfl

theorem repr_injective (a b : Nat) (h : (Nat.repr a).toList = (Nat.repr b).toList) : a = b := by
  rw [repr_toList, repr_toList] at h
  have ha := digitsValue_toDigitsCore (a + 1) a [] (Nat.lt_succ_self a)
  have hb := digitsValue_toDigitsCore (b + 1) b [] (Nat.lt_succ_self b)
  unfold Nat.toDigits at h
  rw [h, hb] at ha
  simpa [digitsValue] using ha.symm

theorem intText_injective (i j : Int) (h : intText i = intText j) : i = j := by
  cases i with
  | ofNat a =>
    cases j with
    | ofNat b =>
      simp only [intText] at h
      rw [repr_injective a b h]
    | negSucc b =>
      simp only [intText] at h
      have hmem : '-' ∈ (Nat.repr a).toList := by
        rw [h]
        exact List.mem_cons_self _ _
      rw [repr_toList] at hmem
      exact absurd rfl (toDigitsCore_ne_minus _ _ [] (by simp) _ hmem)
  | negSucc a =>
    cases j with
    | ofNat b =>
      simp only [intText] at h
      have hmem : '-' ∈ (Nat.repr b).toList := by
        rw [← h]
        exact List.mem_cons_self _ _
      rw [repr_toList] at hmem
      exact absurd rfl (toDigitsCore_ne_minus _ _ [] (by simp) _ hmem)
    | negSucc b =>
      simp only [intText, List.cons.injEq, true_and] at h
      have := repr_injective _ _ h
      have hab : a = b := by omega
      rw [hab]

theorem replaceEscapes_length (n : Nat) (a : List Char) (skip : Nat) (cs : List Char) :
    (replaceEscapes n a skip cs).length = keptCount n skip cs + markerCount n skip cs * a.length := by
  induction cs generalizing skip with
  | nil => cases skip <;> simp [replaceEscapes, keptCount, markerCount]
  | cons c cs ih =>
    cases skip with
    | succ k => simp only [replaceEscapes, keptCount, markerCount, ih k]
    | zero =>
      simp only [replaceEscapes, keptCount, markerCount]
      by_cases hc : c = '%'
      · simp only [hc, if_true]
        cases he : escapeAfterPercent cs with
        | none =>
          simp only [List.length_cons, ih 0]
          omega
        | some p =>
          obtain ⟨m, len⟩ := p
          by_cases hm : m = n
          · simp only [hm, if_true, List.length_append, ih len]
            rw [Nat.add_mul]
            omega
          · simp only [hm, if_false, List.length_cons, ih 0]
            omega
      · simp only [hc, if_false, List.length_cons, ih 0]
        omega

theorem replaceEscapes_ne_of_length_eq (n : Nat) (a b : List Char) (hab : a ≠ b)
    (hlen : a.length = b.length) (skip : Nat) (cs : List Char)
    (hcount : 0 < markerCount n skip cs) :
    replaceEscapes n a skip cs ≠ replaceEscapes n b skip cs := by
  induction cs generalizing skip with
  | nil => cases skip <;> simp [markerCount] at hcount
  | cons c cs ih =>
    cases skip with
    | succ k =>
      simp only [replaceEscapes, markerCount] at hcount ⊢
      exact ih k hcount
    | zero =>
      simp only [replaceEscapes, markerCount] at hcount ⊢
      by_cases hc : c = '%'
      · simp only [hc, if_true] at hcount ⊢
        cases he : escapeAfterPercent cs with
        | none =>
          simp only [he] at hcount
          simp only [ne_eq, List.cons.injEq, true_and]
          exact ih 0 hcount
        | some p =>
          obtain ⟨m, len⟩ := p
          simp only [he] at hcount
          by_cases hm : m = n
          · simp only [hm, if_true]
            intro h
            exact hab (List.append_inj h hlen).1
          · simp only [hm, if_false] at hcount ⊢
            simp only [ne_eq, List.cons.injEq, true_and]
            exact ih 0 hcount
      · simp only [hc, if_false] at hcount ⊢
        simp only [ne_eq, List.cons.injEq, true_and]
        exact ih 0 hcount

theorem replaceEscapes_ne (n : Nat) (a b : List Char) (hab : a ≠ b) (skip : Nat)
    (cs : List Char) (hcount : 0 < markerCount n skip cs) :
    replaceEscapes n a skip cs ≠ replaceEscapes n b skip cs := by
  by_cases hlen : a.length = b.length
  · exact replaceEscapes_ne_of_length_eq n a b hab hlen skip cs hcount
  · intro h
    have h1 := congrArg List.length h
    rw [replaceEscapes_length, replaceEscapes_length] at h1
    have h2 : markerCount n skip cs * a.length = markerCount n skip cs * b.length := by omega
    exact hlen (Nat.eq_of_mul_eq_mul_left hcount h2)

theorem markerCount_pos (n : Nat) (cs : List Char) (h : n ∈ argEscapes cs) :
    0 < markerCount n 0 cs := by
  induction cs with
  | nil => simp [argEscapes] at h
  | cons c cs ih =>
    simp only [argEscapes, markerCount] at h ⊢
    by_cases hc : c = '%'
    · simp only [hc, if_true] at h ⊢
      cases he : escapeAfterPercent cs with
      | none =>
        simp only [he] at h
        exact ih h
      | some p =>
        obtain ⟨m, len⟩ := p
        simp only [he, List.mem_cons] at h
        by_cases hm : m = n
        · simp only [hm, if_true]
          omega
        · simp only [hm, if_false]
          rcases h with h | h
          · exact absurd h.symm hm
          · exact ih h
    · simp only [hc, if_false] at h ⊢
      exact ih h

theorem argEscapes_ne_nil (cs : List Char) (h : hasPlaceholder cs = true) :
    argEscapes cs ≠ [] := by
  induction cs with
  | nil => simp [hasPlaceholder] at h
  | cons c cs ih =>
    simp only [hasPlaceholder, Bool.or_eq_true, Bool.and_eq_true, beq_iff_eq] at h
    simp only [argEscapes]
    rcases h with ⟨hc, hhead⟩ | h
    · simp only [hc, if_true]
      cases cs with
      | nil => simp at hhead
      | cons d rest =>
        simp only [List.head?_cons, Option.some.injEq] at hhead
        subst hhead
        have : ∃ p, escapeAfterPercent ('1' :: rest) = some p := by
          unfold escapeAfterPercent
          have h1 : (('1' :: rest).head? = some 'L') = False := by simp
          have h2 : digitValue '1' = some 1 := by decide
          simp only [h1, if_false, h2]
          cases rest.head?.bind digitValue <;> simp
        obtain ⟨p, hp⟩ := this
        obtain ⟨m, len⟩ := p
        simp [hp]
    · have := ih h
      by_cases hc : c = '%'
      · simp only [hc, if_true]
        cases escapeAfterPercent cs with
        | none => exact this
        | some p => simp
      · simp only [hc, if_false]
        exact this

theorem arg_injective (pattern : String) (i j : Int)
    (hp : hasPlaceholder pattern.toList = true) (hij : i ≠ j) :
    arg pattern i ≠ arg pattern j := by
  have hne := argEscapes_ne_nil pattern.toList hp
  cases hmin : (argEscapes pattern.toList).min? with
  | none =>
    rw [List.min?_eq_none_iff] at hmin
    exact absurd hmin hne
  | some n =>
    have hmem : n ∈ argEscapes pattern.toList :=
      List.min?_mem (fun a b => by
        rcases Nat.le_total a b with h | h
        · exact Or.inl (Nat.min_eq_left h)
        · exact Or.inr (Nat.min_eq_right h)) hmin
    have hcount := markerCount_pos n _ hmem
    have htext : intText i ≠ intText j := fun h => hij (intText_injective i j h)
    have := replaceEscapes_ne n _ _ htext 0 pattern.toList hcount
    simp only [arg, hmin]
    intro h
    exact this (congrArg String.toList h)

theorem openTrack_path (pattern : String) (k : Int) (rb : RecordBuffer) (ri : RecordInfo)
    (h : ∀ f, ri.sf = some f → f.path = arg pattern k) :
    (openTrack pattern k rb ri).path = arg pattern k := by
  unfold openTrack
  cases hsf : ri.sf with
  | some f => exact h f hsf
  | none =>
    cases rb.cuUser with
    | none => rfl
    | some u => rfl

theorem pathOk_fresh (s : Recorder) (h : IsFresh s) : PathOk s := by
  intro k ri f hv
  rw [h.2.1] at hv
  simp [QHash.value] at hv

theorem step_pathOk (dbg : Bool) (s s1 : Recorder) (op : Op)
    (hstep : step dbg s op = Except.ok s1) (h : PathOk s) :
    PathOk s1 ∧ s1.qsFileName = s.qsFileName := by
  cases op with
  | addBuffer cu b n =>
    simp only [step] at hstep
    rw [addBuffer_ok_iff] at hstep
    obtain ⟨-, k, -, rfl⟩ := hstep
    refine ⟨?_, rfl⟩
    intro j ri f hv hf
    rw [value_afterAddBuffer] at hv
    by_cases hc : QHash.contains s.qhRecordInfo k = false ∧ j = k
    · simp only [hc, and_self, if_true, Option.some.injEq] at hv
      subst hv
      simp at hf
    · simp only [hc, if_false] at hv
      exact h j ri f hv hf
  | addSilence n =>
    simp only [step, Except.ok.injEq] at hstep
    subst hstep
    exact ⟨h, rfl⟩
  | stop =>
    simp only [step, Except.ok.injEq] at hstep
    subst hstep
    exact ⟨h, rfl⟩
  | drainStep =>
    simp only [step] at hstep
    rw [drainStep_ok_iff] at hstep
    rcases hstep with ⟨-, rfl⟩ | ⟨rb, rest, k, ri, -, -, hv0, rfl⟩
    · exact ⟨h, rfl⟩
    · refine ⟨?_, rfl⟩
      intro j rj f hv hf
      rw [value_afterChunk] at hv
      by_cases hj : j = k
      · subst hj
        simp only [if_true, Option.some.injEq] at hv
        subst hv
        simp only [trackAfter, Option.some.injEq] at hf
        subst hf
        exact openTrack_path s.qsFileName j rb ri (fun f0 hf0 => h j ri f0 hv0 hf0)
      · simp only [hj, if_false] at hv
        exact h j rj f hv hf

theorem runOps_pathOk (dbg : Bool) (ops : List Op) (s s1 : Recorder) (log : List Processed)
    (hrun : runOps dbg s ops = Except.ok (s1, log)) (h : PathOk s) :
    PathOk s1 ∧ s1.qsFileName = s.qsFileName := by
  induction ops generalizing s log with
  | nil =>
    simp only [runOps, Except.ok.injEq, Prod.mk.injEq] at hrun
    obtain ⟨rfl, -⟩ := hrun
    exact ⟨h, rfl⟩
  | cons op ops ih =>
    cases hs : step dbg s op with
    | error e => simp [runOps, hs] at hrun
    | ok sm =>
      obtain ⟨hok, hfn⟩ := step_pathOk dbg s sm op hs h
      cases hr : runOps dbg sm ops with
      | error e => simp [runOps, hs, hr] at hrun
      | ok p =>
        obtain ⟨s2, log2⟩ := p
        simp only [runOps, hs, hr, Except.ok.injEq, Prod.mk.injEq] at hrun
        obtain ⟨rfl, -⟩ := hrun
        obtain ⟨hok2, hfn2⟩ := ih sm log2 hr hok
        exact ⟨hok2, hfn2.trans hfn⟩

/-- C19. Distinct tracks get distinct files: for a file name pattern that
contains the text %1 and two distinct track keys i and j, the name
QString::arg makes for i differs from the one it makes for j.  setFileName
stores such a pattern when no recording runs, and in a debug build it stores no
pattern without the text %1.  In every session that starts from a fresh recorder with that pattern,
a file open for track i carries the name made for i and a file open for track
j the name made for j, so the two tracks never have the same file name. -/
theorem C19_distinct_files (pattern : String) (i j : Int)
    (hp : hasPlaceholder pattern.toList = true) (hij : i ≠ j) :
    arg pattern i ≠ arg pattern j ∧
    (∀ (dbg : Bool) (s0 : Recorder), s0.bRecording = false →
      setFileName dbg s0 pattern = Except.ok { s0 with qsFileName := pattern }) ∧
    (∀ (s0 s1 : Recorder) (fn : String), setFileName true s0 fn = Except.ok s1 →
      hasPlaceholder fn.toList = true ∧ s1.qsFileName = fn) ∧
    ∀ (dbg : Bool) (s0 s : Recorder) (ops : List Op) (log : List Processed)
      (ri rj : RecordInfo) (fi fj : SndFile),
      IsFresh s0 → s0.qsFileName = pattern → runOps dbg s0 ops = Except.ok (s, log) →
      QHash.value s.qhRecordInfo i = some ri → ri.sf = some fi →
      QHash.value s.qhRecordInfo j = some rj → rj.sf = some fj →
      fi.path = arg pattern i ∧ fj.path = arg pattern j ∧ fi.path ≠ fj.path := by
  have hne := arg_injective pattern i j hp hij
  have hp1 : hasPlaceholder pattern.data = true := hp
  refine ⟨hne, ?_, ?_, ?_⟩
  · intro dbg s0 hb
    unfold setFileName Q_ASSERT
    cases dbg <;> simp [hb, hp1, bind, Except.bind, pure, Except.pure]
  · intro s0 s1 fn hset
    unfold setFileName Q_ASSERT at hset
    cases hb : s0.bRecording <;> cases hf : hasPlaceholder fn.data <;>
      simp [hb, hf, bind, Except.bind, pure, Except.pure] at hset
    subst hset
    exact ⟨hf, rfl⟩
  · intro dbg s0 s ops log ri rj fi fj h0 hpat hrun hvi hfi hvj hfj
    obtain ⟨hok, hfn⟩ := runOps_pathOk dbg ops s0 s log hrun (pathOk_fresh s0 h0)
    have hi := hok i ri fi hvi hfi
    have hj := hok j rj fj hvj hfj
    rw [hfn, hpat] at hi hj
    refine ⟨hi, hj, ?_⟩
    rw [hi, hj]
    exact hne

/-- C19 at the pattern rec-%1.wav and the keys 1 and 2: the names are
rec-1.wav and rec-2.wav, and these are the names of the two files that the
short run of alice and bob leaves open. -/
theorem C19_distinct_files_witness :
    hasPlaceholder "rec-%1.wav".toList = true ∧ (1 : Int) ≠ 2 ∧
    arg "rec-%1.wav" 1 = "rec-1.wav" ∧ arg "rec-%1.wav" 2 = "rec-2.wav" ∧
    arg "rec-%1.wav" 1 ≠ arg "rec-%1.wav" 2 ∧
    ∃ ri rj fi fj,
      QHash.value (outcome (runOps true (session false) shortRun)).1.qhRecordInfo 1 = some ri ∧
      ri.sf = some fi ∧
      QHash.value (outcome (runOps true (session false) shortRun)).1.qhRecordInfo 2 = some rj ∧
      rj.sf = some fj ∧
      fi.path = "rec-1.wav" ∧ fj.path = "rec-2.wav" ∧ fi.path ≠ fj.path :=
  ⟨by decide, by decide, by decide, by decide,
    (C19_distinct_files "rec-%1.wav" 1 2 (by decide) (by decide)).1,
    _, _, _, _, rfl, rfl, rfl, rfl,
    (C19_distinct_files "rec-%1.wav" 1 2 (by decide) (by decide)).2.2.2 true (session false)
      (outcome (runOps true (session false) shortRun)).1 shortRun
      (outcome (runOps true (session false) shortRun)).2 _ _ _ _
      ⟨rfl, rfl, rfl⟩ rfl rfl rfl rfl rfl rfl⟩

end VoiceRecorder
